import Mathlib

/-!
# superdb-lsp: completion, hover and signature help over raw text

A shallow embedding of `lsp/builtins.go`, `lsp/completion.go`, `lsp/hover.go`
and `lsp/signature.go`, and of the deduplication and literal extraction of
`scripts/gen-builtins/main.go`.

* A Go `string` is a sequence of bytes, and a byte is its numeric value, so a
  string is a `List Nat`.  Indexing and slicing are by byte, as in Go.
* A Go `int` that the code only counts with is an `Int`; an index into a string
  is a `Nat`.
* A function that can stop with a runtime panic returns an `Option`, `none`
  being the panic.
* The registry is the package-level variable `Builtins`; the functions that
  read it take it as their first argument.
* A library function is modelled by what it returns: `strings.TrimSpace` on
  every string of bytes, with the white space of Unicode in UTF-8;
  `strings.ToLower` by its action on the ASCII letters, which is all of its
  action on a string of ASCII bytes.
-/

set_option autoImplicit false

namespace Lsp

/-! ## Strings -/

/-- A Go string: its bytes. -/
abbrev GoString := List Nat

/-- The bytes of an ASCII string literal. -/
def bytes (s : String) : GoString := s.toList.map Char.toNat

/-- The function `isIdentifierChar` of completion.go: ASCII letters, digits and underscore. -/
def isIdentifierChar (b : Nat) : Bool :=
  (97 ≤ b && b ≤ 122) || (65 ≤ b && b ≤ 90) || (48 ≤ b && b ≤ 57) || b == 95

/-- One step of the loop of `toLower` (builtins.go): `if c >= 'A' && c <= 'Z' { c += 'a' - 'A' }`. -/
def lowerByte (c : Nat) : Nat := if 65 ≤ c ∧ c ≤ 90 then c + 32 else c

/-- The function `toLower` of builtins.go: "Fast ASCII lowercase", byte by byte. -/
def toLower (s : GoString) : GoString := s.map lowerByte

/-- The library function `strings.ToLower` as far as it acts on ASCII: the letters `A` to `Z`
are mapped to `a` to `z` and every other byte is kept.  This is the library function on
every string of ASCII bytes, such as a run of identifier characters or a name of the tables.
On a string with other bytes the library also maps the cased letters outside ASCII (two of
them to ASCII letters: U+212A to `k` and U+0130 to `i`) and replaces a byte that is not
valid UTF-8 by U+FFFD; this model keeps those bytes as they are. -/
def stringsToLower (s : GoString) : GoString := s.map lowerByte

/-- The library function `strings.Split(text, "\n")`: the lines of a text.  There is always
at least one line, and a text that ends in a newline has an empty last line. -/
def splitLines : GoString → List GoString
  | [] => [[]]
  | c :: cs =>
    if c = 10 then [] :: splitLines cs
    else match splitLines cs with
      | [] => [[c]]
      | l :: ls => (c :: l) :: ls

/-- The library function `strings.HasPrefix`. -/
def hasPrefix (s pre : GoString) : Bool := pre.isPrefixOf s

/-- The library function `strings.HasSuffix`. -/
def hasSuffix (s suf : GoString) : Bool := suf.isSuffixOf s

/-- The first index at which `sub` occurs in `s`, if any. -/
def indexOf? (sub : GoString) : GoString → Option Nat
  | [] => if sub = [] then some 0 else none
  | c :: cs =>
    if sub.isPrefixOf (c :: cs) then some 0
    else (indexOf? sub cs).map (· + 1)

/-- The library function `strings.Index`: the index of the first occurrence of `sub` in `s`,
or `-1`. -/
def stringsIndex (s sub : GoString) : Int :=
  match indexOf? sub s with
  | some i => (i : Int)
  | none => -1

/-- The library function `strings.Contains`. -/
def stringsContains (s sub : GoString) : Bool := (indexOf? sub s).isSome

/-- The library function `strings.Count` for a separator of one byte. -/
def countByte (s : GoString) (b : Nat) : Nat := s.count b

/-- The UTF-8 encodings of the characters that `unicode.IsSpace` holds of, the white space
of `strings.TrimSpace`: tab, newline, vertical tab, form feed, carriage return, space,
U+0085, U+00A0, U+1680, U+2000 to U+200A, U+2028, U+2029, U+202F, U+205F and U+3000. -/
def spaceEncodings : List GoString :=
  [[9], [10], [11], [12], [13], [32], [194, 133], [194, 160], [225, 154, 128],
   [226, 128, 128], [226, 128, 129], [226, 128, 130], [226, 128, 131], [226, 128, 132],
   [226, 128, 133], [226, 128, 134], [226, 128, 135], [226, 128, 136], [226, 128, 137],
   [226, 128, 138], [226, 128, 168], [226, 128, 169], [226, 128, 175], [226, 129, 159],
   [227, 128, 128]]

/-- The string without the members of `ws` that it begins with, one after the other; the
number bounds how many are removed. -/
def stripLeading (ws : List GoString) : Nat → GoString → GoString
  | 0, s => s
  | n + 1, s =>
    match ws.find? (fun w => w.isPrefixOf s) with
    | some w => stripLeading ws n (s.drop w.length)
    | none => s

/-- The library function `strings.TrimSpace`: the leading and the trailing white space, as
defined by Unicode, removed.  The library decodes the string as UTF-8, forwards from its
start and backwards from its end, and removes the characters that `unicode.IsSpace` holds
of; a byte that is not part of a valid encoding decodes to U+FFFD, which is not white space,
so what is removed at either end is a sequence of the encodings of `spaceEncodings`. -/
def trimSpace (s : GoString) : GoString :=
  let t := stripLeading spaceEncodings s.length s
  (stripLeading (spaceEncodings.map List.reverse) t.length t.reverse).reverse

/-- The slice `s[a:b]` for `a ≤ b ≤ len(s)`. -/
def slice (s : GoString) (a b : Nat) : GoString := (s.take b).drop a

/-! ## Data model (builtins.go) -/

/-- The type `BuiltinKind` of builtins.go is an `int`. -/
abbrev BuiltinKind := Int

/-- Constant `KindKeyword` (iota 0). -/
abbrev KindKeyword : BuiltinKind := 0
/-- Constant `KindOperator` (iota 1). -/
abbrev KindOperator : BuiltinKind := 1
/-- Constant `KindFunction` (iota 2). -/
abbrev KindFunction : BuiltinKind := 2
/-- Constant `KindAggregate` (iota 3). -/
abbrev KindAggregate : BuiltinKind := 3
/-- Constant `KindType` (iota 4). -/
abbrev KindType : BuiltinKind := 4

/-- The struct `ParamDef`. -/
structure ParamDef where
  Name : GoString
  Doc : GoString
  deriving DecidableEq

/-- The struct `Builtin`. -/
structure Builtin where
  Name : GoString
  Kind : BuiltinKind
  Brief : GoString
  Doc : GoString
  Signature : GoString
  Parameters : List ParamDef
  deriving DecidableEq

/-- The struct `Registry`: `byName` is a map from the lowercased name to the element and
`byKind` a map from the kind to the elements of that kind.  A key that is absent from a Go
map reads as the zero value: a nil pointer, here `none`, and a nil slice, here `[]`. -/
structure Registry where
  byName : GoString → Option Builtin
  byKind : BuiltinKind → List Builtin

/-- The method `Registry.Lookup`: case-insensitive lookup by name. -/
def Registry.Lookup (r : Registry) (name : GoString) : Option Builtin :=
  r.byName (toLower name)

/-- The method `Registry.ByKind`. -/
def Registry.ByKind (r : Registry) (kind : BuiltinKind) : List Builtin := r.byKind kind

/-- The method `Registry.Keywords`. -/
def Registry.Keywords (r : Registry) : List Builtin := r.byKind KindKeyword
/-- The method `Registry.Operators`. -/
def Registry.Operators (r : Registry) : List Builtin := r.byKind KindOperator
/-- The method `Registry.Functions`. -/
def Registry.Functions (r : Registry) : List Builtin := r.byKind KindFunction
/-- The method `Registry.Aggregates`. -/
def Registry.Aggregates (r : Registry) : List Builtin := r.byKind KindAggregate
/-- The method `Registry.Types`. -/
def Registry.Types (r : Registry) : List Builtin := r.byKind KindType

/-- One pass of the two loops of `buildRegistry`: the element is stored under its lowercased
name, replacing what was there, and appended to the sequence of its kind. -/
def Registry.insert (r : Registry) (b : Builtin) : Registry where
  byName := fun n => if n = toLower b.Name then some b else r.byName n
  byKind := fun k => if k = b.Kind then r.byKind k ++ [b] else r.byKind k

/-- The function `buildRegistry`: the generated elements first, then the curated ones.  The
two tables are package-level variables in the source and arguments here. -/
def buildRegistry (grammarBuiltins allBuiltins : List Builtin) : Registry :=
  allBuiltins.foldl Registry.insert
    (grammarBuiltins.foldl Registry.insert ⟨fun _ => none, fun _ => []⟩)

/-- Modelled from the spec: the struct `Position` is declared in the protocol file, which is
not among the sources; the spec gives it as a zero-based line and character. -/
structure Position where
  Line : Nat
  Character : Nat
  deriving DecidableEq

/-! ## Signature help (signature.go) -/

/-- Modelled from the spec: the constants `MarkupKindPlainText` and `MarkupKindMarkdown` are
declared in the protocol file, which is not among the sources; they are the content-kind
tag of a result. -/
inductive MarkupKind where
  | PlainText
  | Markdown
  deriving DecidableEq

/-- The struct `MarkupContent`, from the fields the code sets. -/
structure MarkupContent where
  Kind : MarkupKind
  Value : GoString
  deriving DecidableEq

/-- The struct `ParameterInformation`, from the fields the code sets: `Label` is the array
`[2]int` of start and end, `Documentation` a pointer that may be nil. -/
structure ParameterInformation where
  Label : Nat × Nat
  Documentation : Option MarkupContent
  deriving DecidableEq

/-- The zero value of `ParameterInformation`, which `make` fills the slice with: an entry
the loop never writes keeps it. -/
def ParameterInformation.unset : ParameterInformation := ⟨(0, 0), none⟩

/-- The struct `SignatureInformation`, from the fields the code sets. -/
structure SignatureInformation where
  Label : GoString
  Documentation : Option MarkupContent
  Parameters : List ParameterInformation
  deriving DecidableEq

/-- The struct `SignatureHelp`, from the fields the code sets. -/
structure SignatureHelp where
  Signatures : List SignatureInformation
  ActiveSignature : Int
  ActiveParameter : Int
  deriving DecidableEq

/-- The inner loop of `buildSignatureHelp` over the bytes from `paramEnd` on:
`for paramEnd < len(sig) && sig[paramEnd] != ',' && sig[paramEnd] != ')' { paramEnd++ }`. -/
def skipToSep : GoString → Nat → Nat
  | [], paramEnd => paramEnd
  | c :: cs, paramEnd => if c ≠ 44 ∧ c ≠ 41 then skipToSep cs (paramEnd + 1) else paramEnd

/-- The end of a parameter that starts being scanned at index `paramEnd`. -/
def scanParamEnd (sig : GoString) (paramEnd : Nat) : Nat := skipToSep (sig.drop paramEnd) paramEnd

/-- The loop `for i, p := range b.Parameters` of `buildSignatureHelp`, from the parameter it
is at and the value of `currentOffset`; the result lists `params[i]` from there on.  The
slice `b.Signature[currentOffset:]` panics when `currentOffset` exceeds the length. -/
def labelSpans (sig : GoString) : List ParamDef → Nat → Option (List ParameterInformation)
  | [], _ => some []
  | p :: ps, currentOffset =>
    if currentOffset ≤ sig.length then
      match indexOf? p.Name (sig.drop currentOffset) with
      | none => (labelSpans sig ps currentOffset).map (ParameterInformation.unset :: ·)
      | some i =>
        let paramStart := i + currentOffset
        let paramEnd := scanParamEnd sig (paramStart + p.Name.length)
        (labelSpans sig ps (paramEnd + 1)).map
          (⟨(paramStart, paramEnd), some ⟨MarkupKind.PlainText, p.Doc⟩⟩ :: ·)
    else none

/-- The two `if`s of `buildSignatureHelp` on `activeParam`, `n` being `len(params)`. -/
def clampActive (n : Nat) (activeParam : Int) : Int :=
  let a := if activeParam ≥ (n : Int) then (n : Int) - 1 else activeParam
  if a < 0 then 0 else a

/-- The function `buildSignatureHelp`; `none` is the panic of an out-of-range slice. -/
def buildSignatureHelp (b : Builtin) (activeParam : Int) : Option SignatureHelp :=
  let labelOffset := (stringsIndex b.Signature [40] + 1).toNat
  match labelSpans b.Signature b.Parameters labelOffset with
  | none => none
  | some params =>
    let doc := if b.Doc = [] then b.Brief else b.Doc
    some {
      Signatures := [{
        Label := b.Signature
        Documentation := some ⟨MarkupKind.PlainText, doc⟩
        Parameters := params }]
      ActiveSignature := 0
      ActiveParameter := clampActive params.length activeParam }

/-- The first loop of `findFunctionContext`, from the line index `i` it is at and the lines
from there on: lines before the cursor's are written with their newline, the cursor's line
is cut at the cursor, or written whole when the cursor is past its end. -/
def writeToCursor (pos : Position) : Nat → List GoString → GoString
  | _, [] => []
  | i, l :: rest =>
    if i ≤ pos.Line then
      if i = pos.Line then
        if pos.Character ≤ l.length then l.take pos.Character else l
      else l ++ [10] ++ writeToCursor pos (i + 1) rest
    else []

/-- The string `content` of `findFunctionContext`: the text up to the cursor. -/
def textToCursor (text : GoString) (pos : Position) : GoString :=
  writeToCursor pos 0 (splitLines text)

/-- The backward loop of `findFunctionContext`, about to read index `i - 1` (so `0`
ends the loop) with the current `parenDepth`: the index `funcEnd` of the open parenthesis
found, or `none` when `funcEnd` stays `-1`. -/
def scanBack (content : GoString) : Nat → Int → Option Nat
  | 0, _ => none
  | i + 1, parenDepth =>
    let ch := content.getD i 0
    if ch = 41 then scanBack content i (parenDepth + 1)
    else if ch = 40 then
      if parenDepth = 0 then some i else scanBack content i (parenDepth - 1)
    else scanBack content i parenDepth

/-- The value of `funcEnd` after the backward loop over all of `content`. -/
def findOpenParen (content : GoString) : Option Nat := scanBack content content.length 0

/-- The loop `for funcStart >= 0 && isIdentifierChar(content[funcStart]) { funcStart-- }`
followed by `funcStart++`.  The argument is `funcStart + 1`, so that it stays a natural
number; the result is the final `funcStart`. -/
def scanNameStart (content : GoString) : Nat → Nat
  | 0 => 0
  | i + 1 => if isIdentifierChar (content.getD i 0) then scanNameStart content i else i + 1

/-- The forward loop of `findFunctionContext` over the bytes after the open parenthesis, from
the current `parenDepth` and `paramIndex`. -/
def countCommas : GoString → Int → Int → Int
  | [], _, paramIndex => paramIndex
  | ch :: rest, parenDepth, paramIndex =>
    if ch = 40 then countCommas rest (parenDepth + 1) paramIndex
    else if ch = 41 then countCommas rest (parenDepth - 1) paramIndex
    else if ch = 44 then
      if parenDepth = 0 then countCommas rest parenDepth (paramIndex + 1)
      else countCommas rest parenDepth paramIndex
    else countCommas rest parenDepth paramIndex

/-- The function `findFunctionContext`: the name of the enclosing call and the index of the
parameter the cursor is in, or the empty name and `0`. -/
def findFunctionContext (text : GoString) (pos : Position) : GoString × Int :=
  if pos.Line ≥ (splitLines text).length then ([], 0)
  else
    let content := textToCursor text pos
    match findOpenParen content with
    | none => ([], 0)
    | some funcEnd =>
      let funcStart := scanNameStart content funcEnd
      if funcStart ≥ funcEnd then ([], 0)
      else (slice content funcStart funcEnd, countCommas (content.drop (funcEnd + 1)) 0 0)

/-- The function `getSignatureHelp`.  The outer `none` is a panic, `some none` the nil
result. -/
def getSignatureHelp (Builtins : Registry) (text : GoString) (pos : Position) :
    Option (Option SignatureHelp) :=
  let fc := findFunctionContext text pos
  if fc.1 = [] then some none
  else match Builtins.Lookup fc.1 with
    | none => some none
    | some b =>
      if b.Kind ≠ KindFunction ∧ b.Kind ≠ KindAggregate then some none
      else if b.Signature = [] then some none
      else (buildSignatureHelp b fc.2).map some

/-! ## Completion (completion.go) -/

/-- Modelled from the spec: the constants `CompletionItemKindKeyword`,
`CompletionItemKindFunction` and `CompletionItemKindClass` are declared in the protocol file,
which is not among the sources; they are the kind tag of a completion item. -/
inductive CompletionItemKind where
  | Keyword
  | Function
  | Class
  deriving DecidableEq

/-- The struct `CompletionItem`, from the fields the code sets; `InsertText` is the empty
string when it is not set. -/
structure CompletionItem where
  Label : GoString
  Kind : CompletionItemKind
  Detail : GoString
  InsertText : GoString
  deriving DecidableEq

/-- The type `completionContext` with its three constants. -/
inductive completionContext where
  | contextGeneral
  | contextType
  | contextFunction
  deriving DecidableEq

open completionContext

/-- The function `getCompletionContext`. -/
def getCompletionContext (line : GoString) (col : Nat) : completionContext :=
  let col := if col > line.length then line.length else col
  let pfx := stringsToLower (line.take col)
  if stringsContains pfx (bytes "cast(") || stringsContains pfx (bytes "::") ||
      hasSuffix (trimSpace pfx) (bytes "<") then
    contextType
  else
    let openParens : Int := (countByte pfx 40 : Int) - (countByte pfx 41 : Int)
    if openParens > 0 then contextFunction else contextGeneral

/-- The loop `for start > 0 && isIdentifierChar(line[start-1]) { start-- }` of
`getCompletions` and of `getWordAtPosition`, from the current `start`. -/
def wordStart (line : GoString) : Nat → Nat
  | 0 => 0
  | start + 1 =>
    if isIdentifierChar (line.getD start 0) then wordStart line start else start + 1

/-- The test `prefix == "" || strings.HasPrefix(strings.ToLower(name), prefix)` of the three
completion loops. -/
def matchesPrefix (pfx : GoString) (name : GoString) : Bool :=
  pfx == [] || hasPrefix (stringsToLower name) pfx

/-- The function `getCompletionsByKind`: the loop appends an item for every element of the
kind that passes the test. -/
def getCompletionsByKind (Builtins : Registry) (kind : BuiltinKind) (pfx : GoString)
    (itemKind : CompletionItemKind) (labelPrefix : GoString) : List CompletionItem :=
  (Builtins.ByKind kind).foldl
    (fun items b =>
      if matchesPrefix pfx b.Name then
        let detail := if labelPrefix ≠ [] then labelPrefix ++ bytes ": " ++ b.Brief else b.Brief
        items ++ [{ Label := b.Name, Kind := itemKind, Detail := detail, InsertText := [] }]
      else items)
    []

/-- The function `getKeywordCompletions`. -/
def getKeywordCompletions (Builtins : Registry) (pfx : GoString) : List CompletionItem :=
  getCompletionsByKind Builtins KindKeyword pfx CompletionItemKind.Keyword []

/-- The function `getOperatorCompletions`. -/
def getOperatorCompletions (Builtins : Registry) (pfx : GoString) : List CompletionItem :=
  getCompletionsByKind Builtins KindOperator pfx CompletionItemKind.Function (bytes "operator")

/-- The function `getFunctionCompletions`. -/
def getFunctionCompletions (Builtins : Registry) (pfx : GoString) : List CompletionItem :=
  Builtins.Functions.foldl
    (fun items fn =>
      if matchesPrefix pfx fn.Name then
        items ++ [{ Label := fn.Name, Kind := CompletionItemKind.Function,
                    Detail := bytes "function: " ++ fn.Brief,
                    InsertText := fn.Name ++ bytes "($1)" }]
      else items)
    []

/-- The function `getAggregateCompletions`. -/
def getAggregateCompletions (Builtins : Registry) (pfx : GoString) : List CompletionItem :=
  Builtins.Aggregates.foldl
    (fun items agg =>
      if matchesPrefix pfx agg.Name then
        items ++ [{ Label := agg.Name, Kind := CompletionItemKind.Function,
                    Detail := bytes "aggregate: " ++ agg.Brief,
                    InsertText := agg.Name ++ bytes "($1)" }]
      else items)
    []

/-- The function `getTypeCompletions`. -/
def getTypeCompletions (Builtins : Registry) (pfx : GoString) : List CompletionItem :=
  getCompletionsByKind Builtins KindType pfx CompletionItemKind.Class (bytes "type")

/-- The word before the cursor that `getCompletions` computes: the identifier characters
that end at the cursor, lowercased, or the empty string when the cursor is past the end of the
line. -/
def completionPrefix (line : GoString) (character : Nat) : GoString :=
  if character ≤ line.length then
    let start := wordStart line character
    if start < character then stringsToLower (slice line start character) else []
  else []

/-- The function `getCompletions`. -/
def getCompletions (Builtins : Registry) (text : GoString) (pos : Position) :
    List CompletionItem :=
  let lines := splitLines text
  if pos.Line ≥ lines.length then []
  else
    let line := lines.getD pos.Line []
    let pfx := completionPrefix line pos.Character
    match getCompletionContext line pos.Character with
    | contextType => getTypeCompletions Builtins pfx
    | contextFunction =>
      getFunctionCompletions Builtins pfx ++ getAggregateCompletions Builtins pfx
    | contextGeneral =>
      getKeywordCompletions Builtins pfx ++ getOperatorCompletions Builtins pfx ++
        getFunctionCompletions Builtins pfx ++ getAggregateCompletions Builtins pfx ++
        getTypeCompletions Builtins pfx

/-! ## Hover (hover.go) -/

/-- The struct `Hover`, from the field the code sets. -/
structure Hover where
  Contents : MarkupContent
  deriving DecidableEq

/-- The loop `for end < len(line) && isIdentifierChar(line[end]) { end++ }` of
`getWordAtPosition` over the bytes from `stop` on, `stop` being the current value of the
variable `end`. -/
def wordEndLoop : GoString → Nat → Nat
  | [], stop => stop
  | c :: cs, stop => if isIdentifierChar c then wordEndLoop cs (stop + 1) else stop

/-- The value of `end` after the loop that starts at index `stop` of `line`. -/
def wordEnd (line : GoString) (stop : Nat) : Nat := wordEndLoop (line.drop stop) stop

/-- The function `getWordAtPosition`. -/
def getWordAtPosition (text : GoString) (pos : Position) : GoString :=
  let lines := splitLines text
  if pos.Line ≥ lines.length then []
  else
    let line := lines.getD pos.Line []
    if pos.Character > line.length then []
    else
      let start := wordStart line pos.Character
      let stop := wordEnd line pos.Character
      if start = stop then [] else slice line start stop

/-- The function `formatHoverContent`; each `fmt.Sprintf` writes its arguments in place of
the `%s` of its format. -/
def formatHoverContent (b : Builtin) : GoString :=
  if b.Kind = KindFunction ∨ b.Kind = KindAggregate then
    if b.Signature ≠ [] then
      let doc := if b.Doc = [] then b.Brief else b.Doc
      bytes "```spq\n" ++ b.Signature ++ bytes "\n```\n\n" ++ doc
    else
      let kindName := if b.Kind = KindAggregate then bytes "aggregate" else bytes "function"
      bytes "**" ++ b.Name ++ bytes "** (" ++ kindName ++ bytes ")\n\n" ++ b.Brief
  else if b.Kind = KindKeyword then
    bytes "**" ++ b.Name ++ bytes "** (keyword)\n\n" ++ b.Brief
  else if b.Kind = KindOperator then
    bytes "**" ++ b.Name ++ bytes "** (operator)\n\n" ++ b.Brief
  else if b.Kind = KindType then
    bytes "**" ++ b.Name ++ bytes "** (type)\n\n" ++ b.Brief
  else
    bytes "**" ++ b.Name ++ bytes "**\n\n" ++ b.Brief

/-- The function `getHover`; `none` is the nil result. -/
def getHover (Builtins : Registry) (text : GoString) (pos : Position) : Option Hover :=
  let word := getWordAtPosition text pos
  if word = [] then none
  else match Builtins.Lookup word with
    | none => none
    | some b => some { Contents := { Kind := MarkupKind.Markdown, Value := formatHoverContent b } }

/-! ## The curated table (builtins.go) -/

/-- The table `allBuiltins` of builtins.go: the functions and aggregates with their
hand-written documentation and signatures, in the order of the source. -/
def allBuiltins : List Builtin := [
  { Name := bytes "abs", Kind := KindFunction,
    Brief := bytes "Absolute value", Doc := bytes "Returns the absolute value of a number",
    Signature := bytes "abs(value: number) -> number",
    Parameters := [⟨bytes "value", bytes "Numeric value"⟩] },
  { Name := bytes "base64", Kind := KindFunction,
    Brief := bytes "Base64 encode/decode", Doc := bytes "Encode or decode base64 data",
    Signature := bytes "base64(value: bytes|string) -> string",
    Parameters := [⟨bytes "value", bytes "Value to encode/decode"⟩] },
  { Name := bytes "bucket", Kind := KindFunction,
    Brief := bytes "Bucket values into ranges", Doc := bytes "Bucket numeric values into fixed-size ranges",
    Signature := bytes "bucket(value: number, size: number) -> number",
    Parameters := [⟨bytes "value", bytes "Value to bucket"⟩, ⟨bytes "size", bytes "Bucket size"⟩] },
  { Name := bytes "ceil", Kind := KindFunction,
    Brief := bytes "Ceiling function", Doc := bytes "Round up to the nearest integer",
    Signature := bytes "ceil(value: number) -> number",
    Parameters := [⟨bytes "value", bytes "Numeric value"⟩] },
  { Name := bytes "cidr_match", Kind := KindFunction,
    Brief := bytes "Match IP against CIDR", Doc := bytes "Check if an IP address matches a CIDR network",
    Signature := bytes "cidr_match(network: net, ip: ip) -> bool",
    Parameters := [⟨bytes "network", bytes "CIDR network"⟩, ⟨bytes "ip", bytes "IP address to check"⟩] },
  { Name := bytes "coalesce", Kind := KindFunction,
    Brief := bytes "First non-null value", Doc := bytes "Return the first non-null value from arguments",
    Signature := bytes "coalesce(value: any, ...) -> any",
    Parameters := [⟨bytes "value", bytes "Values to check"⟩] },
  { Name := bytes "concat", Kind := KindFunction,
    Brief := bytes "Concatenate strings", Doc := bytes "Concatenate multiple strings into one",
    Signature := bytes "concat(values: string, ...) -> string",
    Parameters := [⟨bytes "values", bytes "Strings to concatenate"⟩] },
  { Name := bytes "compare", Kind := KindFunction,
    Brief := bytes "Compare two values", Doc := bytes "Compare two values, returning -1, 0, or 1",
    Signature := bytes "compare(a: any, b: any) -> int64",
    Parameters := [⟨bytes "a", bytes "First value"⟩, ⟨bytes "b", bytes "Second value"⟩] },
  { Name := bytes "date_part", Kind := KindFunction,
    Brief := bytes "Extract date component", Doc := bytes "Extract a component (year, month, day, etc.) from a timestamp",
    Signature := bytes "date_part(part: string, time: time) -> int64",
    Parameters := [⟨bytes "part", bytes "Part name (year, month, day, hour, minute, second)"⟩, ⟨bytes "time", bytes "Timestamp value"⟩] },
  { Name := bytes "fields", Kind := KindFunction,
    Brief := bytes "Get record field names", Doc := bytes "Return the field names of a record as an array",
    Signature := bytes "fields(record: record) -> [string]",
    Parameters := [⟨bytes "record", bytes "Record value"⟩] },
  { Name := bytes "flatten", Kind := KindFunction,
    Brief := bytes "Flatten nested records", Doc := bytes "Flatten nested record structure into dotted field names",
    Signature := bytes "flatten(record: record) -> record",
    Parameters := [⟨bytes "record", bytes "Record to flatten"⟩] },
  { Name := bytes "floor", Kind := KindFunction,
    Brief := bytes "Floor function", Doc := bytes "Round down to the nearest integer",
    Signature := bytes "floor(value: number) -> number",
    Parameters := [⟨bytes "value", bytes "Numeric value"⟩] },
  { Name := bytes "grep", Kind := KindFunction,
    Brief := bytes "Search with pattern", Doc := bytes "Search for a pattern in a value",
    Signature := bytes "grep(pattern: string|regexp, value: any) -> bool",
    Parameters := [⟨bytes "pattern", bytes "Search pattern"⟩, ⟨bytes "value", bytes "Value to search"⟩] },
  { Name := bytes "grok", Kind := KindFunction,
    Brief := bytes "Parse with grok pattern", Doc := bytes "Parse a string using a grok pattern",
    Signature := bytes "grok(pattern: string, value: string) -> record",
    Parameters := [⟨bytes "pattern", bytes "Grok pattern"⟩, ⟨bytes "value", bytes "String to parse"⟩] },
  { Name := bytes "has", Kind := KindFunction,
    Brief := bytes "Check if field exists", Doc := bytes "Check if a record has a specific field",
    Signature := bytes "has(record: record, field: string) -> bool",
    Parameters := [⟨bytes "record", bytes "Record to check"⟩, ⟨bytes "field", bytes "Field name"⟩] },
  { Name := bytes "has_error", Kind := KindFunction,
    Brief := bytes "Check for error", Doc := bytes "Check if a value contains a nested error",
    Signature := bytes "has_error(value: any) -> bool",
    Parameters := [⟨bytes "value", bytes "Value to check"⟩] },
  { Name := bytes "hex", Kind := KindFunction,
    Brief := bytes "Hexadecimal conversion", Doc := bytes "Convert bytes or string to hexadecimal",
    Signature := bytes "hex(value: bytes|string) -> string",
    Parameters := [⟨bytes "value", bytes "Value to convert"⟩] },
  { Name := bytes "is", Kind := KindFunction,
    Brief := bytes "Type check function", Doc := bytes "Check if a value is of a specific type",
    Signature := bytes "is(value: any, type: type) -> bool",
    Parameters := [⟨bytes "value", bytes "Value to check"⟩, ⟨bytes "type", bytes "Type to check against"⟩] },
  { Name := bytes "is_error", Kind := KindFunction,
    Brief := bytes "Check if value is error", Doc := bytes "Check if a value is an error",
    Signature := bytes "is_error(value: any) -> bool",
    Parameters := [⟨bytes "value", bytes "Value to check"⟩] },
  { Name := bytes "join", Kind := KindFunction,
    Brief := bytes "Join strings", Doc := bytes "Join an array of strings with a separator",
    Signature := bytes "join(array: [string], sep: string) -> string",
    Parameters := [⟨bytes "array", bytes "Array of strings"⟩, ⟨bytes "sep", bytes "Separator"⟩] },
  { Name := bytes "kind", Kind := KindFunction,
    Brief := bytes "Get value kind", Doc := bytes "Return the kind of a value (primitive, record, array, etc.)",
    Signature := bytes "kind(value: any) -> string",
    Parameters := [⟨bytes "value", bytes "Value to check"⟩] },
  { Name := bytes "ksuid", Kind := KindFunction,
    Brief := bytes "Generate KSUID", Doc := bytes "Generate a K-Sortable Unique Identifier",
    Signature := bytes "ksuid() -> string",
    Parameters := [] },
  { Name := bytes "len", Kind := KindFunction,
    Brief := bytes "Length of value", Doc := bytes "Return the length of a string, bytes, or array",
    Signature := bytes "len(value: string|bytes|array) -> int64",
    Parameters := [⟨bytes "value", bytes "Value to measure"⟩] },
  { Name := bytes "length", Kind := KindFunction,
    Brief := bytes "Length of value (alias)", Doc := bytes "Return the length of a string, bytes, or array (alias for len)",
    Signature := bytes "length(value: string|bytes|array) -> int64",
    Parameters := [⟨bytes "value", bytes "Value to measure"⟩] },
  { Name := bytes "levenshtein", Kind := KindFunction,
    Brief := bytes "Levenshtein distance", Doc := bytes "Calculate the Levenshtein edit distance between two strings",
    Signature := bytes "levenshtein(a: string, b: string) -> int64",
    Parameters := [⟨bytes "a", bytes "First string"⟩, ⟨bytes "b", bytes "Second string"⟩] },
  { Name := bytes "log", Kind := KindFunction,
    Brief := bytes "Logarithm", Doc := bytes "Calculate the logarithm of a number",
    Signature := bytes "log(value: number, base?: number) -> float64",
    Parameters := [⟨bytes "value", bytes "Numeric value"⟩, ⟨bytes "base", bytes "Log base (default: e)"⟩] },
  { Name := bytes "lower", Kind := KindFunction,
    Brief := bytes "Convert to lowercase", Doc := bytes "Convert a string to lowercase",
    Signature := bytes "lower(value: string) -> string",
    Parameters := [⟨bytes "value", bytes "String to convert"⟩] },
  { Name := bytes "missing", Kind := KindFunction,
    Brief := bytes "Create missing value", Doc := bytes "Create a missing value of optional type",
    Signature := bytes "missing(type?: type) -> missing",
    Parameters := [⟨bytes "type", bytes "Optional type"⟩] },
  { Name := bytes "nameof", Kind := KindFunction,
    Brief := bytes "Get type name", Doc := bytes "Return the name of a value's type",
    Signature := bytes "nameof(value: any) -> string",
    Parameters := [⟨bytes "value", bytes "Value to check"⟩] },
  { Name := bytes "nest_dotted", Kind := KindFunction,
    Brief := bytes "Nest dotted field names", Doc := bytes "Convert dotted field names into nested records",
    Signature := bytes "nest_dotted(record: record) -> record",
    Parameters := [⟨bytes "record", bytes "Record with dotted names"⟩] },
  { Name := bytes "network_of", Kind := KindFunction,
    Brief := bytes "Get network from IP", Doc := bytes "Get the network address from an IP and mask",
    Signature := bytes "network_of(ip: ip, mask: net) -> net",
    Parameters := [⟨bytes "ip", bytes "IP address"⟩, ⟨bytes "mask", bytes "Network mask"⟩] },
  { Name := bytes "now", Kind := KindFunction,
    Brief := bytes "Current timestamp", Doc := bytes "Return the current timestamp",
    Signature := bytes "now() -> time",
    Parameters := [] },
  { Name := bytes "nullif", Kind := KindFunction,
    Brief := bytes "Return null if equal", Doc := bytes "Return null if two values are equal, otherwise return the first value",
    Signature := bytes "nullif(a: any, b: any) -> any",
    Parameters := [⟨bytes "a", bytes "First value"⟩, ⟨bytes "b", bytes "Value to compare"⟩] },
  { Name := bytes "parse_sup", Kind := KindFunction,
    Brief := bytes "Parse Super format", Doc := bytes "Parse a string in Super format",
    Signature := bytes "parse_sup(value: string) -> any",
    Parameters := [⟨bytes "value", bytes "String to parse"⟩] },
  { Name := bytes "parse_uri", Kind := KindFunction,
    Brief := bytes "Parse URI string", Doc := bytes "Parse a URI string into its components",
    Signature := bytes "parse_uri(uri: string) -> record",
    Parameters := [⟨bytes "uri", bytes "URI to parse"⟩] },
  { Name := bytes "position", Kind := KindFunction,
    Brief := bytes "Find substring position", Doc := bytes "Find the position of a substring in a string",
    Signature := bytes "position(substr: string, str: string) -> int64",
    Parameters := [⟨bytes "substr", bytes "Substring to find"⟩, ⟨bytes "str", bytes "String to search"⟩] },
  { Name := bytes "pow", Kind := KindFunction,
    Brief := bytes "Power function", Doc := bytes "Calculate base raised to the power of exponent",
    Signature := bytes "pow(base: number, exp: number) -> number",
    Parameters := [⟨bytes "base", bytes "Base value"⟩, ⟨bytes "exp", bytes "Exponent"⟩] },
  { Name := bytes "quiet", Kind := KindFunction,
    Brief := bytes "Suppress errors", Doc := bytes "Suppress errors and return null instead",
    Signature := bytes "quiet(value: any) -> any",
    Parameters := [⟨bytes "value", bytes "Value to quiet"⟩] },
  { Name := bytes "regexp", Kind := KindFunction,
    Brief := bytes "Regular expression match", Doc := bytes "Match a string against a regular expression",
    Signature := bytes "regexp(pattern: string, value: string) -> bool",
    Parameters := [⟨bytes "pattern", bytes "Regex pattern"⟩, ⟨bytes "value", bytes "String to match"⟩] },
  { Name := bytes "regexp_replace", Kind := KindFunction,
    Brief := bytes "Regex replacement", Doc := bytes "Replace matches of a regex pattern",
    Signature := bytes "regexp_replace(value: string, pattern: string, replacement: string) -> string",
    Parameters := [⟨bytes "value", bytes "Input string"⟩, ⟨bytes "pattern", bytes "Regex pattern"⟩, ⟨bytes "replacement", bytes "Replacement string"⟩] },
  { Name := bytes "replace", Kind := KindFunction,
    Brief := bytes "String replacement", Doc := bytes "Replace occurrences of a substring",
    Signature := bytes "replace(value: string, old: string, new: string) -> string",
    Parameters := [⟨bytes "value", bytes "Input string"⟩, ⟨bytes "old", bytes "String to replace"⟩, ⟨bytes "new", bytes "Replacement string"⟩] },
  { Name := bytes "round", Kind := KindFunction,
    Brief := bytes "Round to precision", Doc := bytes "Round a number to a specified precision",
    Signature := bytes "round(value: number, precision?: int64) -> number",
    Parameters := [⟨bytes "value", bytes "Numeric value"⟩, ⟨bytes "precision", bytes "Decimal places (default: 0)"⟩] },
  { Name := bytes "split", Kind := KindFunction,
    Brief := bytes "Split string", Doc := bytes "Split a string by a separator",
    Signature := bytes "split(value: string, sep: string) -> [string]",
    Parameters := [⟨bytes "value", bytes "String to split"⟩, ⟨bytes "sep", bytes "Separator"⟩] },
  { Name := bytes "sqrt", Kind := KindFunction,
    Brief := bytes "Square root", Doc := bytes "Calculate the square root of a number",
    Signature := bytes "sqrt(value: number) -> float64",
    Parameters := [⟨bytes "value", bytes "Numeric value"⟩] },
  { Name := bytes "strftime", Kind := KindFunction,
    Brief := bytes "Format time as string", Doc := bytes "Format a timestamp as a string using a format specifier",
    Signature := bytes "strftime(format: string, time: time) -> string",
    Parameters := [⟨bytes "format", bytes "Format string"⟩, ⟨bytes "time", bytes "Timestamp value"⟩] },
  { Name := bytes "trim", Kind := KindFunction,
    Brief := bytes "Trim whitespace", Doc := bytes "Remove leading and trailing whitespace from a string",
    Signature := bytes "trim(value: string) -> string",
    Parameters := [⟨bytes "value", bytes "String to trim"⟩] },
  { Name := bytes "typename", Kind := KindFunction,
    Brief := bytes "Get type name", Doc := bytes "Return the name of a value's type as a string",
    Signature := bytes "typename(value: any) -> string",
    Parameters := [⟨bytes "value", bytes "Value to check"⟩] },
  { Name := bytes "typeof", Kind := KindFunction,
    Brief := bytes "Get type of value", Doc := bytes "Return the type of a value",
    Signature := bytes "typeof(value: any) -> type",
    Parameters := [⟨bytes "value", bytes "Value to check"⟩] },
  { Name := bytes "under", Kind := KindFunction,
    Brief := bytes "Get underlying value", Doc := bytes "Unwrap a value to get its underlying representation",
    Signature := bytes "under(value: any) -> any",
    Parameters := [⟨bytes "value", bytes "Value to unwrap"⟩] },
  { Name := bytes "unflatten", Kind := KindFunction,
    Brief := bytes "Unflatten records", Doc := bytes "Convert dotted field names back into nested records",
    Signature := bytes "unflatten(record: record) -> record",
    Parameters := [⟨bytes "record", bytes "Record to unflatten"⟩] },
  { Name := bytes "upper", Kind := KindFunction,
    Brief := bytes "Convert to uppercase", Doc := bytes "Convert a string to uppercase",
    Signature := bytes "upper(value: string) -> string",
    Parameters := [⟨bytes "value", bytes "String to convert"⟩] },
  { Name := bytes "cast", Kind := KindFunction,
    Brief := bytes "Cast value to type", Doc := bytes "Convert a value to a specified type",
    Signature := bytes "cast(value: any, type: type) -> any",
    Parameters := [⟨bytes "value", bytes "Value to cast"⟩, ⟨bytes "type", bytes "Target type"⟩] },
  { Name := bytes "error", Kind := KindFunction,
    Brief := bytes "Create error value", Doc := bytes "Create an error value with a message",
    Signature := bytes "error(message: string) -> error",
    Parameters := [⟨bytes "message", bytes "Error message"⟩] },
  { Name := bytes "max", Kind := KindFunction,
    Brief := bytes "Maximum of values", Doc := bytes "Return the maximum of two values",
    Signature := bytes "max(a: number, b: number) -> number",
    Parameters := [⟨bytes "a", bytes "First value"⟩, ⟨bytes "b", bytes "Second value"⟩] },
  { Name := bytes "min", Kind := KindFunction,
    Brief := bytes "Minimum of values", Doc := bytes "Return the minimum of two values",
    Signature := bytes "min(a: number, b: number) -> number",
    Parameters := [⟨bytes "a", bytes "First value"⟩, ⟨bytes "b", bytes "Second value"⟩] },
  { Name := bytes "count", Kind := KindAggregate,
    Brief := bytes "Count records", Doc := bytes "Count the number of records in a group",
    Signature := bytes "count() -> int64",
    Parameters := [] },
  { Name := bytes "sum", Kind := KindAggregate,
    Brief := bytes "Sum of values", Doc := bytes "Calculate the sum of numeric values",
    Signature := bytes "sum(value: number) -> number",
    Parameters := [⟨bytes "value", bytes "Numeric values"⟩] },
  { Name := bytes "avg", Kind := KindAggregate,
    Brief := bytes "Average of values", Doc := bytes "Calculate the average of numeric values",
    Signature := bytes "avg(value: number) -> float64",
    Parameters := [⟨bytes "value", bytes "Numeric values"⟩] },
  { Name := bytes "collect", Kind := KindAggregate,
    Brief := bytes "Collect values into array", Doc := bytes "Collect all values into an array",
    Signature := bytes "collect(value: any) -> [any]",
    Parameters := [⟨bytes "value", bytes "Values to collect"⟩] },
  { Name := bytes "collect_map", Kind := KindAggregate,
    Brief := bytes "Collect into map", Doc := bytes "Collect key-value pairs into a map",
    Signature := bytes "collect_map(key: any, value: any) -> map",
    Parameters := [⟨bytes "key", bytes "Map keys"⟩, ⟨bytes "value", bytes "Map values"⟩] },
  { Name := bytes "dcount", Kind := KindAggregate,
    Brief := bytes "Distinct count", Doc := bytes "Count the number of distinct values",
    Signature := bytes "dcount(value: any) -> int64",
    Parameters := [⟨bytes "value", bytes "Values to count"⟩] },
  { Name := bytes "any", Kind := KindAggregate,
    Brief := bytes "Any value from group", Doc := bytes "Return any arbitrary value from a group",
    Signature := bytes "any(value: any) -> any",
    Parameters := [⟨bytes "value", bytes "Values to choose from"⟩] },
  { Name := bytes "union", Kind := KindAggregate,
    Brief := bytes "Union of values", Doc := bytes "Create a set union of all values",
    Signature := bytes "union(value: any) -> set",
    Parameters := [⟨bytes "value", bytes "Values to union"⟩] },
  { Name := bytes "fuse", Kind := KindAggregate,
    Brief := bytes "Fuse schemas in group", Doc := bytes "Fuse schemas together within a group",
    Signature := bytes "fuse(value: any) -> type",
    Parameters := [⟨bytes "value", bytes "Values to fuse"⟩] },
  { Name := bytes "and", Kind := KindAggregate,
    Brief := bytes "Logical AND aggregate", Doc := bytes "Returns true if all values in the group are true",
    Signature := bytes "and(value: bool) -> bool",
    Parameters := [⟨bytes "value", bytes "Boolean values"⟩] },
  { Name := bytes "or", Kind := KindAggregate,
    Brief := bytes "Logical OR aggregate", Doc := bytes "Returns true if any value in the group is true",
    Signature := bytes "or(value: bool) -> bool",
    Parameters := [⟨bytes "value", bytes "Boolean values"⟩] },
  { Name := bytes "first", Kind := KindAggregate,
    Brief := bytes "First value in group", Doc := bytes "Return the first value encountered in a group",
    Signature := bytes "first(value: any) -> any",
    Parameters := [⟨bytes "value", bytes "Values to select from"⟩] },
  { Name := bytes "last", Kind := KindAggregate,
    Brief := bytes "Last value in group", Doc := bytes "Return the last value encountered in a group",
    Signature := bytes "last(value: any) -> any",
    Parameters := [⟨bytes "value", bytes "Values to select from"⟩] }
]

/-- The package-level variable `Builtins`, the registry every request reads.  The generated
table `grammarBuiltins` is in a file that is not among the sources and is an argument. -/
def Builtins (grammarBuiltins : List Builtin) : Registry :=
  buildRegistry grammarBuiltins allBuiltins

/-! ## Reference definitions

What the specification says in words, written down independently of the code, to compare
the functions above with. -/

/-- Open parentheses minus close parentheses in a piece of text. -/
def parenBalance (s : GoString) : Int := (s.count 40 : Int) - (s.count 41 : Int)

/-- The number of commas of `content` after index `k` that lie at parenthesis depth 0, the
depth of an index being counted over the text strictly between `k` and that index. -/
def topLevelCommas (content : GoString) (k : Nat) : Nat :=
  (List.range content.length).countP (fun j =>
    decide (k < j) && (content.getD j 0 == 44) &&
      decide (parenBalance (slice content (k + 1) j) = 0))

/-- Index `k` of `content` holds an open parenthesis and the text after it has as many open
as close parentheses. -/
def balancedOpenAt (content : GoString) (k : Nat) : Bool :=
  content[k]? == some 40 &&
    (content.drop (k + 1)).count 40 == (content.drop (k + 1)).count 41

/-- Index `k` is the rightmost open parenthesis of `content` with balanced text after it. -/
def IsEnclosing (content : GoString) (k : Nat) : Prop :=
  balancedOpenAt content k = true ∧
    ∀ j, j < content.length → k < j → balancedOpenAt content j = false

instance instDecidableIsEnclosing (content : GoString) (k : Nat) :
    Decidable (IsEnclosing content k) :=
  inferInstanceAs (Decidable (balancedOpenAt content k = true ∧
    ∀ j, j < content.length → k < j → balancedOpenAt content j = false))

/-- The maximal run of identifier characters of `content` that ends just before index `k`. -/
def identRunBefore (content : GoString) (k : Nat) : GoString :=
  ((content.take k).reverse.takeWhile isIdentifierChar).reverse

/-- The cursor at the end of the text `pre`: on its last line, after the last byte. -/
def cursorAtEnd (pre : GoString) : Position :=
  ⟨(splitLines pre).length - 1, ((splitLines pre).getLastD []).length⟩

/-- The context the specification assigns to a lowercased line prefix `p`: the type context
when `p` contains `cast(` or `::`, or ends in `<` once white space is trimmed; otherwise the
function context when `p` has more `(` than `)`; otherwise the general context. -/
def contextOfPrefix (p : GoString) : completionContext :=
  if bytes "cast(" <:+: p ∨ bytes "::" <:+: p ∨ bytes "<" <:+ trimSpace p then contextType
  else if p.count 41 < p.count 40 then contextFunction
  else contextGeneral

/-- The function `getCompletionContext` with the two library functions that it calls,
`strings.ToLower` and `strings.TrimSpace`, as arguments. -/
def getCompletionContextWith (lower trim : GoString → GoString)
    (line : GoString) (col : Nat) : completionContext :=
  let col := if col > line.length then line.length else col
  let pfx := lower (line.take col)
  if stringsContains pfx (bytes "cast(") || stringsContains pfx (bytes "::") ||
      hasSuffix (trim pfx) (bytes "<") then
    contextType
  else
    let openParens : Int := (countByte pfx 40 : Int) - (countByte pfx 41 : Int)
    if openParens > 0 then contextFunction else contextGeneral

/-- The context the specification assigns to a lowercased line prefix `p`, for a given way
of trimming white space. -/
def contextOfPrefixWith (trim : GoString → GoString) (p : GoString) : completionContext :=
  if bytes "cast(" <:+: p ∨ bytes "::" <:+: p ∨ bytes "<" <:+ trim p then contextType
  else if p.count 41 < p.count 40 then contextFunction
  else contextGeneral

/-- The upper-case form of a string as far as ASCII goes: `a` to `z` become `A` to `Z`. -/
def asciiUpper (s : GoString) : GoString :=
  s.map (fun c => if 97 ≤ c ∧ c ≤ 122 then c - 32 else c)

/-- The lower-case form of a string as far as ASCII goes: `A` to `Z` become `a` to `z`. -/
def asciiLower (s : GoString) : GoString :=
  s.map (fun c => if 65 ≤ c ∧ c ≤ 90 then c + 32 else c)

/-- The four conditions under which signature help is present, for the element `b`:
`findFunctionContext` yields a non-empty name, the name resolves to `b` in the registry,
`b` is a function or an aggregate, and the signature of `b` is not empty. -/
abbrev Resolves (r : Registry) (text : GoString) (pos : Position) (b : Builtin) : Prop :=
  (findFunctionContext text pos).1 ≠ [] ∧
    r.Lookup (findFunctionContext text pos).1 = some b ∧
    (b.Kind = KindFunction ∨ b.Kind = KindAggregate) ∧ b.Signature ≠ []

/-- A completion item without insert text: the element's name, a kind tag, and the brief,
after the category label when there is one. -/
def plainItem (itemKind : CompletionItemKind) (label : GoString) (b : Builtin) :
    CompletionItem :=
  { Label := b.Name, Kind := itemKind,
    Detail := if label = [] then b.Brief else label ++ bytes ": " ++ b.Brief,
    InsertText := [] }

/-- A completion item of a function or an aggregate: the name, the category label before
the brief, and the name followed by an empty argument slot as insert text. -/
def callItem (label : GoString) (b : Builtin) : CompletionItem :=
  { Label := b.Name, Kind := CompletionItemKind.Function,
    Detail := label ++ bytes ": " ++ b.Brief,
    InsertText := b.Name ++ bytes "($1)" }

/-- The elements of a kind that match a prefix, in registry order. -/
def matching (r : Registry) (kind : BuiltinKind) (pfx : GoString) : List Builtin :=
  (r.ByKind kind).filter (fun b => matchesPrefix pfx b.Name)

/-- The first index at or after `offset` at which `name` occurs in `sig`. -/
def firstOccurrenceFrom (sig name : GoString) (offset : Nat) : Option Nat :=
  (List.range (sig.length + 1)).find? (fun i =>
    decide (offset ≤ i) && name.isPrefixOf (sig.drop i))

/-- The first index at or after `start` at which `sig` holds a comma or a close parenthesis,
or the length of `sig` when there is none. -/
def firstSeparatorFrom (sig : GoString) (start : Nat) : Nat :=
  ((List.range sig.length).find? (fun i =>
    decide (start ≤ i) && (sig.getD i 0 == 44 || sig.getD i 0 == 41))).getD sig.length

/-- The label spans as the specification describes them, from the current search offset: a
parameter whose name occurs at or after the offset gets the span from the first such
occurrence to the first separator after the name, and the offset moves past that separator;
a parameter whose name does not occur gets no span and leaves the offset as it is. -/
def labelSpansSpec (sig : GoString) : List ParamDef → Nat → List (Option (Nat × Nat))
  | [], _ => []
  | p :: ps, offset =>
    match firstOccurrenceFrom sig p.Name offset with
    | none => none :: labelSpansSpec sig ps offset
    | some start =>
      let stop := firstSeparatorFrom sig (start + p.Name.length)
      some (start, stop) :: labelSpansSpec sig ps (stop + 1)

/-- The label spans of a list of `ParameterInformation`: an entry that was never written has
no documentation and no span. -/
def spansOf (params : List ParameterInformation) : List (Option (Nat × Nat)) :=
  params.map (fun p => p.Documentation.map (fun _ => p.Label))

/-- The kinds whose elements a completion context offers: the types in the type context,
the functions and aggregates in the function context, all five kinds in the general
context. -/
def contextSelects (ctx : completionContext) (kind : BuiltinKind) : Prop :=
  match ctx with
  | contextType => kind = KindType
  | contextFunction => kind = KindFunction ∨ kind = KindAggregate
  | contextGeneral =>
    kind = KindKeyword ∨ kind = KindOperator ∨ kind = KindFunction ∨ kind = KindAggregate ∨
      kind = KindType

instance instDecidableContextSelects (ctx : completionContext) (kind : BuiltinKind) :
    Decidable (contextSelects ctx kind) :=
  match ctx with
  | contextType => inferInstanceAs (Decidable (kind = KindType))
  | contextFunction => inferInstanceAs (Decidable (kind = KindFunction ∨ kind = KindAggregate))
  | contextGeneral =>
    inferInstanceAs (Decidable (kind = KindKeyword ∨ kind = KindOperator ∨
      kind = KindFunction ∨ kind = KindAggregate ∨ kind = KindType))

/-- The completion item of an element of one of the five kinds. -/
def itemFor (kind : BuiltinKind) (b : Builtin) : CompletionItem :=
  if kind = KindFunction then callItem (bytes "function") b
  else if kind = KindAggregate then callItem (bytes "aggregate") b
  else if kind = KindOperator then plainItem CompletionItemKind.Function (bytes "operator") b
  else if kind = KindType then plainItem CompletionItemKind.Class (bytes "type") b
  else plainItem CompletionItemKind.Keyword [] b

/-- The kind label the hover text shows for each of the five kinds. -/
def kindLabel (k : BuiltinKind) : GoString :=
  if k = KindFunction then bytes "function"
  else if k = KindAggregate then bytes "aggregate"
  else if k = KindKeyword then bytes "keyword"
  else if k = KindOperator then bytes "operator"
  else bytes "type"

/-- The hover text as the specification describes it.  For a function or an aggregate with
a signature: a fenced code block tagged `spq` that contains the signature, a blank line,
then the documentation, or the brief when there is no documentation.  Otherwise: the name
in bold, a space, the kind label in parentheses, a blank line, then the brief. -/
def hoverReference (b : Builtin) : GoString :=
  if (b.Kind = KindFunction ∨ b.Kind = KindAggregate) ∧ b.Signature ≠ [] then
    (bytes "```spq\n" ++ b.Signature ++ bytes "\n```") ++ bytes "\n\n" ++
      (if b.Doc = [] then b.Brief else b.Doc)
  else
    (bytes "**" ++ b.Name ++ bytes "**") ++ bytes " " ++
      (bytes "(" ++ kindLabel b.Kind ++ bytes ")") ++ bytes "\n\n" ++ b.Brief

/-- The slice `line[s:e]` is a maximal non-empty run of identifier characters: every byte
of it is an identifier character, and on each side it ends at the line's end or at a byte
that is not one. -/
def IsMaximalRun (line : GoString) (s e : Nat) : Prop :=
  s < e ∧ e ≤ line.length ∧
    (∀ i, i < e → s ≤ i → isIdentifierChar (line.getD i 0) = true) ∧
    (s = 0 ∨ isIdentifierChar (line.getD (s - 1) 0) = false) ∧
    (e = line.length ∨ isIdentifierChar (line.getD e 0) = false)

instance instDecidableIsMaximalRun (line : GoString) (s e : Nat) :
    Decidable (IsMaximalRun line s e) :=
  inferInstanceAs (Decidable (s < e ∧ e ≤ line.length ∧
    (∀ i, i < e → s ≤ i → isIdentifierChar (line.getD i 0) = true) ∧
    (s = 0 ∨ isIdentifierChar (line.getD (s - 1) 0) = false) ∧
    (e = line.length ∨ isIdentifierChar (line.getD e 0) = false)))

/-- The last entry of a list of elements whose lowercased name is the lowercased `n`. -/
def lastNamed (l : List Builtin) (n : GoString) : Option Builtin :=
  l.reverse.find? (fun b => toLower b.Name == toLower n)

/-- The length of the text up to the cursor as the specification counts it: the length plus
one of every line before the cursor's line, plus the character of the cursor, or the length
of the cursor's line when that is less. -/
def cursorOffset (lines : List GoString) (pos : Position) : Nat :=
  ((lines.take pos.Line).map (fun l => l.length + 1)).sum +
    min pos.Character (lines.getD pos.Line []).length

/-- The successive values of `parenDepth` in the forward loop of `findFunctionContext` over
the bytes after the open parenthesis, one after each byte read. -/
def forwardDepths : GoString → Int → List Int
  | [], _ => []
  | ch :: rest, parenDepth =>
    if ch = 40 then (parenDepth + 1) :: forwardDepths rest (parenDepth + 1)
    else if ch = 41 then (parenDepth - 1) :: forwardDepths rest (parenDepth - 1)
    else parenDepth :: forwardDepths rest parenDepth

/-- The spans of the remaining parameters follow the signature from index `start` on: each
parameter has a span, the span starts at `start`, the parameter's name stands there, and
when another parameter follows the span ends at a comma followed by a space, after which
the next span starts. -/
def spansFollow (sig : GoString) : List ParamDef → List ParameterInformation → Nat → Bool
  | [], [], _ => true
  | p :: ps, q :: qs, start =>
    q.Documentation.isSome && q.Label.1 == start && p.Name.isPrefixOf (sig.drop start) &&
      (ps.isEmpty || slice sig q.Label.2 (q.Label.2 + 2) == bytes ", ") &&
      spansFollow sig ps qs (q.Label.2 + 2)
  | _, _, _ => false

/-- An entry keeps its parameters consistent with its signature: the signature begins with
the name and an open parenthesis, `buildSignatureHelp` returns, and the spans it computes
follow the signature from just after that parenthesis. -/
def entryConsistent (b : Builtin) : Bool :=
  (b.Name ++ [40]).isPrefixOf b.Signature &&
    match buildSignatureHelp b 0 with
    | some r =>
      match r.Signatures with
      | [s] => spansFollow b.Signature b.Parameters s.Parameters (b.Name.length + 1)
      | _ => false
    | none => false

/-! ## Bounds-checked execution

The same functions with every index and slice expression checked as Go checks it: `s[i]`
needs `i < len(s)` and `s[a:b]` needs `a ≤ b ≤ len(s)`.  The result is `none` when a check
fails, that is, when the Go code panics. -/

/-- The index expression `s[i]`. -/
def indexChecked {α : Type} (s : List α) (i : Nat) : Option α := s.get? i

/-- The slice expression `s[a:b]`. -/
def sliceChecked (s : GoString) (a b : Nat) : Option GoString :=
  if a ≤ b ∧ b ≤ s.length then some (slice s a b) else none

/-- The function `getCompletionContext`, checked. -/
def getCompletionContextChecked (line : GoString) (col : Nat) : Option completionContext := do
  let col := if col > line.length then line.length else col
  let cut ← sliceChecked line 0 col
  let pfx := stringsToLower cut
  if stringsContains pfx (bytes "cast(") || stringsContains pfx (bytes "::") ||
      hasSuffix (trimSpace pfx) (bytes "<") then
    pure contextType
  else
    let openParens : Int := (countByte pfx 40 : Int) - (countByte pfx 41 : Int)
    if openParens > 0 then pure contextFunction else pure contextGeneral

/-- The loop `for start > 0 && isIdentifierChar(line[start-1]) { start-- }`, checked. -/
def wordStartChecked (line : GoString) : Nat → Option Nat
  | 0 => some 0
  | start + 1 => do
    let ch ← indexChecked line start
    if isIdentifierChar ch then wordStartChecked line start else pure (start + 1)

/-- The loop `for end < len(line) && isIdentifierChar(line[end]) { end++ }`, checked: `n` is
the number of bytes left, `len(line) - end`, so the loop ends when it is 0. -/
def wordEndChecked (line : GoString) : Nat → Nat → Option Nat
  | 0, stop => some stop
  | n + 1, stop => do
    let ch ← indexChecked line stop
    if isIdentifierChar ch then wordEndChecked line n (stop + 1) else pure stop

/-- The function `getCompletions`, checked. -/
def getCompletionsChecked (Builtins : Registry) (text : GoString) (pos : Position) :
    Option (List CompletionItem) := do
  let lines := splitLines text
  if pos.Line ≥ lines.length then pure []
  else
    let line ← indexChecked lines pos.Line
    let pfx ←
      if pos.Character ≤ line.length then do
        let start ← wordStartChecked line pos.Character
        if start < pos.Character then do
          let word ← sliceChecked line start pos.Character
          pure (stringsToLower word)
        else pure []
      else pure []
    let context ← getCompletionContextChecked line pos.Character
    match context with
    | contextType => pure (getTypeCompletions Builtins pfx)
    | contextFunction =>
      pure (getFunctionCompletions Builtins pfx ++ getAggregateCompletions Builtins pfx)
    | contextGeneral =>
      pure (getKeywordCompletions Builtins pfx ++ getOperatorCompletions Builtins pfx ++
        getFunctionCompletions Builtins pfx ++ getAggregateCompletions Builtins pfx ++
        getTypeCompletions Builtins pfx)

/-- The function `getWordAtPosition`, checked. -/
def getWordAtPositionChecked (text : GoString) (pos : Position) : Option GoString := do
  let lines := splitLines text
  if pos.Line ≥ lines.length then pure []
  else
    let line ← indexChecked lines pos.Line
    if pos.Character > line.length then pure []
    else
      let start ← wordStartChecked line pos.Character
      let stop ← wordEndChecked line (line.length - pos.Character) pos.Character
      if start = stop then pure [] else sliceChecked line start stop

/-- The first loop of `findFunctionContext`, checked, at the line index `i`: `n` is the
number of lines left, `len(lines) - i`. -/
def writeToCursorChecked (lines : List GoString) (pos : Position) : Nat → Nat → Option GoString
  | 0, _ => some []
  | n + 1, i =>
    if i ≤ pos.Line then do
      let l ← indexChecked lines i
      if i = pos.Line then
        if pos.Character ≤ l.length then sliceChecked l 0 pos.Character else pure l
      else do
        let rest ← writeToCursorChecked lines pos n (i + 1)
        pure (l ++ [10] ++ rest)
    else pure []

/-- The backward loop of `findFunctionContext`, checked. -/
def scanBackChecked (content : GoString) : Nat → Int → Option (Option Nat)
  | 0, _ => some none
  | i + 1, parenDepth => do
    let ch ← indexChecked content i
    if ch = 41 then scanBackChecked content i (parenDepth + 1)
    else if ch = 40 then
      if parenDepth = 0 then pure (some i) else scanBackChecked content i (parenDepth - 1)
    else scanBackChecked content i parenDepth

/-- The loop that finds the start of the function name, checked. -/
def scanNameStartChecked (content : GoString) : Nat → Option Nat
  | 0 => some 0
  | i + 1 => do
    let ch ← indexChecked content i
    if isIdentifierChar ch then scanNameStartChecked content i else pure (i + 1)

/-- The forward loop of `findFunctionContext`, checked, at the index `i`: `n` is the number
of bytes left, `len(content) - i`. -/
def countCommasChecked (content : GoString) : Nat → Nat → Int → Int → Option Int
  | 0, _, _, paramIndex => some paramIndex
  | n + 1, i, parenDepth, paramIndex => do
    let ch ← indexChecked content i
    if ch = 40 then countCommasChecked content n (i + 1) (parenDepth + 1) paramIndex
    else if ch = 41 then countCommasChecked content n (i + 1) (parenDepth - 1) paramIndex
    else if ch = 44 then
      if parenDepth = 0 then countCommasChecked content n (i + 1) parenDepth (paramIndex + 1)
      else countCommasChecked content n (i + 1) parenDepth paramIndex
    else countCommasChecked content n (i + 1) parenDepth paramIndex

/-- The function `findFunctionContext`, checked. -/
def findFunctionContextChecked (text : GoString) (pos : Position) : Option (GoString × Int) := do
  let lines := splitLines text
  if pos.Line ≥ lines.length then pure ([], 0)
  else
    let content ← writeToCursorChecked lines pos lines.length 0
    let found ← scanBackChecked content content.length 0
    match found with
    | none => pure ([], 0)
    | some funcEnd =>
      let funcStart ← scanNameStartChecked content funcEnd
      if funcStart ≥ funcEnd then pure ([], 0)
      else
        let funcName ← sliceChecked content funcStart funcEnd
        let paramIndex ←
          countCommasChecked content (content.length - (funcEnd + 1)) (funcEnd + 1) 0 0
        pure (funcName, paramIndex)

/-! ## The generator (scripts/gen-builtins/main.go) -/

/-- The function `toSet`: the map that holds `true` at every string of the list; a key
that is absent reads as `false`. -/
def toSet (ss : List GoString) : GoString → Bool :=
  ss.foldl (fun m s => fun x => if x = s then true else m x) (fun _ => false)

/-- The deduplication step of `main`: the keywords that are in neither the set of the
operators nor the set of all types, in their order. -/
def filterKeywords (keywords operators primitiveTypes sqlTypes : List GoString) :
    List GoString :=
  let operatorSet := toSet operators
  let allTypes := primitiveTypes ++ sqlTypes
  let typeSet := toSet allTypes
  keywords.foldl
    (fun filteredKeywords kw =>
      if !operatorSet kw && !typeSet kw then filteredKeywords ++ [kw] else filteredKeywords)
    []

/-- The entries of `grammarBuiltins` that `generateFile` writes out, in the order it writes
them: each has a name and a kind only. -/
def generateFile (keywords operators primitiveTypes sqlTypes : List GoString) : List Builtin :=
  keywords.map (fun kw => ⟨kw, KindKeyword, [], [], [], []⟩) ++
    operators.map (fun op => ⟨op, KindOperator, [], [], [], []⟩) ++
    primitiveTypes.map (fun t => ⟨t, KindType, [], [], [], []⟩) ++
    sqlTypes.map (fun t => ⟨t, KindType, [], [], [], []⟩)

/-- The entries that `main` generates from the four extracted lists: `generateFile` is
called with the filtered keywords and the other three lists as extracted. -/
def generatedBuiltins (keywords operators primitiveTypes sqlTypes : List GoString) :
    List Builtin :=
  generateFile (filterKeywords keywords operators primitiveTypes sqlTypes) operators
    primitiveTypes sqlTypes

/-- The function `strings.IndexByte`, with `none` for `-1`. -/
def indexByte? (c : Nat) : GoString → Option Nat
  | [] => none
  | x :: xs => if x = c then some 0 else (indexByte? c xs).map (· + 1)

/-- The loop of `extractCaseInsensitiveLiteral` over the bytes from the index `i` on, `n`
bounding the number of iterations left.  At a quote (34) the next quote is looked for in
the rest; when it is followed by `i` (105) the bytes between the two are returned, otherwise
`i` is set to the index `nextPos` after the closing quote and the loop's `i++` moves one
byte past it. -/
def extractLoop : Nat → GoString → GoString
  | 0, _ => []
  | _ + 1, [] => []
  | n + 1, c :: cs =>
    if c ≠ 34 then extractLoop n cs
    else
      match indexByte? 34 cs with
      | none => []
      | some e =>
        let val := cs.take e
        let fromNextPos := cs.drop (e + 1)
        if fromNextPos.head? = some 105 then val else extractLoop n (fromNextPos.drop 1)

/-- The function `extractCaseInsensitiveLiteral`: the loop runs at most once per byte. -/
def extractCaseInsensitiveLiteral (line : GoString) : GoString := extractLoop line.length line

/-! ### What the generator is meant to do -/

/-- The double-quoted literals of a line read left to right, each opening quote paired
with the next quote, each with the byte that follows its closing quote; an opening quote
without a closing one ends the reading.  The number bounds the bytes read. -/
def quotedLiterals : Nat → GoString → List (GoString × Option Nat)
  | 0, _ => []
  | _ + 1, [] => []
  | n + 1, c :: cs =>
    if c ≠ 34 then quotedLiterals n cs
    else
      match indexByte? 34 cs with
      | none => []
      | some e => (cs.take e, (cs.drop (e + 1)).head?) :: quotedLiterals n (cs.drop (e + 1))

/-- The contents of the first literal of a list that is followed by `i` (105), or the empty
string when there is none. -/
def firstMarked (literals : List (GoString × Option Nat)) : GoString :=
  match literals.find? (fun p => p.2 == some 105) with
  | some p => p.1
  | none => []

/-- The contents of the first literal of a line whose closing quote is followed by `i`, or
the empty string when there is none. -/
def firstInsensitiveLiteral (line : GoString) : GoString :=
  firstMarked (quotedLiterals line.length line)

/-- A name is emitted in a category by a list of generated entries. -/
def EmittedAs (entries : List Builtin) (name : GoString) (kind : BuiltinKind) : Prop :=
  ∃ b ∈ entries, b.Name = name ∧ b.Kind = kind

/-! ## Lemmas -/

/-! ### Text scanning lemmas -/

theorem parenBalance_nil : parenBalance [] = 0 := by simp [parenBalance]

theorem parenBalance_cons (c : Nat) (s : GoString) :
    parenBalance (c :: s) =
      parenBalance s + (if c = 40 then 1 else 0) - (if c = 41 then 1 else 0) := by
  unfold parenBalance
  by_cases h1 : c = 40
  · subst h1; simp; omega
  · by_cases h2 : c = 41
    · subst h2; simp; omega
    · have e1 : (c :: s).count 40 = s.count 40 := List.count_cons_of_ne (Ne.symm h1) s
      have e2 : (c :: s).count 41 = s.count 41 := List.count_cons_of_ne (Ne.symm h2) s
      simp [e1, e2, h1, h2]

theorem countCommas_eq (l : GoString) : ∀ (d idx : Int),
    countCommas l d idx = idx + ((List.range l.length).countP (fun j =>
      (l.getD j 0 == 44) && decide (d + parenBalance (l.take j) = 0)) : Nat) := by
  induction l with
  | nil => intro d idx; simp [countCommas]
  | cons c rest ih =>
    intro d idx
    rw [List.length_cons, List.range_succ_eq_map, List.countP_cons, List.countP_map]
    simp only [Function.comp_def, List.getD_cons_succ, List.take_succ_cons, List.getD_cons_zero,
      List.take_zero, parenBalance_nil, parenBalance_cons]
    unfold countCommas
    by_cases h1 : c = 40
    · subst h1
      rw [if_pos rfl, ih]
      simp
      congr 1; funext j; congr 2; simp; omega
    · by_cases h2 : c = 41
      · subst h2
        simp [ih]
        congr 1; funext j; congr 2; simp; omega
      · by_cases h3 : c = 44
        · subst h3
          by_cases hd : d = 0
          · subst hd; simp [ih]; omega
          · simp [ih, hd]
        · simp [h1, h2, h3, ih]

theorem countP_range_shift (p : Nat → Bool) (n m : Nat) :
    (List.range n).countP (fun j => decide (m ≤ j) && p j) =
      (List.range (n - m)).countP (fun i => p (i + m)) := by
  by_cases h : n ≤ m
  · have h0 : n - m = 0 := by omega
    rw [h0, List.range_zero, List.countP_nil, List.countP_eq_zero]
    intro j hj
    have : j < n := List.mem_range.mp hj
    simp; intro h'; omega
  · obtain ⟨t, rfl⟩ : ∃ t, n = m + t := ⟨n - m, by omega⟩
    rw [List.range_add, List.countP_append, List.countP_map]
    have h1 : (List.range m).countP (fun j => decide (m ≤ j) && p j) = 0 := by
      rw [List.countP_eq_zero]
      intro j hj
      have : j < m := List.mem_range.mp hj
      simp; intro h'; omega
    rw [h1, Nat.zero_add, Nat.add_sub_cancel_left]
    congr 1; funext i
    simp [Function.comp_def, Nat.add_comm]

theorem getD_drop_add (l : GoString) (m i : Nat) :
    (l.drop m).getD i 0 = l.getD (i + m) 0 := by
  simp [List.getD_eq_getElem?_getD, List.getElem?_drop, Nat.add_comm]

theorem slice_eq_take_drop (l : GoString) (m i : Nat) :
    slice l m (i + m) = (l.drop m).take i := by
  simp [slice, List.drop_take]

theorem topLevelCommas_eq (content : GoString) (k : Nat) :
    ((topLevelCommas content k : Nat) : Int) = countCommas (content.drop (k + 1)) 0 0 := by
  rw [countCommas_eq]
  simp only [Int.zero_add, List.length_drop]
  congr 1
  unfold topLevelCommas
  have := countP_range_shift (fun j => (content.getD j 0 == 44) &&
      decide (parenBalance (slice content (k + 1) j) = 0)) content.length (k + 1)
  simp only [slice_eq_take_drop, ← getD_drop_add] at this
  rw [← this]
  congr 1; funext j
  simp [Nat.succ_le_iff, Bool.and_assoc]

theorem parenBalance_eq_zero_iff (s : GoString) :
    parenBalance s = 0 ↔ s.count 40 = s.count 41 := by
  unfold parenBalance; omega

theorem balancedOpenAt_iff (content : GoString) (k : Nat) (hk : k < content.length) :
    balancedOpenAt content k = true ↔
      content.getD k 0 = 40 ∧ parenBalance (content.drop (k + 1)) = 0 := by
  simp [balancedOpenAt, parenBalance_eq_zero_iff, List.getD_eq_getElem?_getD,
    List.getElem?_eq_getElem hk]

theorem balancedOpenAt_lt (content : GoString) (k : Nat)
    (h : balancedOpenAt content k = true) : k < content.length := by
  by_contra hk
  have : content[k]? = none := List.getElem?_eq_none (by omega)
  simp [balancedOpenAt, this] at h

theorem drop_eq_getD_cons (content : GoString) (i : Nat) (hi : i < content.length) :
    content.drop i = content.getD i 0 :: content.drop (i + 1) := by
  rw [List.getD_eq_getElem?_getD, List.getElem?_eq_getElem hi]
  simp

theorem scanBack_spec (content : GoString) : ∀ (i : Nat) (d : Int), i ≤ content.length →
    d = - parenBalance (content.drop i) →
    (∀ j, i ≤ j → j < content.length → balancedOpenAt content j = false) →
    (∀ k, scanBack content i d = some k → IsEnclosing content k) ∧
    (scanBack content i d = none →
      ∀ j, j < content.length → balancedOpenAt content j = false) := by
  intro i
  induction i with
  | zero =>
    intro d _ _ hall
    refine ⟨fun k h => ?_, fun _ j hj => hall j (Nat.zero_le j) hj⟩
    simp [scanBack] at h
  | succ i ih =>
    intro d hi hd hall
    have hi' : i < content.length := hi
    have hdrop := drop_eq_getD_cons content i hi'
    have hbal : parenBalance (content.drop i) = parenBalance (content.drop (i + 1)) +
        (if content.getD i 0 = 40 then 1 else 0) - (if content.getD i 0 = 41 then 1 else 0) := by
      rw [hdrop, parenBalance_cons]
    have hstep : ∀ (hnot : balancedOpenAt content i = false),
        ∀ j, i ≤ j → j < content.length → balancedOpenAt content j = false := by
      intro hnot j hj hjl
      rcases Nat.eq_or_lt_of_le hj with h | h
      · subst h; exact hnot
      · exact hall j h hjl
    have hnotOpen : content.getD i 0 ≠ 40 → balancedOpenAt content i = false := by
      intro hne
      cases hb : balancedOpenAt content i with
      | false => rfl
      | true => exact absurd ((balancedOpenAt_iff content i hi').mp hb).1 hne
    unfold scanBack
    by_cases h1 : content.getD i 0 = 41
    · simp only [h1, if_true]
      have hnot := hnotOpen (by omega)
      exact ih (d + 1) (Nat.le_of_lt hi') (by rw [hbal, h1, hd]; simp; omega) (hstep hnot)
    · by_cases h2 : content.getD i 0 = 40
      · simp only [h2, if_true, show ¬ ((40 : Nat) = 41) by decide, if_false]
        by_cases h3 : d = 0
        · simp only [h3, if_true]
          refine ⟨fun k hk => ?_, fun h => by cases h⟩
          have hk' : i = k := by simpa using hk
          subst hk'
          refine ⟨(balancedOpenAt_iff content i hi').mpr ⟨h2, by omega⟩, ?_⟩
          intro j hjl hj
          exact hall j hj hjl
        · simp only [h3, if_false]
          have hnot : balancedOpenAt content i = false := by
            cases hb : balancedOpenAt content i with
            | false => rfl
            | true =>
              have := ((balancedOpenAt_iff content i hi').mp hb).2
              omega
          exact ih (d - 1) (Nat.le_of_lt hi') (by rw [hbal, h2, hd]; simp; omega) (hstep hnot)
      · simp only [h1, h2, if_false]
        have hnot := hnotOpen h2
        exact ih d (Nat.le_of_lt hi') (by rw [hbal, hd, if_neg h1, if_neg h2]; omega) (hstep hnot)

theorem isEnclosing_unique (content : GoString) (k k' : Nat)
    (h : IsEnclosing content k) (h' : IsEnclosing content k') : k = k' := by
  rcases Nat.lt_trichotomy k k' with hlt | heq | hgt
  · have := h.2 k' (balancedOpenAt_lt content k' h'.1) hlt
    rw [h'.1] at this; cases this
  · exact heq
  · have := h'.2 k (balancedOpenAt_lt content k h.1) hgt
    rw [h.1] at this; cases this

theorem findOpenParen_spec (content : GoString) :
    (∀ k, findOpenParen content = some k → IsEnclosing content k) ∧
    (findOpenParen content = none →
      ∀ j, j < content.length → balancedOpenAt content j = false) := by
  unfold findOpenParen
  apply scanBack_spec content content.length 0 (Nat.le_refl _)
  · simp [parenBalance_nil]
  · intro j hj hjl; omega

theorem findOpenParen_eq_some_iff (content : GoString) (k : Nat) :
    findOpenParen content = some k ↔ IsEnclosing content k := by
  constructor
  · exact (findOpenParen_spec content).1 k
  · intro h
    cases hf : findOpenParen content with
    | none =>
      have := (findOpenParen_spec content).2 hf k (balancedOpenAt_lt content k h.1)
      rw [h.1] at this; cases this
    | some k' =>
      have := (findOpenParen_spec content).1 k' hf
      rw [isEnclosing_unique content k k' h this]

theorem findOpenParen_eq_none_iff (content : GoString) :
    findOpenParen content = none ↔
      ∀ j, j < content.length → balancedOpenAt content j = false := by
  constructor
  · exact (findOpenParen_spec content).2
  · intro h
    cases hf : findOpenParen content with
    | none => rfl
    | some k =>
      have hk := (findOpenParen_spec content).1 k hf
      have := h k (balancedOpenAt_lt content k hk.1)
      rw [hk.1] at this; cases this

theorem scanNameStart_le (content : GoString) : ∀ k, scanNameStart content k ≤ k := by
  intro k
  induction k with
  | zero => simp [scanNameStart]
  | succ k ih =>
    unfold scanNameStart
    split
    · omega
    · omega

theorem identRunBefore_succ (content : GoString) (k : Nat) (hk : k < content.length) :
    identRunBefore content (k + 1) =
      if isIdentifierChar (content.getD k 0) then identRunBefore content k ++ [content.getD k 0]
      else [] := by
  unfold identRunBefore
  rw [List.take_succ, List.getD_eq_getElem?_getD, List.getElem?_eq_getElem hk]
  simp only [Option.toList_some, List.reverse_append, List.reverse_cons, List.reverse_nil,
    List.nil_append, List.singleton_append, Option.getD_some, List.takeWhile_cons]
  split <;> simp

theorem scanNameStart_spec (content : GoString) : ∀ k, k ≤ content.length →
    scanNameStart content k + (identRunBefore content k).length = k ∧
    slice content (scanNameStart content k) k = identRunBefore content k := by
  intro k
  induction k with
  | zero => intro _; simp [scanNameStart, identRunBefore, slice]
  | succ k ih =>
    intro hk
    have hk' : k < content.length := hk
    obtain ⟨ih1, ih2⟩ := ih (Nat.le_of_lt hk')
    rw [identRunBefore_succ content k hk']
    unfold scanNameStart
    by_cases hid : isIdentifierChar (content.getD k 0) = true
    · simp only [hid, if_true]
      refine ⟨by simp; omega, ?_⟩
      rw [← ih2]
      unfold slice
      rw [List.take_succ, List.getD_eq_getElem?_getD, List.getElem?_eq_getElem hk']
      simp only [Option.toList_some, Option.getD_some]
      rw [List.drop_append_of_le_length]
      simp only [List.length_take]
      have := scanNameStart_le content k
      omega
    · have hid' : isIdentifierChar (content.getD k 0) = false := by simpa using hid
      rw [hid']
      refine ⟨by simp, ?_⟩
      simp [slice]

theorem splitLines_ne_nil (s : GoString) : splitLines s ≠ [] := by
  cases s with
  | nil => simp [splitLines]
  | cons c cs =>
    unfold splitLines
    split
    · simp
    · split <;> simp

theorem splitLines_cons_newline (s : GoString) : splitLines (10 :: s) = [] :: splitLines s := by
  simp [splitLines]

theorem splitLines_cons_other (c : Nat) (s : GoString) (hc : c ≠ 10) :
    ∃ l ls, splitLines s = l :: ls ∧ splitLines (c :: s) = (c :: l) :: ls := by
  cases h : splitLines s with
  | nil => exact absurd h (splitLines_ne_nil s)
  | cons l ls =>
    refine ⟨l, ls, rfl, ?_⟩
    conv_lhs => unfold splitLines
    simp [hc, h]

theorem writeToCursor_shift (L C : Nat) : ∀ (lines : List GoString) (i : Nat),
    writeToCursor ⟨L + 1, C⟩ (i + 1) lines = writeToCursor ⟨L, C⟩ i lines := by
  intro lines
  induction lines with
  | nil => intro i; simp [writeToCursor]
  | cons l rest ih =>
    intro i
    unfold writeToCursor
    simp only [Nat.add_le_add_iff_right, Nat.add_right_cancel_iff]
    rw [ih (i + 1)]

theorem textToCursor_cons_newline (s : GoString) (L C : Nat) :
    textToCursor (10 :: s) ⟨L + 1, C⟩ = 10 :: textToCursor s ⟨L, C⟩ := by
  unfold textToCursor
  rw [splitLines_cons_newline]
  conv_lhs => rw [writeToCursor]
  simp [writeToCursor_shift]

theorem textToCursor_cons_other_zero (c : Nat) (s : GoString) (hc : c ≠ 10) (C : Nat) :
    textToCursor (c :: s) ⟨0, C + 1⟩ = c :: textToCursor s ⟨0, C⟩ := by
  obtain ⟨l, ls, h1, h2⟩ := splitLines_cons_other c s hc
  unfold textToCursor
  rw [h1, h2]
  rw [writeToCursor, writeToCursor]
  simp
  split <;> rfl

theorem textToCursor_cons_other_succ (c : Nat) (s : GoString) (hc : c ≠ 10) (L C : Nat) :
    textToCursor (c :: s) ⟨L + 1, C⟩ = c :: textToCursor s ⟨L + 1, C⟩ := by
  obtain ⟨l, ls, h1, h2⟩ := splitLines_cons_other c s hc
  unfold textToCursor
  rw [h1, h2]
  rw [writeToCursor, writeToCursor]
  simp

theorem cursorAtEnd_cons_newline (s : GoString) :
    cursorAtEnd (10 :: s) = ⟨(cursorAtEnd s).Line + 1, (cursorAtEnd s).Character⟩ := by
  unfold cursorAtEnd
  rw [splitLines_cons_newline]
  cases h : splitLines s with
  | nil => exact absurd h (splitLines_ne_nil s)
  | cons l ls => simp [List.getLastD]

theorem cursorAtEnd_cons_other (c : Nat) (s : GoString) (hc : c ≠ 10) :
    cursorAtEnd (c :: s) =
      if (cursorAtEnd s).Line = 0 then ⟨0, (cursorAtEnd s).Character + 1⟩ else cursorAtEnd s := by
  obtain ⟨l, ls, h1, h2⟩ := splitLines_cons_other c s hc
  unfold cursorAtEnd
  rw [h1, h2]
  cases ls with
  | nil => simp [List.getLastD]
  | cons l2 ls2 => simp [List.getLastD]

theorem textToCursor_append (pre post : GoString) :
    textToCursor (pre ++ post) (cursorAtEnd pre) = pre := by
  induction pre with
  | nil =>
    cases h : splitLines post with
    | nil => exact absurd h (splitLines_ne_nil post)
    | cons l ls => simp [textToCursor, cursorAtEnd, splitLines, h, writeToCursor, List.getLastD]
  | cons c cs ih =>
    by_cases hc : c = 10
    · subst hc
      rw [cursorAtEnd_cons_newline, List.cons_append, textToCursor_cons_newline, ih]
    · rw [cursorAtEnd_cons_other c cs hc, List.cons_append]
      by_cases hL : (cursorAtEnd cs).Line = 0
      · rw [if_pos hL, textToCursor_cons_other_zero c _ hc]
        have : cursorAtEnd cs = ⟨0, (cursorAtEnd cs).Character⟩ := by
          rw [← hL]
        rw [← this, ih]
      · rw [if_neg hL]
        obtain ⟨L, hL'⟩ : ∃ L, (cursorAtEnd cs).Line = L + 1 := ⟨(cursorAtEnd cs).Line - 1, by omega⟩
        have : cursorAtEnd cs = ⟨L + 1, (cursorAtEnd cs).Character⟩ := by
          rw [← hL']
        rw [this, textToCursor_cons_other_succ c _ hc, ← this, ih]

theorem splitLines_length (s : GoString) : (splitLines s).length = s.count 10 + 1 := by
  induction s with
  | nil => simp [splitLines]
  | cons c cs ih =>
    by_cases hc : c = 10
    · subst hc; rw [splitLines_cons_newline]; simp [ih]
    · obtain ⟨l, ls, h1, h2⟩ := splitLines_cons_other c cs hc
      rw [h2, List.count_cons_of_ne (Ne.symm hc)]
      rw [h1] at ih
      simpa using ih

theorem cursorAtEnd_line_lt (pre post : GoString) :
    (cursorAtEnd pre).Line < (splitLines (pre ++ post)).length := by
  simp only [cursorAtEnd, splitLines_length, List.count_append]
  omega

theorem isEnclosing_lt (content : GoString) (k : Nat) (h : IsEnclosing content k) :
    k < content.length := balancedOpenAt_lt content k h.1

theorem identRunBefore_eq_nil_iff (content : GoString) (k : Nat) (hk : k ≤ content.length) :
    identRunBefore content k = [] ↔ scanNameStart content k ≥ k := by
  have h := (scanNameStart_spec content k hk).1
  have hle := scanNameStart_le content k
  constructor
  · intro h0; rw [h0] at h; simp at h; omega
  · intro h1
    have : (identRunBefore content k).length = 0 := by omega
    exact List.length_eq_zero.mp this

theorem findFunctionContext_eq (text : GoString) (pos : Position)
    (hline : pos.Line < (splitLines text).length) :
    findFunctionContext text pos =
      match findOpenParen (textToCursor text pos) with
      | none => ([], 0)
      | some k =>
        if identRunBefore (textToCursor text pos) k = [] then ([], 0)
        else (identRunBefore (textToCursor text pos) k,
          (topLevelCommas (textToCursor text pos) k : Int)) := by
  unfold findFunctionContext
  rw [if_neg (by omega)]
  dsimp only
  cases hf : findOpenParen (textToCursor text pos) with
  | none => rfl
  | some k =>
    have hk : k ≤ (textToCursor text pos).length :=
      Nat.le_of_lt (isEnclosing_lt _ k ((findOpenParen_eq_some_iff _ k).mp hf))
    have hiff := identRunBefore_eq_nil_iff (textToCursor text pos) k hk
    dsimp only
    by_cases h0 : identRunBefore (textToCursor text pos) k = []
    · rw [if_pos (hiff.mp h0), if_pos h0]
    · rw [if_neg (fun h => h0 (hiff.mpr h)), if_neg h0,
        (scanNameStart_spec (textToCursor text pos) k hk).2, topLevelCommas_eq]

theorem getSignatureHelp_of_name_nil (r : Registry) (text : GoString) (pos : Position)
    (h : (findFunctionContext text pos).1 = []) : getSignatureHelp r text pos = some none := by
  unfold getSignatureHelp
  simp [h]

/-! ### C1 and C2: the parameter index -/

/-- C1: when `findFunctionContext` finds the enclosing open parenthesis at index `k` of the
text up to the cursor, with a non-empty identifier run before it, the parameter index it
returns is the number of commas after `k` in the text up to the cursor that lie at
parenthesis depth 0. -/
theorem findFunctionContext_paramIndex (text : GoString) (pos : Position) (k : Nat)
    (hline : pos.Line < (splitLines text).length)
    (hk : findOpenParen (textToCursor text pos) = some k)
    (hname : identRunBefore (textToCursor text pos) k ≠ []) :
    (findFunctionContext text pos).2 = (topLevelCommas (textToCursor text pos) k : Int) := by
  rw [findFunctionContext_eq text pos hline, hk]
  simp only []
  rw [if_neg hname]

/-- Witness of C1: after `f(` the index is 0, after `f(x,` it is 1, and the comma
inside the closed argument of `f(g(a,b),` is not counted. -/
theorem findFunctionContext_paramIndex_witness :
    (findFunctionContext (bytes "f(") ⟨0, 2⟩).2 = 0 ∧
    (findFunctionContext (bytes "f(x,") ⟨0, 4⟩).2 = 1 ∧
    (findFunctionContext (bytes "f(g(a,b),") ⟨0, 9⟩).2 = 1 :=
  ⟨(findFunctionContext_paramIndex (bytes "f(") ⟨0, 2⟩ 1 (by decide) (by decide)
      (by decide)).trans (by decide),
   (findFunctionContext_paramIndex (bytes "f(x,") ⟨0, 4⟩ 1 (by decide) (by decide)
      (by decide)).trans (by decide),
   (findFunctionContext_paramIndex (bytes "f(g(a,b),") ⟨0, 9⟩ 1 (by decide) (by decide)
      (by decide)).trans (by decide)⟩

/-- Counterexample to C2: in the document `f(a, b` with the cursor after `f(a` there is a
depth-0 comma between the open parenthesis and the end of the document, yet the index is 0,
the same as for the document `f(a`: a comma after the cursor is not counted. -/
theorem findFunctionContext_whole_document_counterexample :
    topLevelCommas (bytes "f(a, b") 1 = 1 ∧
    findFunctionContext (bytes "f(a, b") ⟨0, 3⟩ = (bytes "f", 0) ∧
    findFunctionContext (bytes "f(a") ⟨0, 3⟩ = (bytes "f", 0) := by
  decide

/-- C2, amended: the active-parameter index is computed by scanning forward from just after
the enclosing open parenthesis through the text up to the cursor only.  With the cursor at
the end of `pre`, whatever text `post` follows the cursor, the text up to the cursor is `pre`,
the result is the one for the document `pre` alone, and the index is the number of depth-0
commas of `pre` after the open parenthesis. -/
theorem findFunctionContext_append_after_cursor (pre post : GoString) :
    textToCursor (pre ++ post) (cursorAtEnd pre) = pre ∧
    findFunctionContext (pre ++ post) (cursorAtEnd pre) =
      findFunctionContext pre (cursorAtEnd pre) ∧
    ∀ k, findOpenParen pre = some k → identRunBefore pre k ≠ [] →
      (findFunctionContext (pre ++ post) (cursorAtEnd pre)).2 = (topLevelCommas pre k : Int) := by
  have h1 := textToCursor_append pre post
  have h2 := textToCursor_append pre []
  have l1 := cursorAtEnd_line_lt pre post
  have l2 := cursorAtEnd_line_lt pre []
  rw [List.append_nil] at h2 l2
  refine ⟨h1, ?_, ?_⟩
  · rw [findFunctionContext_eq _ _ l1, findFunctionContext_eq _ _ l2, h1, h2]
  · intro k hk hname
    rw [findFunctionContext_eq _ _ l1, h1, hk]
    simp only []
    rw [if_neg hname]

/-- Witness of C2 as amended: for `f(a` followed after the cursor by `, b` the text up to
the cursor is `f(a` and the index is 0. -/
theorem findFunctionContext_append_after_cursor_witness :
    textToCursor (bytes "f(a" ++ bytes ", b") (cursorAtEnd (bytes "f(a")) = bytes "f(a" ∧
    findFunctionContext (bytes "f(a" ++ bytes ", b") (cursorAtEnd (bytes "f(a")) =
      (bytes "f", 0) :=
  ⟨(findFunctionContext_append_after_cursor (bytes "f(a") (bytes ", b")).1,
   (findFunctionContext_append_after_cursor (bytes "f(a") (bytes ", b")).2.1.trans
     (by decide)⟩

/-! ### C3 and C4: the enclosing parenthesis and the function name -/

theorem identRunBefore_ident (content : GoString) (k : Nat) :
    ∀ c ∈ identRunBefore content k, isIdentifierChar c = true := by
  intro c hc
  unfold identRunBefore at hc
  rw [List.mem_reverse] at hc
  exact List.mem_takeWhile_imp hc

theorem scanNameStart_boundary (content : GoString) : ∀ k,
    scanNameStart content k = 0 ∨
      isIdentifierChar (content.getD (scanNameStart content k - 1) 0) = false := by
  intro k
  induction k with
  | zero => left; simp [scanNameStart]
  | succ k ih =>
    unfold scanNameStart
    by_cases hid : isIdentifierChar (content.getD k 0) = true
    · rw [if_pos hid]; exact ih
    · rw [if_neg hid]; right; simpa using hid

/-- C3: `findFunctionContext` takes as the enclosing open parenthesis the rightmost `(` of
the text up to the cursor that has as many `(` as `)` after it: the backward scan stops at
index `k` exactly when `k` is that parenthesis, and the result is then read off at `k` (the
identifier run before `k` and the depth-0 commas after `k`).  When no `(` of the text up to
the cursor has balanced text after it, the result is the empty name and signature help is
absent. -/
theorem findFunctionContext_enclosing (text : GoString) (pos : Position)
    (hline : pos.Line < (splitLines text).length) :
    (∀ k, findOpenParen (textToCursor text pos) = some k ↔
      IsEnclosing (textToCursor text pos) k) ∧
    (∀ k, IsEnclosing (textToCursor text pos) k →
      findFunctionContext text pos =
        if identRunBefore (textToCursor text pos) k = [] then ([], 0)
        else (identRunBefore (textToCursor text pos) k,
          (topLevelCommas (textToCursor text pos) k : Int))) ∧
    ((∀ j, j < (textToCursor text pos).length →
        balancedOpenAt (textToCursor text pos) j = false) →
      findFunctionContext text pos = ([], 0) ∧
        ∀ r : Registry, getSignatureHelp r text pos = some none) := by
  refine ⟨fun k => findOpenParen_eq_some_iff _ k, ?_, ?_⟩
  · intro k hk
    rw [findFunctionContext_eq text pos hline, (findOpenParen_eq_some_iff _ k).mpr hk]
  · intro hall
    have h := findFunctionContext_eq text pos hline
    rw [(findOpenParen_eq_none_iff _).mpr hall] at h
    exact ⟨h, fun r => getSignatureHelp_of_name_nil r text pos (by rw [h])⟩

/-- Witness of C3: `f(g(` resolves `g`, `f(g(a), ` resolves `f`, and in `abs(x)` every
parenthesis is closed, so signature help is absent. -/
theorem findFunctionContext_enclosing_witness :
    findFunctionContext (bytes "f(g(") ⟨0, 4⟩ = (bytes "g", 0) ∧
    findFunctionContext (bytes "f(g(a), ") ⟨0, 8⟩ = (bytes "f", 1) ∧
    getSignatureHelp (Builtins []) (bytes "abs(x)") ⟨0, 6⟩ = some none :=
  ⟨((findFunctionContext_enclosing (bytes "f(g(") ⟨0, 4⟩ (by decide)).2.1 3
      (by decide)).trans (by decide),
   ((findFunctionContext_enclosing (bytes "f(g(a), ") ⟨0, 8⟩ (by decide)).2.1 1
      (by decide)).trans (by decide),
   ((findFunctionContext_enclosing (bytes "abs(x)") ⟨0, 6⟩ (by decide)).2.2
      (by decide)).2 (Builtins [])⟩

/-- C4: the function name recovered by `findFunctionContext` is the maximal run of
identifier characters of the text up to the cursor that ends just before the enclosing open
parenthesis at `k`: it is the slice of that length ending at `k`, it holds identifier
characters only, and the byte before it, if there is one, is not an identifier character.
When the run is empty the name is empty and `getSignatureHelp` returns absent. -/
theorem findFunctionContext_name (text : GoString) (pos : Position) (k : Nat)
    (hline : pos.Line < (splitLines text).length)
    (hk : findOpenParen (textToCursor text pos) = some k) :
    (findFunctionContext text pos).1 = identRunBefore (textToCursor text pos) k ∧
    (identRunBefore (textToCursor text pos) k).length ≤ k ∧
    slice (textToCursor text pos) (k - (identRunBefore (textToCursor text pos) k).length) k =
      identRunBefore (textToCursor text pos) k ∧
    (∀ c ∈ identRunBefore (textToCursor text pos) k, isIdentifierChar c = true) ∧
    ((identRunBefore (textToCursor text pos) k).length < k →
      isIdentifierChar ((textToCursor text pos).getD
        (k - (identRunBefore (textToCursor text pos) k).length - 1) 0) = false) ∧
    (identRunBefore (textToCursor text pos) k = [] →
      findFunctionContext text pos = ([], 0) ∧
        ∀ r : Registry, getSignatureHelp r text pos = some none) := by
  have hkl : k ≤ (textToCursor text pos).length :=
    Nat.le_of_lt (isEnclosing_lt _ k ((findOpenParen_eq_some_iff _ k).mp hk))
  obtain ⟨hs1, hs2⟩ := scanNameStart_spec (textToCursor text pos) k hkl
  have hstart : k - (identRunBefore (textToCursor text pos) k).length =
      scanNameStart (textToCursor text pos) k := by omega
  have heq := findFunctionContext_eq text pos hline
  rw [hk] at heq
  dsimp only at heq
  refine ⟨?_, by omega, by rw [hstart, hs2], identRunBefore_ident _ k, ?_, ?_⟩
  · rw [heq]
    by_cases h0 : identRunBefore (textToCursor text pos) k = []
    · rw [if_pos h0, h0]
    · rw [if_neg h0]
  · intro hlt
    rw [hstart]
    rcases scanNameStart_boundary (textToCursor text pos) k with h | h
    · omega
    · exact h
  · intro h0
    rw [if_pos h0] at heq
    exact ⟨heq, fun r => getSignatureHelp_of_name_nil r text pos (by rw [heq])⟩

/-- Witness of C4: in `x + (1)` with the cursor before the close parenthesis, the enclosing
parenthesis at index 4 follows a space, the name is empty and signature help is absent;
in `sum(x` the name is `sum`. -/
theorem findFunctionContext_name_witness :
    findOpenParen (textToCursor (bytes "x + (1)") ⟨0, 6⟩) = some 4 ∧
    identRunBefore (textToCursor (bytes "x + (1)") ⟨0, 6⟩) 4 = [] ∧
    getSignatureHelp (Builtins []) (bytes "x + (1)") ⟨0, 6⟩ = some none ∧
    (findFunctionContext (bytes "1+sum(x") ⟨0, 7⟩).1 = bytes "sum" :=
  ⟨by decide, by decide,
   ((findFunctionContext_name (bytes "x + (1)") ⟨0, 6⟩ 4 (by decide) (by decide)).2.2.2.2.2
      (by decide)).2 (Builtins []),
   (findFunctionContext_name (bytes "1+sum(x") ⟨0, 7⟩ 5 (by decide) (by decide)).1.trans
      (by decide)⟩

/-! ### C6: label spans -/

theorem indexOf?_eq_find? (name : GoString) : ∀ l : GoString,
    indexOf? name l =
      (List.range (l.length + 1)).find? (fun i => name.isPrefixOf (l.drop i)) := by
  intro l
  induction l with
  | nil =>
    unfold indexOf?
    by_cases h : name = []
    · subst h; simp [List.range_succ]
    · cases name with
      | nil => exact absurd rfl h
      | cons a as => simp [List.range_succ, List.isPrefixOf]
  | cons c cs ih =>
    unfold indexOf?
    rw [List.length_cons, List.range_succ_eq_map (cs.length + 1), List.find?_cons]
    simp only [List.drop_zero]
    by_cases hp : name.isPrefixOf (c :: cs) = true
    · rw [if_pos hp, hp]
    · rw [if_neg hp]
      have hp' : name.isPrefixOf (c :: cs) = false := Bool.eq_false_iff.mpr hp
      rw [hp', ih, List.find?_map]
      rfl

theorem find?_range_shift (q : Nat → Bool) (n m : Nat) :
    (List.range n).find? (fun i => decide (m ≤ i) && q i) =
      ((List.range (n - m)).find? (fun i => q (i + m))).map (· + m) := by
  by_cases h : n ≤ m
  · have h0 : n - m = 0 := by omega
    rw [h0, List.range_zero, List.find?_nil, Option.map_none', List.find?_eq_none]
    intro i hi
    have : i < n := List.mem_range.mp hi
    simp; intro h'; omega
  · obtain ⟨t, rfl⟩ : ∃ t, n = m + t := ⟨n - m, by omega⟩
    rw [List.range_add, List.find?_append, Nat.add_sub_cancel_left]
    have h1 : (List.range m).find? (fun i => decide (m ≤ i) && q i) = none := by
      rw [List.find?_eq_none]
      intro i hi
      have : i < m := List.mem_range.mp hi
      simp; intro h'; omega
    rw [h1, Option.none_or, List.find?_map]
    have hf : ((fun i => decide (m ≤ i) && q i) ∘ fun x => m + x) = fun i => q (i + m) := by
      funext i
      simp [Nat.add_comm]
    rw [hf]
    cases (List.range t).find? (fun i => q (i + m)) with
    | none => rfl
    | some i => simp [Nat.add_comm]

theorem firstOccurrenceFrom_eq (sig name : GoString) (off : Nat) (hoff : off ≤ sig.length) :
    firstOccurrenceFrom sig name off = (indexOf? name (sig.drop off)).map (· + off) := by
  unfold firstOccurrenceFrom
  rw [find?_range_shift (fun i => name.isPrefixOf (sig.drop i)), indexOf?_eq_find?,
    List.length_drop]
  have : sig.length + 1 - off = sig.length - off + 1 := by omega
  rw [this]
  congr 2
  funext i
  rw [List.drop_drop, Nat.add_comm]

theorem indexOf?_le (name : GoString) : ∀ (l : GoString) (i : Nat),
    indexOf? name l = some i → i + name.length ≤ l.length := by
  intro l
  induction l with
  | nil =>
    intro i h
    unfold indexOf? at h
    by_cases h0 : name = []
    · rw [if_pos h0] at h; cases h; simp [h0]
    · rw [if_neg h0] at h; cases h
  | cons c cs ih =>
    intro i h
    unfold indexOf? at h
    by_cases hp : name.isPrefixOf (c :: cs) = true
    · rw [if_pos hp] at h
      cases h
      have := (List.isPrefixOf_iff_prefix.mp hp).length_le
      omega
    · rw [if_neg hp] at h
      cases hr : indexOf? name cs with
      | none => rw [hr] at h; cases h
      | some j =>
        rw [hr] at h
        cases h
        have := ih j hr
        simp only [List.length_cons]
        omega

theorem skipToSep_eq : ∀ (l : GoString) (e : Nat),
    skipToSep l e = e + ((List.range l.length).find? (fun i =>
      l.getD i 0 == 44 || l.getD i 0 == 41)).getD l.length := by
  intro l
  induction l with
  | nil => intro e; simp [skipToSep]
  | cons c cs ih =>
    intro e
    unfold skipToSep
    rw [List.length_cons, List.range_succ_eq_map, List.find?_cons]
    simp only [List.getD_cons_zero]
    by_cases hc : c ≠ 44 ∧ c ≠ 41
    · rw [if_pos hc, ih]
      have hq : (c == 44 || c == 41) = false := by simp [hc.1, hc.2]
      rw [hq, List.find?_map]
      have hf : ((fun i => (c :: cs).getD i 0 == 44 || (c :: cs).getD i 0 == 41) ∘ Nat.succ) =
          fun i => cs.getD i 0 == 44 || cs.getD i 0 == 41 := by
        funext i; simp
      rw [hf]
      cases (List.range cs.length).find? (fun i => cs.getD i 0 == 44 || cs.getD i 0 == 41) with
      | none => simp; omega
      | some j => simp; omega
    · rw [if_neg hc]
      have hq : (c == 44 || c == 41) = true := by
        simp only [Bool.or_eq_true, beq_iff_eq]
        by_contra h
        exact hc ⟨fun h1 => h (Or.inl h1), fun h2 => h (Or.inr h2)⟩
      rw [hq]
      simp

theorem scanParamEnd_eq (sig : GoString) (start : Nat) (hs : start ≤ sig.length) :
    scanParamEnd sig start = firstSeparatorFrom sig start := by
  unfold scanParamEnd firstSeparatorFrom
  rw [skipToSep_eq, find?_range_shift (fun i => sig.getD i 0 == 44 || sig.getD i 0 == 41),
    List.length_drop]
  simp only [getD_drop_add]
  cases (List.range (sig.length - start)).find? (fun i =>
      sig.getD (i + start) 0 == 44 || sig.getD (i + start) 0 == 41) with
  | none => simp; omega
  | some j => simp; omega

theorem labelSpans_refines (sig : GoString) : ∀ (ps : List ParamDef) (off : Nat)
    (out : List ParameterInformation), labelSpans sig ps off = some out →
    spansOf out = labelSpansSpec sig ps off := by
  intro ps
  induction ps with
  | nil =>
    intro off out h
    simp [labelSpans] at h
    simp [← h, spansOf, labelSpansSpec]
  | cons p ps ih =>
    intro off out h
    unfold labelSpans at h
    by_cases hoff : off ≤ sig.length
    · rw [if_pos hoff] at h
      unfold labelSpansSpec
      rw [firstOccurrenceFrom_eq sig p.Name off hoff]
      cases hi : indexOf? p.Name (sig.drop off) with
      | none =>
        rw [hi] at h
        dsimp only at h
        cases hr : labelSpans sig ps off with
        | none => rw [hr] at h; cases h
        | some rest =>
          rw [hr] at h
          cases h
          simp only [Option.map_none', spansOf, List.map_cons]
          rw [← ih off rest hr]
          rfl
      | some i =>
        rw [hi] at h
        dsimp only at h
        have hle := indexOf?_le p.Name (sig.drop off) i hi
        rw [List.length_drop] at hle
        have hstart : i + off + p.Name.length ≤ sig.length := by omega
        cases hr : labelSpans sig ps (scanParamEnd sig (i + off + p.Name.length) + 1) with
        | none => rw [hr] at h; cases h
        | some rest =>
          rw [hr] at h
          cases h
          simp only [Option.map_some', spansOf, List.map_cons]
          rw [← scanParamEnd_eq sig _ hstart, ← ih _ rest hr]
          rfl
    · rw [if_neg hoff] at h
      cases h

theorem firstOccurrenceFrom_some (sig name : GoString) (off st : Nat)
    (h : firstOccurrenceFrom sig name off = some st) :
    off ≤ st ∧ st + name.length ≤ sig.length := by
  unfold firstOccurrenceFrom at h
  have hp := List.find?_some h
  have hm := List.mem_of_find?_eq_some h
  rw [List.mem_range] at hm
  simp only [Bool.and_eq_true, decide_eq_true_eq] at hp
  have hlen := (List.isPrefixOf_iff_prefix.mp hp.2).length_le
  rw [List.length_drop] at hlen
  exact ⟨hp.1, by omega⟩

theorem firstSeparatorFrom_ge (sig : GoString) (s : Nat) (hs : s ≤ sig.length) :
    s ≤ firstSeparatorFrom sig s := by
  unfold firstSeparatorFrom
  cases h : (List.range sig.length).find? (fun i =>
      decide (s ≤ i) && (sig.getD i 0 == 44 || sig.getD i 0 == 41)) with
  | none => simpa using hs
  | some i =>
    have hp := List.find?_some h
    simp only [Bool.and_eq_true, decide_eq_true_eq] at hp
    simpa using hp.1

theorem labelSpansSpec_ge (sig : GoString) : ∀ (ps : List ParamDef) (off s e : Nat),
    some (s, e) ∈ labelSpansSpec sig ps off → off ≤ s ∧ s ≤ e := by
  intro ps
  induction ps with
  | nil => intro off s e h; simp [labelSpansSpec] at h
  | cons p ps ih =>
    intro off s e h
    unfold labelSpansSpec at h
    cases ho : firstOccurrenceFrom sig p.Name off with
    | none =>
      rw [ho] at h
      simp only [List.mem_cons] at h
      rcases h with h | h
      · cases h
      · exact ih off s e h
    | some st =>
      rw [ho] at h
      obtain ⟨h1, h2⟩ := firstOccurrenceFrom_some sig p.Name off st ho
      have h3 := firstSeparatorFrom_ge sig (st + p.Name.length) h2
      simp only [List.mem_cons] at h
      rcases h with h | h
      · simp only [Option.some.injEq, Prod.mk.injEq] at h
        omega
      · have := ih _ s e h
        omega

theorem labelSpansSpec_increasing (sig : GoString) : ∀ (ps : List ParamDef) (off : Nat),
    List.Pairwise (fun a b => ∀ s e s' e' : Nat, a = some (s, e) → b = some (s', e') → e < s')
      (labelSpansSpec sig ps off) := by
  intro ps
  induction ps with
  | nil => intro off; simp [labelSpansSpec]
  | cons p ps ih =>
    intro off
    unfold labelSpansSpec
    cases ho : firstOccurrenceFrom sig p.Name off with
    | none =>
      refine List.Pairwise.cons ?_ (ih off)
      intro b _ s e s' e' ha
      cases ha
    | some st =>
      refine List.Pairwise.cons ?_ (ih _)
      intro b hb s e s' e' ha hb'
      simp only [Option.some.injEq, Prod.mk.injEq] at ha
      rw [hb'] at hb
      have := labelSpansSpec_ge sig ps _ s' e' hb
      omega

theorem labelSpans_increasing (sig : GoString) (ps : List ParamDef) (off : Nat)
    (out : List ParameterInformation) (h : labelSpans sig ps off = some out) :
    List.Pairwise (fun a b => ∀ s e s' e' : Nat, a = some (s, e) → b = some (s', e') → e < s')
      (spansOf out) := by
  rw [labelSpans_refines sig ps off out h]
  exact labelSpansSpec_increasing sig ps off

/-- C6, at its failing input: for the signature `f(a` with the parameters `a` and `b`, the
span computation the specification describes gives `a` the span `[2,3)` and leaves `b`
without a span, but `buildSignatureHelp` stops with a panic, since the search offset `4`
is past the end of the signature when `b` is looked for.  For the signature
`f(a: int, b: string) -> bool` the spans are `[2,8)` and `[10,19)`. -/
theorem buildSignatureHelp_spans_unterminated :
    labelSpansSpec (bytes "f(a") [⟨bytes "a", []⟩, ⟨bytes "b", []⟩] 2 = [some (2, 3), none] ∧
    buildSignatureHelp
      ⟨bytes "f", KindFunction, [], [], bytes "f(a", [⟨bytes "a", []⟩, ⟨bytes "b", []⟩]⟩ 0 =
        none ∧
    (buildSignatureHelp
      ⟨bytes "f", KindFunction, [], [], bytes "f(a: int, b: string) -> bool",
        [⟨bytes "a", []⟩, ⟨bytes "b", []⟩]⟩ 0).map
      (fun r => r.Signatures.map (fun s => spansOf s.Parameters)) =
        some [[some (2, 8), some (10, 19)]] := by
  decide

/-! ### C7 and C8: the payload -/

theorem clampActive_eq (n : Nat) (a : Int) :
    clampActive n a = if n = 0 then 0 else min (max a 0) ((n : Int) - 1) := by
  unfold clampActive
  dsimp only
  split_ifs <;> omega

theorem labelSpans_length (sig : GoString) : ∀ (ps : List ParamDef) (off : Nat)
    (out : List ParameterInformation), labelSpans sig ps off = some out →
    out.length = ps.length := by
  intro ps
  induction ps with
  | nil => intro off out h; simp [labelSpans] at h; simp [← h]
  | cons p ps ih =>
    intro off out h
    unfold labelSpans at h
    split at h
    · split at h
      · cases hr : labelSpans sig ps off with
        | none => rw [hr] at h; simp at h
        | some rest =>
          rw [hr] at h
          simp at h
          rw [← h, List.length_cons, ih off rest hr, List.length_cons]
      · dsimp only at h
        cases hr : labelSpans sig ps
            (scanParamEnd sig (_ + off + p.Name.length) + 1) with
        | none => rw [hr] at h; simp at h
        | some rest =>
          rw [hr] at h
          simp at h
          rw [← h, List.length_cons, ih _ rest hr, List.length_cons]
    · cases h

theorem buildSignatureHelp_eq_some (b : Builtin) (a : Int) (r : SignatureHelp)
    (h : buildSignatureHelp b a = some r) :
    ∃ params, labelSpans b.Signature b.Parameters (stringsIndex b.Signature [40] + 1).toNat =
        some params ∧
      r = { Signatures := [{ Label := b.Signature
                             Documentation := some ⟨MarkupKind.PlainText,
                               if b.Doc = [] then b.Brief else b.Doc⟩
                             Parameters := params }]
            ActiveSignature := 0
            ActiveParameter := clampActive params.length a } := by
  unfold buildSignatureHelp at h
  dsimp only at h
  cases hl : labelSpans b.Signature b.Parameters (stringsIndex b.Signature [40] + 1).toNat with
  | none => rw [hl] at h; cases h
  | some params =>
    rw [hl] at h
    exact ⟨params, rfl, (Option.some.inj h).symm⟩

/-- C7: for every element and every integer active index `a`, the `ActiveParameter` that
`buildSignatureHelp` returns is 0 when `Parameters` is empty and `min(max(a, 0),
len(Parameters) - 1)` otherwise, so it lies between 0 and `len(Parameters) - 1` when there
are parameters.  The function returns whenever its span loop does, and always when
`Parameters` is empty. -/
theorem buildSignatureHelp_activeParameter (b : Builtin) (a : Int) :
    (∀ r, buildSignatureHelp b a = some r →
      r.ActiveParameter =
          (if b.Parameters = [] then 0
           else min (max a 0) ((b.Parameters.length : Int) - 1)) ∧
        (b.Parameters ≠ [] →
          0 ≤ r.ActiveParameter ∧ r.ActiveParameter ≤ (b.Parameters.length : Int) - 1)) ∧
    (b.Parameters = [] →
      (buildSignatureHelp b a).map (fun r => r.ActiveParameter) = some 0) ∧
    ((buildSignatureHelp b a).isSome =
      (labelSpans b.Signature b.Parameters (stringsIndex b.Signature [40] + 1).toNat).isSome) := by
  refine ⟨?_, ?_, ?_⟩
  · intro r h
    obtain ⟨params, hl, hr⟩ := buildSignatureHelp_eq_some b a r h
    have hlen := labelSpans_length _ _ _ _ hl
    have hval : r.ActiveParameter =
        (if b.Parameters = [] then 0
         else min (max a 0) ((b.Parameters.length : Int) - 1)) := by
      rw [hr]
      dsimp only
      rw [clampActive_eq, hlen]
      by_cases h0 : b.Parameters = []
      · simp [h0]
      · have : b.Parameters.length ≠ 0 := fun hh => h0 (List.length_eq_zero.mp hh)
        rw [if_neg this, if_neg h0]
    refine ⟨hval, ?_⟩
    intro h0
    rw [hval, if_neg h0]
    have : 0 < b.Parameters.length := List.length_pos.mpr h0
    omega
  · intro h0
    unfold buildSignatureHelp
    rw [h0]
    simp only [labelSpans, clampActive, List.length_nil, Option.map_some']
    congr 1
    show (if (if a ≥ ((0 : Nat) : Int) then ((0 : Nat) : Int) - 1 else a) < 0 then 0
      else (if a ≥ ((0 : Nat) : Int) then ((0 : Nat) : Int) - 1 else a)) = 0
    split_ifs <;> omega
  · unfold buildSignatureHelp
    dsimp only
    cases labelSpans b.Signature b.Parameters (stringsIndex b.Signature [40] + 1).toNat <;> rfl

/-- Witness of C7: a third argument (index 2) to the variadic
`coalesce(value: any, ...)`, which has one parameter, is clamped to 0. -/
theorem buildSignatureHelp_activeParameter_witness :
    ((getSignatureHelp (Builtins []) (bytes "coalesce(a, b, ") ⟨0, 15⟩).map
      (fun r => r.map (fun h => h.ActiveParameter))) = some (some 0) ∧
    ∀ r, buildSignatureHelp
        ⟨bytes "coalesce", KindFunction, bytes "First non-null value",
          bytes "Return the first non-null value from arguments",
          bytes "coalesce(value: any, ...) -> any",
          [⟨bytes "value", bytes "Values to check"⟩]⟩ 2 = some r →
      r.ActiveParameter = 0 :=
  ⟨by decide, fun r h =>
    ((buildSignatureHelp_activeParameter
        ⟨bytes "coalesce", KindFunction, bytes "First non-null value",
          bytes "Return the first non-null value from arguments",
          bytes "coalesce(value: any, ...) -> any",
          [⟨bytes "value", bytes "Values to check"⟩]⟩ 2).1 r h).1.trans (by decide)⟩

/-- C8, at its failing input: for the signature `g(x: int` with the parameters `x` and `y`,
`buildSignatureHelp` returns no payload, whatever the active index: the span of `x` ends at
the end of the signature, and the slice taken for `y` starts past it. -/
theorem buildSignatureHelp_no_payload :
    buildSignatureHelp
      ⟨bytes "g", KindFunction, bytes "brief", bytes "doc", bytes "g(x: int",
        [⟨bytes "x", bytes "first"⟩, ⟨bytes "y", bytes "second"⟩]⟩ 0 = none ∧
    buildSignatureHelp
      ⟨bytes "g", KindFunction, bytes "brief", bytes "doc", bytes "g(x: int",
        [⟨bytes "x", bytes "first"⟩, ⟨bytes "y", bytes "second"⟩]⟩ 1 = none := by
  decide

/-! ### C9: completion context -/

theorem stringsContains_iff (s sub : GoString) : stringsContains s sub = true ↔ sub <:+: s := by
  unfold stringsContains
  induction s with
  | nil =>
    unfold indexOf?
    by_cases h : sub = []
    · simp [h]
    · simp [h]
  | cons c cs ih =>
    unfold indexOf?
    rw [List.infix_cons_iff, ← ih]
    by_cases hp : sub.isPrefixOf (c :: cs) = true
    · rw [if_pos hp]
      simp [List.isPrefixOf_iff_prefix.mp hp]
    · rw [if_neg hp]
      have : ¬ sub <+: c :: cs := fun h => hp (List.isPrefixOf_iff_prefix.mpr h)
      simp [this]

theorem hasSuffix_iff (s suf : GoString) : hasSuffix s suf = true ↔ suf <:+ s := by
  unfold hasSuffix
  exact List.isSuffixOf_iff_suffix

theorem hasPrefix_iff (s pre : GoString) : hasPrefix s pre = true ↔ pre <+: s := by
  unfold hasPrefix
  exact List.isPrefixOf_iff_prefix

theorem getCompletionContext_eq (line : GoString) (col : Nat) :
    getCompletionContext line col =
      contextOfPrefix (stringsToLower (line.take (min col line.length))) := by
  have hcol : (if col > line.length then line.length else col) = min col line.length := by
    split <;> omega
  unfold getCompletionContext contextOfPrefix
  dsimp only
  rw [hcol]
  generalize stringsToLower (line.take (min col line.length)) = p
  have hb : (stringsContains p (bytes "cast(") || stringsContains p (bytes "::") ||
      hasSuffix (trimSpace p) (bytes "<")) = true ↔
      (bytes "cast(" <:+: p ∨ bytes "::" <:+: p ∨ bytes "<" <:+ trimSpace p) := by
    simp only [Bool.or_eq_true, stringsContains_iff, hasSuffix_iff, or_assoc]
  by_cases h : bytes "cast(" <:+: p ∨ bytes "::" <:+: p ∨ bytes "<" <:+ trimSpace p
  · rw [if_pos h, if_pos (hb.mpr h)]
  · rw [if_neg h, if_neg (fun hh => h (hb.mp hh))]
    unfold countByte
    by_cases hc : p.count 41 < p.count 40
    · rw [if_pos hc, if_pos (by omega)]
    · rw [if_neg hc, if_neg (by omega)]

theorem getCompletionContextWith_eq (lower trim : GoString → GoString) (line : GoString)
    (col : Nat) :
    getCompletionContextWith lower trim line col =
      contextOfPrefixWith trim (lower (line.take (min col line.length))) := by
  have hcol : (if col > line.length then line.length else col) = min col line.length := by
    split <;> omega
  unfold getCompletionContextWith contextOfPrefixWith
  dsimp only
  rw [hcol]
  generalize lower (line.take (min col line.length)) = p
  have hb : (stringsContains p (bytes "cast(") || stringsContains p (bytes "::") ||
      hasSuffix (trim p) (bytes "<")) = true ↔
      (bytes "cast(" <:+: p ∨ bytes "::" <:+: p ∨ bytes "<" <:+ trim p) := by
    simp only [Bool.or_eq_true, stringsContains_iff, hasSuffix_iff, or_assoc]
  by_cases h : bytes "cast(" <:+: p ∨ bytes "::" <:+: p ∨ bytes "<" <:+ trim p
  · rw [if_pos h, if_pos (hb.mpr h)]
  · rw [if_neg h, if_neg (fun hh => h (hb.mp hh))]
    unfold countByte
    by_cases hc : p.count 41 < p.count 40
    · rw [if_pos hc, if_pos (by omega)]
    · rw [if_neg hc, if_neg (by omega)]

theorem stripLeading_suffix (ws : List GoString) : ∀ (n : Nat) (s : GoString),
    stripLeading ws n s <:+ s := by
  intro n
  induction n with
  | zero => intro s; exact List.suffix_refl s
  | succ n ih =>
    intro s
    rw [stripLeading]
    cases ws.find? (fun w => w.isPrefixOf s) with
    | none => exact List.suffix_refl s
    | some w => exact (ih (s.drop w.length)).trans (List.drop_suffix _ _)

theorem stripLeading_done (ws : List GoString) (hws : ∀ w ∈ ws, w ≠ []) :
    ∀ (n : Nat) (s : GoString), s.length ≤ n →
      ∀ w ∈ ws, ¬ w <+: stripLeading ws n s := by
  intro n
  induction n with
  | zero =>
    intro s hn w hw hpre
    have hs : s = [] := List.length_eq_zero.mp (Nat.le_zero.mp hn)
    subst hs
    rw [stripLeading] at hpre
    exact hws w hw (List.prefix_nil.mp hpre)
  | succ n ih =>
    intro s hn w hw
    rw [stripLeading]
    cases hf : ws.find? (fun w => w.isPrefixOf s) with
    | none =>
      intro hpre
      have := List.find?_eq_none.mp hf w hw
      exact this (by simpa using List.isPrefixOf_iff_prefix.mpr hpre)
    | some v =>
      have hv : v ∈ ws := List.mem_of_find?_eq_some hf
      have hvl : 0 < v.length := List.length_pos.mpr (hws v hv)
      exact ih (s.drop v.length) (by rw [List.length_drop]; omega) w hw

theorem spaceEncodings_ne_nil : ∀ w ∈ spaceEncodings, w ≠ [] := by
  decide

theorem trimSpace_trimmed (p w : GoString) (hw : w ∈ spaceEncodings) :
    ¬ w <+: trimSpace p ∧ ¬ w <:+ trimSpace p := by
  have hrev : ∀ v ∈ spaceEncodings.map List.reverse, v ≠ [] := by
    intro v hv
    obtain ⟨u, hu, rfl⟩ := List.mem_map.mp hv
    simpa using spaceEncodings_ne_nil u hu
  unfold trimSpace
  dsimp only
  constructor
  · intro hpre
    have h1 : (stripLeading (spaceEncodings.map List.reverse)
        (stripLeading spaceEncodings p.length p).length
        (stripLeading spaceEncodings p.length p).reverse).reverse <+:
        stripLeading spaceEncodings p.length p := by
      rw [← List.reverse_suffix, List.reverse_reverse]
      exact stripLeading_suffix _ _ _
    exact stripLeading_done spaceEncodings spaceEncodings_ne_nil p.length p (Nat.le_refl _)
      w hw (hpre.trans h1)
  · intro hsuf
    rw [← List.reverse_prefix, List.reverse_reverse] at hsuf
    exact stripLeading_done (spaceEncodings.map List.reverse) hrev _ _
      (by rw [List.length_reverse]) w.reverse (List.mem_map_of_mem _ hw) hsuf

/-- C9: `getCompletionContext(line, col)` is decided by the lowercased prefix
`p = lowercase(line[:min(col, len(line))])` alone: it is the type context when `p` contains
`cast(` or `::` or ends in `<` after trimming, otherwise the function context when `p` has
more `(` than `)`, otherwise the general context; so the type context takes precedence, and
two lines with the same lowercase form get the same context.  The same holds whatever
`strings.ToLower` and `strings.TrimSpace` return: with the two given as arguments, the
function is the classifier on what the first returns for the cut line, trimmed by the
second.  What `trimSpace` returns neither begins nor ends with white space. -/
theorem getCompletionContext_spec :
    (∀ (line : GoString) (col : Nat), getCompletionContext line col =
      contextOfPrefix (stringsToLower (line.take (min col line.length)))) ∧
    (∀ (line line' : GoString) (col : Nat), stringsToLower line = stringsToLower line' →
      getCompletionContext line col = getCompletionContext line' col) ∧
    (∀ p : GoString, bytes "cast(" <:+: p ∨ bytes "::" <:+: p ∨ bytes "<" <:+ trimSpace p →
      contextOfPrefix p = contextType) ∧
    (∀ (lower trim : GoString → GoString) (line : GoString) (col : Nat),
      getCompletionContextWith lower trim line col =
        contextOfPrefixWith trim (lower (line.take (min col line.length)))) ∧
    (∀ (line : GoString) (col : Nat), getCompletionContext line col =
      getCompletionContextWith stringsToLower trimSpace line col) ∧
    (∀ p : GoString, contextOfPrefix p = contextOfPrefixWith trimSpace p) ∧
    (∀ p w : GoString, w ∈ spaceEncodings → ¬ w <+: trimSpace p ∧ ¬ w <:+ trimSpace p) := by
  refine ⟨getCompletionContext_eq, ?_, ?_, getCompletionContextWith_eq, fun _ _ => rfl,
    fun _ => rfl, trimSpace_trimmed⟩
  · intro line line' col h
    have hlen : line.length = line'.length := by
      have := congrArg List.length h
      simpa [stringsToLower] using this
    rw [getCompletionContext_eq, getCompletionContext_eq, hlen]
    unfold stringsToLower at h ⊢
    rw [List.map_take, List.map_take, h]
  · intro p h
    unfold contextOfPrefix
    rw [if_pos h]

/-- Witness of C9: `select cast(` is a type context, `count(` a function context and `fro`
the general context; the cast check ignores case, and `::` and a trailing `<` give the type
context although a parenthesis is open.  A `<` followed by U+00A0, by U+0085 or by U+2003 is
a trailing `<`, since these are white space; followed by the lone byte 160, which is not a
character, it is not. -/
theorem getCompletionContext_spec_witness :
    getCompletionContext (bytes "select cast(") 12 = contextType ∧
    getCompletionContext (bytes "count(") 6 = contextFunction ∧
    getCompletionContext (bytes "fro") 3 = contextGeneral ∧
    getCompletionContext (bytes "SELECT CAST(") 12 = contextType ∧
    getCompletionContext (bytes "f(x::") 5 = contextType ∧
    getCompletionContext (bytes "f(array< ") 9 = contextType ∧
    getCompletionContext (bytes "count(") 100 = contextFunction ∧
    getCompletionContext (bytes "count(x)") 8 = contextGeneral ∧
    getCompletionContext (bytes "x <" ++ [194, 160]) 5 = contextType ∧
    getCompletionContext (bytes "map<" ++ [194, 133]) 6 = contextType ∧
    getCompletionContext (bytes "map<" ++ [226, 128, 131]) 7 = contextType ∧
    getCompletionContext ([227, 128, 128] ++ bytes "map< " ++ [9, 226, 129, 159]) 12 =
      contextType ∧
    getCompletionContext (bytes "x <" ++ [160]) 4 = contextGeneral ∧
    trimSpace ([32, 194, 160] ++ bytes "a b" ++ [225, 154, 128, 10]) = bytes "a b" := by
  decide

/-! ### C10: completion candidates -/

theorem foldl_append_if {α β : Type} (p : α → Bool) (f : α → β) (l : List α) :
    ∀ init : List β,
      l.foldl (fun items b => if p b = true then items ++ [f b] else items) init =
        init ++ (l.filter p).map f := by
  induction l with
  | nil => intro init; simp
  | cons a l ih =>
    intro init
    rw [List.foldl_cons, ih]
    by_cases h : p a = true
    · simp [h]
    · simp [h]

theorem getCompletionsByKind_eq (r : Registry) (kind : BuiltinKind) (pfx : GoString)
    (k : CompletionItemKind) (label : GoString) :
    getCompletionsByKind r kind pfx k label = (matching r kind pfx).map (plainItem k label) := by
  unfold getCompletionsByKind matching
  refine (foldl_append_if (fun b => matchesPrefix pfx b.Name)
    (fun b => ({ Label := b.Name, Kind := k,
                 Detail := if label ≠ [] then label ++ bytes ": " ++ b.Brief else b.Brief,
                 InsertText := [] } : CompletionItem)) (r.ByKind kind) []).trans ?_
  rw [List.nil_append]
  congr 1
  funext b
  unfold plainItem
  by_cases h : label = []
  · simp [h]
  · simp [h]

theorem getFunctionCompletions_eq (r : Registry) (pfx : GoString) :
    getFunctionCompletions r pfx =
      (matching r KindFunction pfx).map (callItem (bytes "function")) := by
  unfold getFunctionCompletions matching Registry.Functions Registry.ByKind
  refine (foldl_append_if (fun b => matchesPrefix pfx b.Name)
    (fun fn => ({ Label := fn.Name, Kind := CompletionItemKind.Function,
                  Detail := bytes "function: " ++ fn.Brief,
                  InsertText := fn.Name ++ bytes "($1)" } : CompletionItem))
    (r.byKind KindFunction) []).trans ?_
  rw [List.nil_append]
  congr 1

theorem getAggregateCompletions_eq (r : Registry) (pfx : GoString) :
    getAggregateCompletions r pfx =
      (matching r KindAggregate pfx).map (callItem (bytes "aggregate")) := by
  unfold getAggregateCompletions matching Registry.Aggregates Registry.ByKind
  refine (foldl_append_if (fun b => matchesPrefix pfx b.Name)
    (fun agg => ({ Label := agg.Name, Kind := CompletionItemKind.Function,
                   Detail := bytes "aggregate: " ++ agg.Brief,
                   InsertText := agg.Name ++ bytes "($1)" } : CompletionItem))
    (r.byKind KindAggregate) []).trans ?_
  rw [List.nil_append]
  congr 1

theorem matchesPrefix_iff (pfx name : GoString) :
    matchesPrefix pfx name = true ↔ pfx = [] ∨ pfx <+: stringsToLower name := by
  unfold matchesPrefix
  simp [hasPrefix_iff]

theorem matching_nil (r : Registry) (kind : BuiltinKind) : matching r kind [] = r.ByKind kind := by
  unfold matching
  rw [List.filter_eq_self]
  intro b _
  exact (matchesPrefix_iff [] b.Name).mpr (Or.inl rfl)

/-- C10: for every text and in-range line, `getCompletions` returns the matching elements of
the kinds its context selects, each kind filtered by the prefix and kept in registry order:
in the type context the types; in the function context the functions, then the aggregates;
in the general context the keywords, operators, functions, aggregates and types, in that
order.  An element matches when the prefix is empty or leads its lowercased name, so with an
empty prefix every element of the selected kinds is emitted. -/
theorem getCompletions_by_context (r : Registry) (text : GoString) (pos : Position)
    (hline : pos.Line < (splitLines text).length) :
    getCompletions r text pos =
      (match getCompletionContext ((splitLines text).getD pos.Line []) pos.Character with
       | contextType =>
         (matching r KindType (completionPrefix ((splitLines text).getD pos.Line [])
           pos.Character)).map (plainItem CompletionItemKind.Class (bytes "type"))
       | contextFunction =>
         (matching r KindFunction (completionPrefix ((splitLines text).getD pos.Line [])
           pos.Character)).map (callItem (bytes "function")) ++
         (matching r KindAggregate (completionPrefix ((splitLines text).getD pos.Line [])
           pos.Character)).map (callItem (bytes "aggregate"))
       | contextGeneral =>
         (matching r KindKeyword (completionPrefix ((splitLines text).getD pos.Line [])
           pos.Character)).map (plainItem CompletionItemKind.Keyword []) ++
         (matching r KindOperator (completionPrefix ((splitLines text).getD pos.Line [])
           pos.Character)).map (plainItem CompletionItemKind.Function (bytes "operator")) ++
         (matching r KindFunction (completionPrefix ((splitLines text).getD pos.Line [])
           pos.Character)).map (callItem (bytes "function")) ++
         (matching r KindAggregate (completionPrefix ((splitLines text).getD pos.Line [])
           pos.Character)).map (callItem (bytes "aggregate")) ++
         (matching r KindType (completionPrefix ((splitLines text).getD pos.Line [])
           pos.Character)).map (plainItem CompletionItemKind.Class (bytes "type"))) ∧
    (∀ (kind : BuiltinKind) (pfx : GoString) (b : Builtin),
      b ∈ matching r kind pfx ↔
        b ∈ r.ByKind kind ∧ (pfx = [] ∨ pfx <+: stringsToLower b.Name)) ∧
    (∀ (kind : BuiltinKind) (pfx : GoString), (matching r kind pfx).Sublist (r.ByKind kind)) ∧
    (∀ kind : BuiltinKind, matching r kind [] = r.ByKind kind) := by
  refine ⟨?_, ?_, ?_, matching_nil r⟩
  · unfold getCompletions
    dsimp only
    rw [if_neg (by omega)]
    unfold getTypeCompletions getKeywordCompletions getOperatorCompletions
    simp only [getCompletionsByKind_eq, getFunctionCompletions_eq, getAggregateCompletions_eq]
  · intro kind pfx b
    unfold matching
    rw [List.mem_filter, matchesPrefix_iff]
  · intro kind pfx
    exact List.filter_sublist _

/-- Witness of C10: in a registry with two keywords, an operator, two functions, an
aggregate and two types, the prefix `c` in the general context gives the matching elements
kind by kind, `sum(c` the matching functions and aggregates, `x::` all types. -/
theorem getCompletions_by_context_witness :
    (getCompletions (buildRegistry
        [⟨bytes "const", KindKeyword, [], [], [], []⟩, ⟨bytes "from", KindKeyword, [], [], [], []⟩,
         ⟨bytes "cut", KindOperator, [], [], [], []⟩, ⟨bytes "int64", KindType, [], [], [], []⟩,
         ⟨bytes "char", KindType, [], [], [], []⟩]
        [⟨bytes "ceil", KindFunction, bytes "Ceiling function", [], bytes "ceil(value)", []⟩,
         ⟨bytes "abs", KindFunction, bytes "Absolute value", [], bytes "abs(value)", []⟩,
         ⟨bytes "count", KindAggregate, bytes "Count values", [], bytes "count()", []⟩])
      (bytes "c") ⟨0, 1⟩).map (fun i => i.Label) =
      [bytes "const", bytes "cut", bytes "ceil", bytes "count", bytes "char"] ∧
    (getCompletions (buildRegistry
        [⟨bytes "const", KindKeyword, [], [], [], []⟩, ⟨bytes "from", KindKeyword, [], [], [], []⟩,
         ⟨bytes "cut", KindOperator, [], [], [], []⟩, ⟨bytes "int64", KindType, [], [], [], []⟩,
         ⟨bytes "char", KindType, [], [], [], []⟩]
        [⟨bytes "ceil", KindFunction, bytes "Ceiling function", [], bytes "ceil(value)", []⟩,
         ⟨bytes "abs", KindFunction, bytes "Absolute value", [], bytes "abs(value)", []⟩,
         ⟨bytes "count", KindAggregate, bytes "Count values", [], bytes "count()", []⟩])
      (bytes "sum(c") ⟨0, 5⟩).map (fun i => i.Label) = [bytes "ceil", bytes "count"] ∧
    (getCompletions (buildRegistry
        [⟨bytes "const", KindKeyword, [], [], [], []⟩, ⟨bytes "from", KindKeyword, [], [], [], []⟩,
         ⟨bytes "cut", KindOperator, [], [], [], []⟩, ⟨bytes "int64", KindType, [], [], [], []⟩,
         ⟨bytes "char", KindType, [], [], [], []⟩]
        [⟨bytes "ceil", KindFunction, bytes "Ceiling function", [], bytes "ceil(value)", []⟩,
         ⟨bytes "abs", KindFunction, bytes "Absolute value", [], bytes "abs(value)", []⟩,
         ⟨bytes "count", KindAggregate, bytes "Count values", [], bytes "count()", []⟩])
      (bytes "x::") ⟨0, 3⟩).map (fun i => i.Label) = [bytes "int64", bytes "char"] :=
  ⟨(congrArg (List.map (fun i => i.Label))
      (getCompletions_by_context _ (bytes "c") ⟨0, 1⟩ (by decide)).1).trans (by decide),
   (congrArg (List.map (fun i => i.Label))
      (getCompletions_by_context _ (bytes "sum(c") ⟨0, 5⟩ (by decide)).1).trans (by decide),
   (congrArg (List.map (fun i => i.Label))
      (getCompletions_by_context _ (bytes "x::") ⟨0, 3⟩ (by decide)).1).trans (by decide)⟩

/-! ### Word scanning lemmas -/

theorem wordStart_le (line : GoString) : ∀ c, wordStart line c ≤ c := by
  intro c
  induction c with
  | zero => simp [wordStart]
  | succ c ih =>
    unfold wordStart
    split <;> omega

theorem wordStart_eq_of_run (line : GoString) (s : Nat)
    (hb : s = 0 ∨ isIdentifierChar (line.getD (s - 1) 0) = false) : ∀ c, s ≤ c →
    (∀ i, i < c → s ≤ i → isIdentifierChar (line.getD i 0) = true) →
    wordStart line c = s := by
  intro c
  induction c with
  | zero => intro hs _; simp [wordStart]; omega
  | succ c ih =>
    intro hs hall
    unfold wordStart
    rcases Nat.eq_or_lt_of_le hs with h | h
    · rcases hb with hb | hb
      · omega
      · have : s - 1 = c := by omega
        rw [this] at hb
        rw [hb]
        simp [h]
    · have hc := hall c (Nat.lt_succ_self c) (by omega)
      rw [if_pos hc]
      exact ih (by omega) (fun i hi hsi => hall i (by omega) hsi)

theorem wordStart_eq_self_iff (line : GoString) (c : Nat) :
    wordStart line c = c ↔ ¬ (0 < c ∧ isIdentifierChar (line.getD (c - 1) 0) = true) := by
  cases c with
  | zero => simp [wordStart]
  | succ c =>
    unfold wordStart
    have hle := wordStart_le line c
    rw [Nat.add_sub_cancel]
    by_cases h : isIdentifierChar (line.getD c 0) = true
    · rw [if_pos h]
      constructor
      · intro h'; omega
      · intro h'; exact absurd ⟨Nat.succ_pos c, h⟩ h'
    · rw [if_neg h]
      constructor
      · rintro _ ⟨_, h2⟩; exact h h2
      · intro _; rfl

theorem wordEndLoop_eq : ∀ (l : GoString) (stop : Nat),
    wordEndLoop l stop = stop + (l.takeWhile isIdentifierChar).length := by
  intro l
  induction l with
  | nil => intro stop; simp [wordEndLoop]
  | cons c cs ih =>
    intro stop
    unfold wordEndLoop
    by_cases h : isIdentifierChar c = true
    · rw [if_pos h, ih, List.takeWhile_cons_of_pos h, List.length_cons]
      omega
    · rw [if_neg h, List.takeWhile_cons_of_neg h]
      simp

theorem wordEnd_ge (line : GoString) (c : Nat) : c ≤ wordEnd line c := by
  unfold wordEnd
  rw [wordEndLoop_eq]
  omega

theorem wordEnd_le (line : GoString) (c : Nat) (hc : c ≤ line.length) :
    wordEnd line c ≤ line.length := by
  unfold wordEnd
  rw [wordEndLoop_eq]
  have h := (List.takeWhile_prefix isIdentifierChar (l := line.drop c)).length_le
  rw [List.length_drop] at h
  omega

theorem wordEnd_eq_self_iff (line : GoString) (c : Nat) :
    wordEnd line c = c ↔
      ¬ (c < line.length ∧ isIdentifierChar (line.getD c 0) = true) := by
  unfold wordEnd
  rw [wordEndLoop_eq]
  by_cases hc : c < line.length
  · rw [drop_eq_getD_cons line c hc]
    by_cases h : isIdentifierChar (line.getD c 0) = true
    · rw [List.takeWhile_cons_of_pos h, List.length_cons]
      constructor
      · intro h'; omega
      · intro h'; exact absurd ⟨hc, h⟩ h'
    · rw [List.takeWhile_cons_of_neg h]
      constructor
      · rintro _ ⟨_, h2⟩; exact h h2
      · intro _; rfl
  · rw [List.drop_eq_nil_of_le (by omega)]
    constructor
    · rintro _ ⟨h1, _⟩; exact hc h1
    · intro _; rfl

theorem wordEnd_eq_of_run (line : GoString) (e : Nat) (he : e ≤ line.length)
    (hb : e = line.length ∨ isIdentifierChar (line.getD e 0) = false) : ∀ (n c : Nat),
    c + n = e → (∀ i, i < e → c ≤ i → isIdentifierChar (line.getD i 0) = true) →
    wordEnd line c = e := by
  intro n
  induction n with
  | zero =>
    intro c hc _
    have hce : c = e := by omega
    subst hce
    rw [wordEnd_eq_self_iff]
    rintro ⟨h1, h2⟩
    rcases hb with hb | hb
    · omega
    · rw [hb] at h2; cases h2
  | succ n ih =>
    intro c hc hall
    have hlt : c < line.length := by omega
    have hid := hall c (by omega) (Nat.le_refl c)
    have hnext := ih (c + 1) (by omega) (fun i hi hci => hall i hi (by omega))
    unfold wordEnd at hnext ⊢
    rw [drop_eq_getD_cons line c hlt]
    unfold wordEndLoop
    rw [if_pos hid]
    exact hnext

theorem slice_ne_nil (line : GoString) (a b : Nat) (hab : a < b) (hb : b ≤ line.length) :
    slice line a b ≠ [] := by
  intro h
  have := congrArg List.length h
  simp [slice] at this
  omega

theorem getWordAtPosition_eq (text : GoString) (pos : Position)
    (hline : pos.Line < (splitLines text).length)
    (hchar : pos.Character ≤ ((splitLines text).getD pos.Line []).length) :
    getWordAtPosition text pos =
      if wordStart ((splitLines text).getD pos.Line []) pos.Character =
          wordEnd ((splitLines text).getD pos.Line []) pos.Character then []
      else slice ((splitLines text).getD pos.Line [])
        (wordStart ((splitLines text).getD pos.Line []) pos.Character)
        (wordEnd ((splitLines text).getD pos.Line []) pos.Character) := by
  unfold getWordAtPosition
  dsimp only
  rw [if_neg (by omega), if_neg (by omega)]

theorem wordStart_run (line : GoString) (i : Nat) : ∀ c, wordStart line c ≤ i → i < c →
    isIdentifierChar (line.getD i 0) = true := by
  intro c
  induction c with
  | zero => intro _ h; omega
  | succ c ih =>
    intro h1 h2
    unfold wordStart at h1
    by_cases hid : isIdentifierChar (line.getD c 0) = true
    · rw [if_pos hid] at h1
      rcases Nat.eq_or_lt_of_le (Nat.lt_succ_iff.mp h2) with heq | hlt
      · rw [heq]; exact hid
      · exact ih h1 hlt
    · rw [if_neg hid] at h1
      omega

theorem wordEnd_run (line : GoString) (c i : Nat) (hci : c ≤ i) (hi : i < wordEnd line c) :
    isIdentifierChar (line.getD i 0) = true := by
  unfold wordEnd at hi
  rw [wordEndLoop_eq] at hi
  obtain ⟨rest, hrest⟩ := List.takeWhile_prefix isIdentifierChar (l := line.drop c)
  have hj : i - c < ((line.drop c).takeWhile isIdentifierChar).length := by omega
  have hget : line.getD i 0 = ((line.drop c).takeWhile isIdentifierChar)[i - c] := by
    have h1 : line.getD i 0 = (line.drop c).getD (i - c) 0 := by
      rw [getD_drop_add]
      congr 1
      omega
    have h2 : (line.drop c).getD (i - c) 0 =
        ((line.drop c).takeWhile isIdentifierChar ++ rest).getD (i - c) 0 := by rw [hrest]
    rw [h1, h2, List.getD_eq_getElem?_getD, List.getElem?_append_left hj,
      List.getElem?_eq_getElem hj]
    rfl
  rw [hget]
  exact List.mem_takeWhile_imp (List.getElem_mem hj)

theorem mem_slice (line : GoString) (a b ch : Nat) (h : ch ∈ slice line a b) :
    ∃ i, a ≤ i ∧ i < b ∧ line.getD i 0 = ch := by
  unfold slice at h
  obtain ⟨j, hj, hget⟩ := List.mem_iff_getElem.mp h
  simp only [List.length_drop, List.length_take] at hj
  rw [List.getElem_drop, List.getElem_take] at hget
  have hidx : a + j < line.length := by omega
  refine ⟨a + j, by omega, by omega, ?_⟩
  rw [List.getD_eq_getElem?_getD, List.getElem?_eq_getElem hidx]
  exact hget

theorem getWordAtPosition_ident (text : GoString) (pos : Position) :
    ∀ ch ∈ getWordAtPosition text pos, isIdentifierChar ch = true := by
  intro ch hch
  unfold getWordAtPosition at hch
  dsimp only at hch
  split at hch
  · cases hch
  · split at hch
    · cases hch
    · split at hch
      · cases hch
      · obtain ⟨i, h1, h2, h3⟩ := mem_slice _ _ _ _ hch
        rw [← h3]
        by_cases hlt : i < pos.Character
        · exact wordStart_run _ i pos.Character h1 hlt
        · exact wordEnd_run _ pos.Character i (by omega) h2

/-! ### Registry lemmas -/

theorem lowerByte_lowerByte (c : Nat) : lowerByte (lowerByte c) = lowerByte c := by
  unfold lowerByte
  split_ifs <;> omega

theorem lowerByte_upper (c : Nat) :
    lowerByte (if 97 ≤ c ∧ c ≤ 122 then c - 32 else c) = lowerByte c := by
  unfold lowerByte
  split_ifs <;> omega

theorem toLower_asciiUpper (s : GoString) : toLower (asciiUpper s) = toLower s := by
  unfold toLower asciiUpper
  rw [List.map_map]
  apply List.map_congr_left
  intro c _
  exact lowerByte_upper c

theorem toLower_asciiLower (s : GoString) : toLower (asciiLower s) = toLower s := by
  unfold toLower asciiLower
  rw [List.map_map]
  apply List.map_congr_left
  intro c _
  exact lowerByte_lowerByte c

theorem toLower_stringsToLower (s : GoString) : toLower (stringsToLower s) = toLower s := by
  unfold toLower stringsToLower
  rw [List.map_map]
  apply List.map_congr_left
  intro c _
  exact lowerByte_lowerByte c

theorem foldl_insert_byName (n : GoString) : ∀ (l : List Builtin) (r0 : Registry),
    (l.foldl Registry.insert r0).byName n =
      (l.reverse.find? (fun b => toLower b.Name == n)).or (r0.byName n) := by
  intro l
  induction l with
  | nil => intro r0; simp
  | cons b l ih =>
    intro r0
    rw [List.foldl_cons, ih, List.reverse_cons, List.find?_append]
    cases l.reverse.find? (fun b => toLower b.Name == n) with
    | some e => simp
    | none =>
      simp only [Option.none_or, Registry.insert, List.find?_cons, List.find?_nil]
      by_cases h : n = toLower b.Name
      · subst h; simp
      · have h' : (toLower b.Name == n) = false := by
          simp only [beq_eq_false_iff_ne, ne_eq]
          exact fun hh => h hh.symm
        rw [if_neg h, h']
        simp

theorem foldl_insert_byKind (k : BuiltinKind) : ∀ (l : List Builtin) (r0 : Registry),
    (l.foldl Registry.insert r0).byKind k =
      r0.byKind k ++ l.filter (fun b => decide (b.Kind = k)) := by
  intro l
  induction l with
  | nil => intro r0; simp
  | cons b l ih =>
    intro r0
    rw [List.foldl_cons, ih]
    simp only [Registry.insert, List.filter_cons]
    by_cases h : k = b.Kind
    · subst h; simp
    · have h' : ¬ b.Kind = k := fun hh => h hh.symm
      simp [h, h']

theorem buildRegistry_byName (g c : List Builtin) (n : GoString) :
    (buildRegistry g c).byName n =
      (g ++ c).reverse.find? (fun b => toLower b.Name == n) := by
  unfold buildRegistry
  rw [foldl_insert_byName, foldl_insert_byName, List.reverse_append, List.find?_append]
  simp

theorem buildRegistry_byKind (g c : List Builtin) (k : BuiltinKind) :
    (buildRegistry g c).byKind k = (g ++ c).filter (fun b => decide (b.Kind = k)) := by
  unfold buildRegistry
  rw [foldl_insert_byKind, foldl_insert_byKind, List.filter_append]
  simp

theorem buildRegistry_Lookup (g c : List Builtin) (n : GoString) :
    (buildRegistry g c).Lookup n = lastNamed (g ++ c) n := by
  unfold Registry.Lookup lastNamed
  exact buildRegistry_byName g c (toLower n)

theorem lastNamed_append (g c : List Builtin) (n : GoString) :
    lastNamed (g ++ c) n = (lastNamed c n).or (lastNamed g n) := by
  unfold lastNamed
  rw [List.reverse_append, List.find?_append]

theorem lastNamed_isSome (l : List Builtin) (n : GoString) (e : Builtin) (he : e ∈ l)
    (hn : toLower e.Name = toLower n) : (lastNamed l n).isSome = true := by
  unfold lastNamed
  rw [List.find?_isSome]
  exact ⟨e, List.mem_reverse.mpr he, by simp [hn]⟩

/-! ### C11 and C12: prefix filtering -/

theorem wordStart_eq_scanNameStart (line : GoString) : ∀ c,
    wordStart line c = scanNameStart line c := by
  intro c
  induction c with
  | zero => rfl
  | succ c ih =>
    unfold wordStart scanNameStart
    rw [ih]

theorem completionPrefix_eq (line : GoString) (c : Nat) (hc : c ≤ line.length) :
    completionPrefix line c = stringsToLower (identRunBefore line c) := by
  unfold completionPrefix
  dsimp only
  rw [if_pos hc, wordStart_eq_scanNameStart]
  obtain ⟨h1, h2⟩ := scanNameStart_spec line c hc
  by_cases hlt : scanNameStart line c < c
  · rw [if_pos hlt, h2]
  · rw [if_neg hlt]
    have : (identRunBefore line c).length = 0 := by omega
    rw [List.length_eq_zero.mp this]
    rfl

theorem completionPrefix_of_gt (line : GoString) (c : Nat) (hc : line.length < c) :
    completionPrefix line c = [] := by
  unfold completionPrefix
  rw [if_neg (by omega)]

theorem completionPrefix_of_boundary (line : GoString) (c : Nat)
    (hb : ¬ (0 < c ∧ isIdentifierChar (line.getD (c - 1) 0) = true)) :
    completionPrefix line c = [] := by
  unfold completionPrefix
  dsimp only
  split
  · rw [(wordStart_eq_self_iff line c).mpr hb, if_neg (Nat.lt_irrefl c)]
  · rfl

theorem mem_matching (r : Registry) (kind : BuiltinKind) (pfx : GoString) (b : Builtin) :
    b ∈ matching r kind pfx ↔ b ∈ r.ByKind kind ∧ (pfx = [] ∨ pfx <+: stringsToLower b.Name) := by
  unfold matching
  rw [List.mem_filter, matchesPrefix_iff]

theorem getCompletions_eq (r : Registry) (text : GoString) (pos : Position)
    (hline : pos.Line < (splitLines text).length) :
    getCompletions r text pos =
      (match getCompletionContext ((splitLines text).getD pos.Line []) pos.Character with
       | contextType =>
         (matching r KindType (completionPrefix ((splitLines text).getD pos.Line [])
           pos.Character)).map (itemFor KindType)
       | contextFunction =>
         (matching r KindFunction (completionPrefix ((splitLines text).getD pos.Line [])
           pos.Character)).map (itemFor KindFunction) ++
         (matching r KindAggregate (completionPrefix ((splitLines text).getD pos.Line [])
           pos.Character)).map (itemFor KindAggregate)
       | contextGeneral =>
         (matching r KindKeyword (completionPrefix ((splitLines text).getD pos.Line [])
           pos.Character)).map (itemFor KindKeyword) ++
         (matching r KindOperator (completionPrefix ((splitLines text).getD pos.Line [])
           pos.Character)).map (itemFor KindOperator) ++
         (matching r KindFunction (completionPrefix ((splitLines text).getD pos.Line [])
           pos.Character)).map (itemFor KindFunction) ++
         (matching r KindAggregate (completionPrefix ((splitLines text).getD pos.Line [])
           pos.Character)).map (itemFor KindAggregate) ++
         (matching r KindType (completionPrefix ((splitLines text).getD pos.Line [])
           pos.Character)).map (itemFor KindType)) := by
  unfold getCompletions
  dsimp only
  rw [if_neg (by omega)]
  unfold getTypeCompletions getKeywordCompletions getOperatorCompletions
  simp only [getCompletionsByKind_eq, getFunctionCompletions_eq, getAggregateCompletions_eq]
  rfl

theorem itemFor_Label (kind : BuiltinKind) (b : Builtin) : (itemFor kind b).Label = b.Name := by
  unfold itemFor callItem plainItem
  split_ifs <;> rfl

theorem mem_getCompletions (r : Registry) (text : GoString) (pos : Position)
    (item : CompletionItem) (h : item ∈ getCompletions r text pos) :
    ∃ kind b, b ∈ matching r kind
        (completionPrefix ((splitLines text).getD pos.Line []) pos.Character) ∧
      contextSelects
        (getCompletionContext ((splitLines text).getD pos.Line []) pos.Character) kind ∧
      item = itemFor kind b := by
  by_cases hline : pos.Line < (splitLines text).length
  · rw [getCompletions_eq r text pos hline] at h
    cases hctx : getCompletionContext ((splitLines text).getD pos.Line []) pos.Character with
    | contextType =>
      rw [hctx] at h
      simp only [List.mem_map] at h
      obtain ⟨b, hb, rfl⟩ := h
      exact ⟨KindType, b, hb, rfl, rfl⟩
    | contextFunction =>
      rw [hctx] at h
      simp only [List.mem_append, List.mem_map] at h
      rcases h with ⟨b, hb, rfl⟩ | ⟨b, hb, rfl⟩
      · exact ⟨KindFunction, b, hb, Or.inl rfl, rfl⟩
      · exact ⟨KindAggregate, b, hb, Or.inr rfl, rfl⟩
    | contextGeneral =>
      rw [hctx] at h
      simp only [List.mem_append, List.mem_map] at h
      rcases h with (((⟨b, hb, rfl⟩ | ⟨b, hb, rfl⟩) | ⟨b, hb, rfl⟩) | ⟨b, hb, rfl⟩) |
        ⟨b, hb, rfl⟩
      · exact ⟨KindKeyword, b, hb, Or.inl rfl, rfl⟩
      · exact ⟨KindOperator, b, hb, Or.inr (Or.inl rfl), rfl⟩
      · exact ⟨KindFunction, b, hb, Or.inr (Or.inr (Or.inl rfl)), rfl⟩
      · exact ⟨KindAggregate, b, hb, Or.inr (Or.inr (Or.inr (Or.inl rfl))), rfl⟩
      · exact ⟨KindType, b, hb, Or.inr (Or.inr (Or.inr (Or.inr rfl))), rfl⟩
  · unfold getCompletions at h
    dsimp only at h
    rw [if_pos (by omega)] at h
    cases h

theorem getCompletions_mem_of_selected (r : Registry) (text : GoString) (pos : Position)
    (kind : BuiltinKind) (b : Builtin) (hline : pos.Line < (splitLines text).length)
    (hb : b ∈ matching r kind
      (completionPrefix ((splitLines text).getD pos.Line []) pos.Character))
    (hsel : contextSelects
      (getCompletionContext ((splitLines text).getD pos.Line []) pos.Character) kind) :
    itemFor kind b ∈ getCompletions r text pos := by
  rw [getCompletions_eq r text pos hline]
  cases hctx : getCompletionContext ((splitLines text).getD pos.Line []) pos.Character with
  | contextType =>
    rw [hctx] at hsel
    have hk : kind = KindType := hsel
    subst hk
    exact List.mem_map.mpr ⟨b, hb, rfl⟩
  | contextFunction =>
    rw [hctx] at hsel
    simp only [List.mem_append, List.mem_map]
    rcases (hsel : kind = KindFunction ∨ kind = KindAggregate) with hk | hk <;> subst hk
    · exact Or.inl ⟨b, hb, rfl⟩
    · exact Or.inr ⟨b, hb, rfl⟩
  | contextGeneral =>
    rw [hctx] at hsel
    simp only [List.mem_append, List.mem_map]
    rcases (hsel : kind = KindKeyword ∨ kind = KindOperator ∨ kind = KindFunction ∨
      kind = KindAggregate ∨ kind = KindType) with hk | hk | hk | hk | hk <;> subst hk
    · exact Or.inl (Or.inl (Or.inl (Or.inl ⟨b, hb, rfl⟩)))
    · exact Or.inl (Or.inl (Or.inl (Or.inr ⟨b, hb, rfl⟩)))
    · exact Or.inl (Or.inl (Or.inr ⟨b, hb, rfl⟩))
    · exact Or.inl (Or.inr ⟨b, hb, rfl⟩)
    · exact Or.inr ⟨b, hb, rfl⟩

theorem lowerByte_ne_newline (c : Nat) (hc : c ≠ 10) : lowerByte c ≠ 10 := by
  unfold lowerByte
  split_ifs <;> omega

theorem splitLines_map_lower (text : GoString) :
    splitLines (text.map lowerByte) = (splitLines text).map (List.map lowerByte) := by
  induction text with
  | nil => rfl
  | cons c cs ih =>
    by_cases hc : c = 10
    · subst hc
      have : lowerByte 10 = 10 := by decide
      rw [List.map_cons, this, splitLines_cons_newline, splitLines_cons_newline, ih]
      rfl
    · obtain ⟨l, ls, h1, h2⟩ := splitLines_cons_other c cs hc
      obtain ⟨l', ls', h1', h2'⟩ :=
        splitLines_cons_other (lowerByte c) (cs.map lowerByte) (lowerByte_ne_newline c hc)
      rw [List.map_cons, h2', h2]
      rw [ih, h1] at h1'
      simp only [List.map_cons, List.cons.injEq] at h1'
      rw [← h1'.1, ← h1'.2]
      rfl

theorem isIdentifierChar_lowerByte (c : Nat) :
    isIdentifierChar (lowerByte c) = isIdentifierChar c := by
  unfold lowerByte
  split_ifs with h
  · have h1 : isIdentifierChar (c + 32) = true := by
      simp only [isIdentifierChar, Bool.or_eq_true, Bool.and_eq_true, decide_eq_true_eq,
        beq_iff_eq]
      omega
    have h2 : isIdentifierChar c = true := by
      simp only [isIdentifierChar, Bool.or_eq_true, Bool.and_eq_true, decide_eq_true_eq,
        beq_iff_eq]
      omega
    rw [h1, h2]
  · rfl

theorem getD_map_lowerByte (l : GoString) (i : Nat) :
    (l.map lowerByte).getD i 0 = lowerByte (l.getD i 0) := by
  simp only [List.getD_eq_getElem?_getD, List.getElem?_map]
  cases l[i]? <;> rfl

theorem isIdentifierChar_getD_congr (line line' : GoString)
    (h : stringsToLower line' = stringsToLower line) (i : Nat) :
    isIdentifierChar (line'.getD i 0) = isIdentifierChar (line.getD i 0) := by
  unfold stringsToLower at h
  rw [← isIdentifierChar_lowerByte (line'.getD i 0), ← isIdentifierChar_lowerByte (line.getD i 0),
    ← getD_map_lowerByte, ← getD_map_lowerByte, h]

theorem wordStart_congr (line line' : GoString)
    (h : stringsToLower line' = stringsToLower line) : ∀ c,
    wordStart line' c = wordStart line c := by
  intro c
  induction c with
  | zero => rfl
  | succ c ih =>
    unfold wordStart
    rw [isIdentifierChar_getD_congr line line' h c, ih]

theorem length_eq_of_lower_eq (line line' : GoString)
    (h : stringsToLower line' = stringsToLower line) : line'.length = line.length := by
  have := congrArg List.length h
  simpa [stringsToLower] using this

theorem stringsToLower_slice (line : GoString) (a b : Nat) :
    stringsToLower (slice line a b) = slice (stringsToLower line) a b := by
  unfold stringsToLower slice
  rw [List.map_drop, List.map_take]

theorem completionPrefix_congr (line line' : GoString)
    (h : stringsToLower line' = stringsToLower line) (c : Nat) :
    completionPrefix line' c = completionPrefix line c := by
  unfold completionPrefix
  dsimp only
  rw [length_eq_of_lower_eq line line' h, wordStart_congr line line' h,
    stringsToLower_slice, stringsToLower_slice, h]

theorem getCompletionContext_congr (line line' : GoString)
    (h : stringsToLower line' = stringsToLower line) (col : Nat) :
    getCompletionContext line' col = getCompletionContext line col := by
  rw [getCompletionContext_eq, getCompletionContext_eq, length_eq_of_lower_eq line line' h]
  unfold stringsToLower at h ⊢
  rw [List.map_take, List.map_take, h]

theorem getCompletions_congr (r : Registry) (text text' : GoString) (pos : Position)
    (h : stringsToLower text' = stringsToLower text) :
    getCompletions r text' pos = getCompletions r text pos := by
  have hl : (splitLines text').map (List.map lowerByte) =
      (splitLines text).map (List.map lowerByte) := by
    rw [← splitLines_map_lower, ← splitLines_map_lower]
    exact congrArg splitLines h
  have hlen : (splitLines text').length = (splitLines text).length := by
    have := congrArg List.length hl
    simpa using this
  have hline : stringsToLower ((splitLines text').getD pos.Line []) =
      stringsToLower ((splitLines text).getD pos.Line []) := by
    have := congrArg (fun ls => ls.getD pos.Line []) hl
    simp only [List.getD_eq_getElem?_getD, List.getElem?_map] at this ⊢
    unfold stringsToLower
    cases h1 : (splitLines text')[pos.Line]? <;> cases h2 : (splitLines text)[pos.Line]? <;>
      rw [h1, h2] at this <;> simpa using this
  unfold getCompletions
  dsimp only
  rw [hlen, completionPrefix_congr _ _ hline, getCompletionContext_congr _ _ hline]

/-- C11: for every text and position, every item that `getCompletions` returns is built
from a registry element, carries its name as label, and the lowercased label has the
scanner-derived prefix as a leading substring, so no element whose lowercased name does not
start with the prefix appears.  The prefix is the lowercased maximal run of identifier
characters that ends at the cursor on the cursor's line, empty when the byte before the
cursor is not an identifier character and when the cursor is past the end of the line.
Matching ignores case: two texts with the same lowercase form get the same items. -/
theorem getCompletions_prefix_filter (r : Registry) (text : GoString) (pos : Position) :
    (∀ item ∈ getCompletions r text pos,
      completionPrefix ((splitLines text).getD pos.Line []) pos.Character <+:
        stringsToLower item.Label ∧
      ∃ kind b, b ∈ r.ByKind kind ∧ item.Label = b.Name ∧
        completionPrefix ((splitLines text).getD pos.Line []) pos.Character <+:
          stringsToLower b.Name) ∧
    (pos.Character ≤ ((splitLines text).getD pos.Line []).length →
      completionPrefix ((splitLines text).getD pos.Line []) pos.Character =
        stringsToLower (identRunBefore ((splitLines text).getD pos.Line []) pos.Character)) ∧
    (¬ (0 < pos.Character ∧ isIdentifierChar
        (((splitLines text).getD pos.Line []).getD (pos.Character - 1) 0) = true) →
      completionPrefix ((splitLines text).getD pos.Line []) pos.Character = []) ∧
    (((splitLines text).getD pos.Line []).length < pos.Character →
      completionPrefix ((splitLines text).getD pos.Line []) pos.Character = []) ∧
    (∀ text' : GoString, stringsToLower text' = stringsToLower text →
      getCompletions r text' pos = getCompletions r text pos) := by
  refine ⟨?_, completionPrefix_eq _ _, completionPrefix_of_boundary _ _,
    completionPrefix_of_gt _ _, fun text' h => getCompletions_congr r text text' pos h⟩
  intro item hitem
  obtain ⟨kind, b, hb, _, rfl⟩ := mem_getCompletions r text pos item hitem
  rw [itemFor_Label]
  obtain ⟨hb1, hb2⟩ := (mem_matching r kind _ b).mp hb
  have hpre : completionPrefix ((splitLines text).getD pos.Line []) pos.Character <+:
      stringsToLower b.Name := by
    rcases hb2 with h0 | h0
    · rw [h0]; exact List.nil_prefix
    · exact h0
  exact ⟨hpre, kind, b, hb1, rfl, hpre⟩

/-- Witness of C11: typing `AB` and typing `ab` give the same items, the one function of
the curated table whose name starts with `ab`. -/
theorem getCompletions_prefix_filter_witness :
    getCompletions (Builtins []) (bytes "AB") ⟨0, 2⟩ =
      getCompletions (Builtins []) (bytes "ab") ⟨0, 2⟩ ∧
    (getCompletions (Builtins []) (bytes "ab") ⟨0, 2⟩).map (fun i => i.Label) = [bytes "abs"] ∧
    completionPrefix (bytes "x + AB") 6 = bytes "ab" :=
  ⟨(getCompletions_prefix_filter (Builtins []) (bytes "ab") ⟨0, 2⟩).2.2.2.2 (bytes "AB") (by decide),
   by decide,
   ((getCompletions_prefix_filter (Builtins []) (bytes "x + AB") ⟨0, 6⟩).2.1 (by decide)).trans
     (by decide)⟩

/-- Counterexample to C12: in `x::ab` the scanner-derived prefix is `ab` and the curated
function `abs` starts with it, yet in this type context completion returns nothing; in
`sum(fr` the keyword `from` is not offered in the function context. -/
theorem getCompletions_other_kind_counterexample :
    completionPrefix (bytes "x::ab") 5 = bytes "ab" ∧
    ((Builtins []).Lookup (bytes "abs")).map (fun b => (b.Name, b.Kind)) =
      some (bytes "abs", KindFunction) ∧
    hasPrefix (stringsToLower (bytes "abs")) (bytes "ab") = true ∧
    getCompletions (Builtins []) (bytes "x::ab") ⟨0, 5⟩ = [] ∧
    completionPrefix (bytes "sum(fr") 6 = bytes "fr" ∧
    (buildRegistry [⟨bytes "from", KindKeyword, [], [], [], []⟩] []).ByKind KindKeyword =
      [⟨bytes "from", KindKeyword, [], [], [], []⟩] ∧
    getCompletions (buildRegistry [⟨bytes "from", KindKeyword, [], [], [], []⟩] [])
      (bytes "sum(fr") ⟨0, 6⟩ = [] := by
  decide

/-- C12, amended: for any element `E` of a registry built from a generated and a curated
list and any non-empty prefix `p` that is a leading substring of the lowercased name of `E`,
the item of `E` appears in the output of `getCompletions(text, pos)` whenever the line is in
range, the scanner-derived prefix at `pos` equals `p`, and the kind of `E` is one the context
at `pos` offers: a type in the type context, a function or an aggregate in the function
context, any of the five kinds in the general context. -/
theorem getCompletions_complete (g c : List Builtin) (text : GoString) (pos : Position)
    (E : Builtin) (p : GoString)
    (hline : pos.Line < (splitLines text).length)
    (hE : E ∈ g ∨ E ∈ c)
    (_hp : p ≠ [])
    (hpre : p <+: stringsToLower E.Name)
    (hscan : completionPrefix ((splitLines text).getD pos.Line []) pos.Character = p)
    (hsel : contextSelects
      (getCompletionContext ((splitLines text).getD pos.Line []) pos.Character) E.Kind) :
    itemFor E.Kind E ∈ getCompletions (buildRegistry g c) text pos ∧
    ∃ item ∈ getCompletions (buildRegistry g c) text pos, item.Label = E.Name := by
  have hmem : itemFor E.Kind E ∈ getCompletions (buildRegistry g c) text pos := by
    apply getCompletions_mem_of_selected _ text pos E.Kind E hline _ hsel
    rw [mem_matching, hscan]
    refine ⟨?_, Or.inr hpre⟩
    unfold Registry.ByKind
    rw [buildRegistry_byKind, List.mem_filter, List.mem_append]
    exact ⟨hE, by simp⟩
  exact ⟨hmem, _, hmem, itemFor_Label _ _⟩

/-- Witness of C12 as amended: after `su` in the general context the curated aggregate
`sum` is offered, and so it is after `f(su` in the function context. -/
theorem getCompletions_complete_witness :
    (∃ item ∈ getCompletions (buildRegistry [] allBuiltins) (bytes "su") ⟨0, 2⟩,
      item.Label = bytes "sum") ∧
    (∃ item ∈ getCompletions (buildRegistry [] allBuiltins) (bytes "f(su") ⟨0, 4⟩,
      item.Label = bytes "sum") :=
  ⟨(getCompletions_complete [] allBuiltins (bytes "su") ⟨0, 2⟩
      ⟨bytes "sum", KindAggregate, bytes "Sum of values",
        bytes "Calculate the sum of numeric values", bytes "sum(value: number) -> number",
        [⟨bytes "value", bytes "Numeric values"⟩]⟩ (bytes "su")
      (by decide) (Or.inr (by decide)) (by decide) ⟨bytes "m", by decide⟩ (by decide)
      (by decide)).2,
   (getCompletions_complete [] allBuiltins (bytes "f(su") ⟨0, 4⟩
      ⟨bytes "sum", KindAggregate, bytes "Sum of values",
        bytes "Calculate the sum of numeric values", bytes "sum(value: number) -> number",
        [⟨bytes "value", bytes "Numeric values"⟩]⟩ (bytes "su")
      (by decide) (Or.inr (by decide)) (by decide) ⟨bytes "m", by decide⟩ (by decide)
      (by decide)).2⟩

/-! ### C13: completion items -/

/-- C13: every completion item built for a function or an aggregate has the element's name
as label, the name followed by `($1)` as insert text, and `function: ` or `aggregate: `
before the brief as detail; every item built for an operator has the detail `operator: `
before the brief, for a type `type: ` before the brief, for a keyword the brief alone, and
these three carry no insert text.  Each of the five functions returns the items of the
matching elements of its kind, in registry order. -/
theorem completion_item_fields (r : Registry) (pfx : GoString) :
    getFunctionCompletions r pfx =
      (matching r KindFunction pfx).map (fun fn =>
        { Label := fn.Name, Kind := CompletionItemKind.Function,
          Detail := bytes "function: " ++ fn.Brief,
          InsertText := fn.Name ++ bytes "($1)" }) ∧
    getAggregateCompletions r pfx =
      (matching r KindAggregate pfx).map (fun agg =>
        { Label := agg.Name, Kind := CompletionItemKind.Function,
          Detail := bytes "aggregate: " ++ agg.Brief,
          InsertText := agg.Name ++ bytes "($1)" }) ∧
    getOperatorCompletions r pfx =
      (matching r KindOperator pfx).map (fun b =>
        { Label := b.Name, Kind := CompletionItemKind.Function,
          Detail := bytes "operator: " ++ b.Brief, InsertText := [] }) ∧
    getTypeCompletions r pfx =
      (matching r KindType pfx).map (fun b =>
        { Label := b.Name, Kind := CompletionItemKind.Class,
          Detail := bytes "type: " ++ b.Brief, InsertText := [] }) ∧
    getKeywordCompletions r pfx =
      (matching r KindKeyword pfx).map (fun b =>
        { Label := b.Name, Kind := CompletionItemKind.Keyword,
          Detail := b.Brief, InsertText := [] }) := by
  refine ⟨?_, ?_, ?_, ?_, ?_⟩
  · rw [getFunctionCompletions_eq]; rfl
  · rw [getAggregateCompletions_eq]; rfl
  · unfold getOperatorCompletions
    rw [getCompletionsByKind_eq]; rfl
  · unfold getTypeCompletions
    rw [getCompletionsByKind_eq]; rfl
  · unfold getKeywordCompletions
    rw [getCompletionsByKind_eq]; rfl

/-- Witness of C13: the items of one element of each kind. -/
theorem completion_item_fields_witness :
    getCompletions (buildRegistry
        [⟨bytes "from", KindKeyword, bytes "Source", [], [], []⟩,
         ⟨bytes "sort", KindOperator, bytes "Sort values", [], [], []⟩,
         ⟨bytes "int64", KindType, bytes "Integer", [], [], []⟩]
        [⟨bytes "abs", KindFunction, bytes "Absolute value", [], bytes "abs(value)", []⟩,
         ⟨bytes "count", KindAggregate, bytes "Count records", [], bytes "count()", []⟩])
      [] ⟨0, 0⟩ =
      [⟨bytes "from", CompletionItemKind.Keyword, bytes "Source", []⟩,
       ⟨bytes "sort", CompletionItemKind.Function, bytes "operator: Sort values", []⟩,
       ⟨bytes "abs", CompletionItemKind.Function, bytes "function: Absolute value",
         bytes "abs($1)"⟩,
       ⟨bytes "count", CompletionItemKind.Function, bytes "aggregate: Count records",
         bytes "count($1)"⟩,
       ⟨bytes "int64", CompletionItemKind.Class, bytes "type: Integer", []⟩] := by
  decide

/-! ### C14 and C15: the word at the cursor -/

/-- C14: for every text, every in-range line of it and every maximal non-empty run of
identifier characters `line[s:e]` of that line, `getWordAtPosition` returns exactly
`line[s:e]` for every cursor character `c` with `s ≤ c ≤ e`, the same word at every interior
offset and at both ends of the run; the word is not empty and holds identifier characters
only. -/
theorem getWordAtPosition_run (text : GoString) (pos : Position) (s e : Nat)
    (hline : pos.Line < (splitLines text).length)
    (hrun : IsMaximalRun ((splitLines text).getD pos.Line []) s e)
    (hs : s ≤ pos.Character) (he : pos.Character ≤ e) :
    getWordAtPosition text pos = slice ((splitLines text).getD pos.Line []) s e ∧
    getWordAtPosition text pos ≠ [] ∧
    ∀ ch ∈ getWordAtPosition text pos, isIdentifierChar ch = true := by
  obtain ⟨hse, hel, hall, hbs, hbe⟩ := hrun
  have hstart := wordStart_eq_of_run _ s hbs pos.Character hs
    (fun i hi hsi => hall i (by omega) hsi)
  have hend := wordEnd_eq_of_run _ e hel hbe (e - pos.Character) pos.Character (by omega)
    (fun i hi hci => hall i hi (by omega))
  have heq := getWordAtPosition_eq text pos hline (by omega)
  rw [hstart, hend, if_neg (by omega)] at heq
  refine ⟨heq, ?_, getWordAtPosition_ident text pos⟩
  rw [heq]
  exact slice_ne_nil _ s e hse hel

/-- Witness of C14: in `foo bar_1+x` the run `bar_1` spans the indices 4 to 9, and the
cursor at its start, inside it and at its end all give `bar_1`. -/
theorem getWordAtPosition_run_witness :
    IsMaximalRun ((splitLines (bytes "foo bar_1+x")).getD 0 []) 4 9 ∧
    getWordAtPosition (bytes "foo bar_1+x") ⟨0, 4⟩ = bytes "bar_1" ∧
    getWordAtPosition (bytes "foo bar_1+x") ⟨0, 6⟩ = bytes "bar_1" ∧
    getWordAtPosition (bytes "foo bar_1+x") ⟨0, 9⟩ = bytes "bar_1" :=
  ⟨by decide,
   (getWordAtPosition_run (bytes "foo bar_1+x") ⟨0, 4⟩ 4 9 (by decide) (by decide) (by decide)
     (by decide)).1.trans (by decide),
   (getWordAtPosition_run (bytes "foo bar_1+x") ⟨0, 6⟩ 4 9 (by decide) (by decide) (by decide)
     (by decide)).1.trans (by decide),
   (getWordAtPosition_run (bytes "foo bar_1+x") ⟨0, 9⟩ 4 9 (by decide) (by decide) (by decide)
     (by decide)).1.trans (by decide)⟩

/-- C15: `getWordAtPosition` returns the empty string if and only if the line index is at
least the number of lines, or the character exceeds the length of the line, or neither the
byte just before the cursor nor the byte at the cursor is an identifier character. -/
theorem getWordAtPosition_eq_nil_iff (text : GoString) (pos : Position) :
    getWordAtPosition text pos = [] ↔
      pos.Line ≥ (splitLines text).length ∨
      pos.Character > ((splitLines text).getD pos.Line []).length ∨
      (¬ (0 < pos.Character ∧
          isIdentifierChar (((splitLines text).getD pos.Line []).getD (pos.Character - 1) 0) =
            true) ∧
       ¬ (pos.Character < ((splitLines text).getD pos.Line []).length ∧
          isIdentifierChar (((splitLines text).getD pos.Line []).getD pos.Character 0) =
            true)) := by
  by_cases hline : pos.Line ≥ (splitLines text).length
  · simp only [hline, true_or, iff_true]
    unfold getWordAtPosition
    dsimp only
    rw [if_pos hline]
  · by_cases hchar : pos.Character > ((splitLines text).getD pos.Line []).length
    · simp only [hchar, true_or, or_true, iff_true]
      unfold getWordAtPosition
      dsimp only
      rw [if_neg hline, if_pos hchar]
    · rw [getWordAtPosition_eq text pos (by omega) (by omega)]
      have hle := wordStart_le ((splitLines text).getD pos.Line []) pos.Character
      have hge := wordEnd_ge ((splitLines text).getD pos.Line []) pos.Character
      have hwe := wordEnd_le ((splitLines text).getD pos.Line []) pos.Character (by omega)
      have h1 := wordStart_eq_self_iff ((splitLines text).getD pos.Line []) pos.Character
      have h2 := wordEnd_eq_self_iff ((splitLines text).getD pos.Line []) pos.Character
      constructor
      · intro h
        right; right
        by_cases heq : wordStart ((splitLines text).getD pos.Line []) pos.Character =
            wordEnd ((splitLines text).getD pos.Line []) pos.Character
        · exact ⟨h1.mp (by omega), h2.mp (by omega)⟩
        · rw [if_neg heq] at h
          exact absurd h (slice_ne_nil _ _ _ (by omega) hwe)
      · rintro (h | h | ⟨ha, hb⟩)
        · exact absurd h hline
        · exact absurd h hchar
        · rw [if_pos (by rw [h1.mpr ha, h2.mpr hb])]

/-- Witness of C15: the word is empty on an empty line, between two spaces, past the last
line and past the end of the line, and not empty when the cursor touches a letter. -/
theorem getWordAtPosition_eq_nil_iff_witness :
    getWordAtPosition [] ⟨0, 0⟩ = [] ∧
    getWordAtPosition (bytes "a  b") ⟨0, 2⟩ = [] ∧
    getWordAtPosition (bytes "a  b") ⟨1, 0⟩ = [] ∧
    getWordAtPosition (bytes "a  b") ⟨0, 5⟩ = [] ∧
    getWordAtPosition (bytes "a  b") ⟨0, 1⟩ = bytes "a" ∧
    getWordAtPosition (bytes "a  b") ⟨0, 3⟩ = bytes "b" :=
  ⟨(getWordAtPosition_eq_nil_iff [] ⟨0, 0⟩).mpr (by decide),
   (getWordAtPosition_eq_nil_iff (bytes "a  b") ⟨0, 2⟩).mpr (by decide),
   (getWordAtPosition_eq_nil_iff (bytes "a  b") ⟨1, 0⟩).mpr (by decide),
   (getWordAtPosition_eq_nil_iff (bytes "a  b") ⟨0, 5⟩).mpr (by decide),
   by decide, by decide⟩

/-! ### C16 and C17: hover -/

theorem getHover_eq (r : Registry) (text : GoString) (pos : Position) :
    getHover r text pos =
      if getWordAtPosition text pos = [] then none
      else (r.Lookup (getWordAtPosition text pos)).map (fun b =>
        { Contents := { Kind := MarkupKind.Markdown, Value := formatHoverContent b } }) := by
  unfold getHover
  dsimp only
  split
  · rfl
  · cases r.Lookup (getWordAtPosition text pos) <;> rfl

/-- C16: `getHover` returns absent exactly when `getWordAtPosition` is empty or the word,
lowercased, is not a key of the registry; otherwise it returns content tagged as markdown
whose text is `formatHoverContent` of the element the lookup finds. -/
theorem getHover_iff (r : Registry) (text : GoString) (pos : Position) :
    (getHover r text pos = none ↔
      getWordAtPosition text pos = [] ∨
        r.byName (toLower (getWordAtPosition text pos)) = none) ∧
    (∀ b, getWordAtPosition text pos ≠ [] →
      r.byName (toLower (getWordAtPosition text pos)) = some b →
      getHover r text pos =
        some { Contents := { Kind := MarkupKind.Markdown, Value := formatHoverContent b } }) := by
  rw [getHover_eq]
  unfold Registry.Lookup
  refine ⟨?_, ?_⟩
  · by_cases hw : getWordAtPosition text pos = []
    · simp [hw]
    · rw [if_neg hw]
      cases r.byName (toLower (getWordAtPosition text pos)) <;> simp [hw]
  · intro b hw hl
    rw [if_neg hw, hl]
    rfl

/-- Witness of C16: hover on the empty document at {0,0} is absent; hover on `ABS` in
`x := ABS(1)` shows the signature and documentation of `abs`; hover on an unregistered word
is absent. -/
theorem getHover_iff_witness :
    getHover (Builtins []) [] ⟨0, 0⟩ = none ∧
    getHover (Builtins []) (bytes "x := ABS(1)") ⟨0, 6⟩ =
      some { Contents := { Kind := MarkupKind.Markdown,
                           Value := bytes "```spq\nabs(value: number) -> number\n```\n\nReturns the absolute value of a number" } } ∧
    getHover (Builtins []) (bytes "x := ABS(1)") ⟨0, 0⟩ = none :=
  ⟨(getHover_iff (Builtins []) [] ⟨0, 0⟩).1.mpr (Or.inl (by decide)),
   ((getHover_iff (Builtins []) (bytes "x := ABS(1)") ⟨0, 6⟩).2
     ⟨bytes "abs", KindFunction, bytes "Absolute value",
       bytes "Returns the absolute value of a number", bytes "abs(value: number) -> number",
       [⟨bytes "value", bytes "Numeric value"⟩]⟩ (by decide) (by decide)).trans (by decide),
   (getHover_iff (Builtins []) (bytes "x := ABS(1)") ⟨0, 0⟩).1.mpr (Or.inr (by decide))⟩

/-- C17: for every element of one of the five kinds, `formatHoverContent` is the reference
text: for a function or an aggregate with a signature the fenced signature, a blank line and
the documentation (the brief when the documentation is empty); otherwise the bold name, the
kind label in parentheses, a blank line and the brief, the documentation not being used.
For a kind value outside the five the text is the bold name, a blank line and the brief. -/
theorem formatHoverContent_eq_reference (b : Builtin) :
    ((b.Kind = KindKeyword ∨ b.Kind = KindOperator ∨ b.Kind = KindFunction ∨
        b.Kind = KindAggregate ∨ b.Kind = KindType) →
      formatHoverContent b = hoverReference b) ∧
    (¬ (b.Kind = KindKeyword ∨ b.Kind = KindOperator ∨ b.Kind = KindFunction ∨
        b.Kind = KindAggregate ∨ b.Kind = KindType) →
      formatHoverContent b = bytes "**" ++ b.Name ++ bytes "**\n\n" ++ b.Brief) := by
  refine ⟨?_, ?_⟩
  · intro hkind
    unfold formatHoverContent hoverReference kindLabel
    rcases hkind with h | h | h | h | h <;> rw [h] <;>
      by_cases hs : b.Signature = [] <;> simp [hs, bytes]
  · intro hkind
    unfold formatHoverContent
    rw [if_neg (by tauto), if_neg (by tauto), if_neg (by tauto), if_neg (by tauto)]

/-- Witness of C17: the hover text of a function with a signature, of an aggregate without
one and of a keyword. -/
theorem formatHoverContent_eq_reference_witness :
    formatHoverContent ⟨bytes "abs", KindFunction, bytes "Absolute value", [],
        bytes "abs(value: number) -> number", []⟩ =
      bytes "```spq\nabs(value: number) -> number\n```\n\nAbsolute value" ∧
    formatHoverContent ⟨bytes "tally", KindAggregate, bytes "Tally", bytes "Long text", [],
        []⟩ = bytes "**tally** (aggregate)\n\nTally" ∧
    formatHoverContent ⟨bytes "from", KindKeyword, bytes "Source", bytes "Long text", [],
        []⟩ = bytes "**from** (keyword)\n\nSource" :=
  ⟨((formatHoverContent_eq_reference _).1 (by decide)).trans (by decide),
   ((formatHoverContent_eq_reference _).1 (by decide)).trans (by decide),
   ((formatHoverContent_eq_reference _).1 (by decide)).trans (by decide)⟩

/-! ### C18, C19 and C20: the registry -/

/-- Counterexample to C18: the string `ſum` begins with U+017F, the bytes 197 and 191,
and `strings.ToUpper` maps it to `SUM`; in the registry of the curated table the lookup of
`SUM` finds the aggregate `sum` and the lookup of `ſum` finds nothing.  Likewise `Kind`
written with U+212A, the bytes 226, 132 and 170, is mapped to `kind` by `strings.ToLower`;
the lookup of `kind` finds the function and the lookup of the string itself finds
nothing. -/
theorem Lookup_long_s_counterexample :
    (Builtins []).Lookup [197, 191, 117, 109] = none ∧
    ((Builtins []).Lookup (bytes "SUM")).map (fun b => b.Name) = some (bytes "sum") ∧
    (∀ upper : GoString → GoString, upper [197, 191, 117, 109] = bytes "SUM" →
      (Builtins []).Lookup (upper [197, 191, 117, 109]) ≠
        (Builtins []).Lookup [197, 191, 117, 109]) ∧
    (Builtins []).Lookup [226, 132, 170, 105, 110, 100] = none ∧
    ((Builtins []).Lookup (bytes "kind")).map (fun b => b.Name) = some (bytes "kind") ∧
    (∀ lower : GoString → GoString, lower [226, 132, 170, 105, 110, 100] = bytes "kind" →
      (Builtins []).Lookup (lower [226, 132, 170, 105, 110, 100]) ≠
        (Builtins []).Lookup [226, 132, 170, 105, 110, 100]) := by
  have h1 : (Builtins []).Lookup [197, 191, 117, 109] = none := by decide
  have h2 : ((Builtins []).Lookup (bytes "SUM")).map (fun b => b.Name) = some (bytes "sum") := by
    decide
  have h3 : (Builtins []).Lookup [226, 132, 170, 105, 110, 100] = none := by decide
  have h4 : ((Builtins []).Lookup (bytes "kind")).map (fun b => b.Name) =
      some (bytes "kind") := by decide
  refine ⟨h1, h2, ?_, h3, h4, ?_⟩
  · intro upper hu hcon
    rw [hu, h1] at hcon
    rw [hcon] at h2
    cases h2
  · intro lower hl hcon
    rw [hl, h3] at hcon
    rw [hcon] at h4
    cases h4

/-- C18, amended: registry lookup is case-insensitive as far as ASCII goes: for every
registry, in particular one built from any generated and curated lists, and every string
`N`, the lookups of `N`, of `N` with `a` to `z` replaced by `A` to `Z`, and of `N` with `A`
to `Z` replaced by `a` to `z` give the same result; so do the lookups of `upper(N)` and
`lower(N)` for any case maps that act on `N` as these two do, as the library's do on a
string of ASCII bytes. -/
theorem Lookup_case_insensitive (r : Registry) (g c : List Builtin) (N : GoString) :
    r.Lookup (asciiUpper N) = r.Lookup N ∧
    r.Lookup (asciiLower N) = r.Lookup N ∧
    (buildRegistry g c).Lookup (asciiUpper N) = (buildRegistry g c).Lookup N ∧
    (buildRegistry g c).Lookup (asciiLower N) = (buildRegistry g c).Lookup N ∧
    (∀ upper lower : GoString → GoString, upper N = asciiUpper N → lower N = asciiLower N →
      r.Lookup (upper N) = r.Lookup N ∧ r.Lookup (lower N) = r.Lookup N) := by
  have h1 : ∀ r : Registry, r.Lookup (asciiUpper N) = r.Lookup N := by
    intro r
    unfold Registry.Lookup
    rw [toLower_asciiUpper]
  have h2 : ∀ r : Registry, r.Lookup (asciiLower N) = r.Lookup N := by
    intro r
    unfold Registry.Lookup
    rw [toLower_asciiLower]
  refine ⟨h1 r, h2 r, h1 _, h2 _, ?_⟩
  intro upper lower hu hl
  rw [hu, hl]
  exact ⟨h1 r, h2 r⟩

/-- Witness of C18 as amended: in the registry of the curated table, `count`, `COUNT` and
`Count` resolve the same aggregate. -/
theorem Lookup_case_insensitive_witness :
    ((Builtins []).Lookup (bytes "COUNT")).map (fun b => b.Signature) =
      some (bytes "count() -> int64") ∧
    (Builtins []).Lookup (bytes "count") = (Builtins []).Lookup (bytes "COUNT") ∧
    (Builtins []).Lookup (bytes "Count") = (Builtins []).Lookup (bytes "COUNT") :=
  ⟨by decide,
   ((Lookup_case_insensitive (Builtins []) [] [] (bytes "count")).1).symm.trans
     (congrArg (Builtins []).Lookup (by decide : asciiUpper (bytes "count") = bytes "COUNT")),
   ((Lookup_case_insensitive (Builtins []) [] [] (bytes "Count")).1).symm.trans
     (congrArg (Builtins []).Lookup (by decide : asciiUpper (bytes "Count") = bytes "COUNT"))⟩

/-- C19: in a registry built from any generated list `g` and curated list `c`, `Lookup(n)`
returns the last entry of `g` followed by `c` whose lowercased name is the lowercased `n`.
So when some curated entry has that name, the result is a curated entry with that name (the
last such one), with its `Doc`, `Signature`, `Kind` and `Parameters`; a generated entry is
returned only when no curated entry has the name. -/
theorem buildRegistry_Lookup_last (g c : List Builtin) (n : GoString) :
    (buildRegistry g c).Lookup n = lastNamed (g ++ c) n ∧
    (∀ e, e ∈ c → toLower e.Name = toLower n →
      (buildRegistry g c).Lookup n = lastNamed c n ∧
      ∃ e', e' ∈ c ∧ toLower e'.Name = toLower n ∧ (buildRegistry g c).Lookup n = some e') ∧
    ((∀ e, e ∈ c → toLower e.Name ≠ toLower n) →
      (buildRegistry g c).Lookup n = lastNamed g n) := by
  refine ⟨buildRegistry_Lookup g c n, ?_, ?_⟩
  · intro e he hn
    have hsome := lastNamed_isSome c n e he hn
    rw [buildRegistry_Lookup, lastNamed_append]
    cases hl : lastNamed c n with
    | none => rw [hl] at hsome; cases hsome
    | some e' =>
      refine ⟨rfl, e', ?_, ?_, rfl⟩
      · unfold lastNamed at hl
        exact List.mem_reverse.mp (List.mem_of_find?_eq_some hl)
      · unfold lastNamed at hl
        have := List.find?_some hl
        simpa using this
  · intro hall
    rw [buildRegistry_Lookup, lastNamed_append]
    have : lastNamed c n = none := by
      unfold lastNamed
      rw [List.find?_eq_none]
      intro e he
      have := hall e (List.mem_reverse.mp he)
      simpa using this
    rw [this, Option.none_or]

/-- Witness of C19: with a generated keyword `count` and the curated table, `count`
resolves the curated aggregate with its signature and documentation; a generated keyword
that the curated table does not have resolves itself. -/
theorem buildRegistry_Lookup_last_witness :
    (Builtins [⟨bytes "count", KindKeyword, [], [], [], []⟩,
        ⟨bytes "from", KindKeyword, [], [], [], []⟩]).Lookup (bytes "Count") =
      some ⟨bytes "count", KindAggregate, bytes "Count records",
        bytes "Count the number of records in a group", bytes "count() -> int64", []⟩ ∧
    (Builtins [⟨bytes "count", KindKeyword, [], [], [], []⟩,
        ⟨bytes "from", KindKeyword, [], [], [], []⟩]).Lookup (bytes "FROM") =
      some ⟨bytes "from", KindKeyword, [], [], [], []⟩ :=
  ⟨((buildRegistry_Lookup_last _ allBuiltins (bytes "Count")).1).trans (by decide),
   ((buildRegistry_Lookup_last _ allBuiltins (bytes "FROM")).1).trans (by decide)⟩

/-- Counterexample to C20: with a generated keyword `count` and a curated aggregate `count`,
the keyword stays in the by-kind sequence of the keywords although `Lookup` returns the
aggregate for its name, and completion offers both. -/
theorem byKind_keeps_overridden_counterexample :
    (buildRegistry [⟨bytes "count", KindKeyword, [], [], [], []⟩]
        [⟨bytes "count", KindAggregate, bytes "Count records", [], bytes "count() -> int64",
          []⟩]).ByKind KindKeyword = [⟨bytes "count", KindKeyword, [], [], [], []⟩] ∧
    (buildRegistry [⟨bytes "count", KindKeyword, [], [], [], []⟩]
        [⟨bytes "count", KindAggregate, bytes "Count records", [], bytes "count() -> int64",
          []⟩]).Lookup (bytes "count") =
      some ⟨bytes "count", KindAggregate, bytes "Count records", [], bytes "count() -> int64",
        []⟩ ∧
    (getCompletions (buildRegistry [⟨bytes "count", KindKeyword, [], [], [], []⟩]
        [⟨bytes "count", KindAggregate, bytes "Count records", [], bytes "count() -> int64",
          []⟩]) (bytes "cou") ⟨0, 3⟩).map (fun i => (i.Label, i.Detail)) =
      [(bytes "count", []), (bytes "count", bytes "aggregate: Count records")] := by
  decide

/-- C20, amended: in the built registry a name present in both the generated and the
curated set resolves to the curated entry in the by-name index only.  The by-kind sequences
list every entry of both lists under its kind, an overridden generated entry included, so an
element listed by `ByKind` is the element `Lookup` returns for its name exactly when it is
the last entry of generated-followed-by-curated with that lowercased name. -/
theorem byKind_lists_every_entry (g c : List Builtin) (k : BuiltinKind) (b : Builtin) :
    (b ∈ (buildRegistry g c).ByKind k ↔ (b ∈ g ∨ b ∈ c) ∧ b.Kind = k) ∧
    ((buildRegistry g c).Lookup b.Name = some b ↔ lastNamed (g ++ c) b.Name = some b) := by
  refine ⟨?_, ?_⟩
  · unfold Registry.ByKind
    rw [buildRegistry_byKind, List.mem_filter, List.mem_append]
    simp
  · rw [buildRegistry_Lookup]

/-! ### C21: elements by kind -/

/-- C21: for a registry built from any generated list `g` and curated list `c`, `ByKind(k)`
is the subsequence of `g` followed by `c` made of the entries whose `Kind` is `k`, in that
order, the generated entries before the curated ones; every element of it has `Kind` `k`. -/
theorem ByKind_eq_filter (g c : List Builtin) (k : BuiltinKind) :
    (buildRegistry g c).ByKind k =
      g.filter (fun b => decide (b.Kind = k)) ++ c.filter (fun b => decide (b.Kind = k)) ∧
    (buildRegistry g c).ByKind k = (g ++ c).filter (fun b => decide (b.Kind = k)) ∧
    ((buildRegistry g c).ByKind k).Sublist (g ++ c) ∧
    ∀ b ∈ (buildRegistry g c).ByKind k, b.Kind = k := by
  have h : (buildRegistry g c).ByKind k = (g ++ c).filter (fun b => decide (b.Kind = k)) :=
    buildRegistry_byKind g c k
  refine ⟨by rw [h, List.filter_append], h, ?_, ?_⟩
  · rw [h]; exact List.filter_sublist _
  · intro b hb
    rw [h, List.mem_filter] at hb
    simpa using hb.2

/-- Witness of C21: two generated and two curated entries, sorted by kind in insertion
order. -/
theorem ByKind_eq_filter_witness :
    ((buildRegistry
        [⟨bytes "from", KindKeyword, [], [], [], []⟩, ⟨bytes "int64", KindType, [], [], [], []⟩,
         ⟨bytes "const", KindKeyword, [], [], [], []⟩]
        [⟨bytes "abs", KindFunction, [], [], [], []⟩,
         ⟨bytes "as", KindKeyword, [], [], [], []⟩]).ByKind KindKeyword).map
      (fun b => b.Name) = [bytes "from", bytes "const", bytes "as"] :=
  (congrArg (List.map (fun b => b.Name)) (ByKind_eq_filter _ _ KindKeyword).1).trans (by decide)

/-! ### C22: the curated table -/

set_option maxRecDepth 100000 in
theorem allBuiltins_all_consistent : allBuiltins.all entryConsistent = true := by
  decide

theorem spansFollow_spec (sig : GoString) : ∀ (ps : List ParamDef)
    (qs : List ParameterInformation) (start : Nat), spansFollow sig ps qs start = true →
    qs.length = ps.length ∧
    ∀ i, i < ps.length →
      (qs.getD i ParameterInformation.unset).Documentation.isSome = true ∧
      (qs.getD i ParameterInformation.unset).Label.1 =
        (if i = 0 then start else (qs.getD (i - 1) ParameterInformation.unset).Label.2 + 2) ∧
      (ps.getD i ⟨[], []⟩).Name <+: sig.drop (qs.getD i ParameterInformation.unset).Label.1 ∧
      (i + 1 < ps.length →
        slice sig (qs.getD i ParameterInformation.unset).Label.2
          ((qs.getD i ParameterInformation.unset).Label.2 + 2) = bytes ", ") := by
  intro ps
  induction ps with
  | nil =>
    intro qs start h
    cases qs with
    | nil => exact ⟨rfl, fun i hi => absurd hi (Nat.not_lt_zero i)⟩
    | cons q qs => simp [spansFollow] at h
  | cons p ps ih =>
    intro qs start h
    cases qs with
    | nil => simp [spansFollow] at h
    | cons q qs =>
      rw [spansFollow] at h
      simp only [Bool.and_eq_true, Bool.or_eq_true, beq_iff_eq, List.isPrefixOf_iff_prefix,
        List.isEmpty_iff] at h
      obtain ⟨⟨⟨⟨hdoc, hstart⟩, hname⟩, hsep⟩, hrest⟩ := h
      obtain ⟨hlen, hi⟩ := ih qs (q.Label.2 + 2) hrest
      refine ⟨by simp [hlen], ?_⟩
      intro i hilt
      cases i with
      | zero =>
        refine ⟨hdoc, hstart, ?_, ?_⟩
        · rw [List.getD_cons_zero, List.getD_cons_zero, hstart]; exact hname
        · intro hlt
          rw [List.getD_cons_zero]
          rcases hsep with hnil | hsep
          · rw [hnil] at hlt; simp at hlt
          · exact hsep
      | succ i =>
        have hilt' : i < ps.length := by simpa using hilt
        obtain ⟨h1, h2, h3, h4⟩ := hi i hilt'
        rw [List.getD_cons_succ, List.getD_cons_succ]
        refine ⟨h1, ?_, h3, ?_⟩
        · rw [h2, if_neg (Nat.succ_ne_zero i), Nat.add_sub_cancel]
          cases i with
          | zero => simp
          | succ j => simp
        · intro hlt
          exact h4 (by simpa using hlt)

theorem buildSignatureHelp_of_labelSpans (b : Builtin) (a : Int)
    (params : List ParameterInformation)
    (h : labelSpans b.Signature b.Parameters (stringsIndex b.Signature [40] + 1).toNat =
      some params) :
    ∃ r, buildSignatureHelp b a = some r ∧ r.Signatures.map (fun s => s.Parameters) = [params] := by
  unfold buildSignatureHelp
  dsimp only
  rw [h]
  exact ⟨_, rfl, rfl⟩

theorem entryConsistent_spec (b : Builtin) (h : entryConsistent b = true) :
    (b.Name ++ [40]) <+: b.Signature ∧
    ∃ params : List ParameterInformation,
      (∀ a : Int, ∃ r, buildSignatureHelp b a = some r ∧
        r.Signatures.map (fun s => s.Parameters) = [params]) ∧
      params.length = b.Parameters.length ∧
      (∀ i, i < b.Parameters.length →
        (params.getD i ParameterInformation.unset).Documentation.isSome = true ∧
        (params.getD i ParameterInformation.unset).Label.1 =
          (if i = 0 then b.Name.length + 1
           else (params.getD (i - 1) ParameterInformation.unset).Label.2 + 2) ∧
        (b.Parameters.getD i ⟨[], []⟩).Name <+:
          b.Signature.drop (params.getD i ParameterInformation.unset).Label.1 ∧
        (i + 1 < b.Parameters.length →
          slice b.Signature (params.getD i ParameterInformation.unset).Label.2
            ((params.getD i ParameterInformation.unset).Label.2 + 2) = bytes ", ")) ∧
      List.Pairwise
        (fun x y => ∀ s e s' e' : Nat, x = some (s, e) → y = some (s', e') → e < s')
        (spansOf params) := by
  unfold entryConsistent at h
  rw [Bool.and_eq_true, List.isPrefixOf_iff_prefix] at h
  obtain ⟨hpre, hrun⟩ := h
  refine ⟨hpre, ?_⟩
  cases hb : buildSignatureHelp b 0 with
  | none => rw [hb] at hrun; simp at hrun
  | some r =>
    obtain ⟨params, hspans, hr⟩ := buildSignatureHelp_eq_some b 0 r hb
    rw [hb] at hrun
    rw [hr] at hrun
    dsimp only at hrun
    obtain ⟨hlen, hi⟩ := spansFollow_spec _ _ _ _ hrun
    exact ⟨params, fun a => buildSignatureHelp_of_labelSpans b a params hspans, hlen, hi,
      labelSpans_increasing _ _ _ _ hspans⟩

/-- C22: every entry of the curated table `allBuiltins` keeps `Parameters` consistent with
`Signature`.  The signature begins with the name followed by `(`; `buildSignatureHelp`
returns on the entry for every active index, with one span per parameter, each located; the
first span starts just after that `(`, every later span starts two bytes after the end of
the span before it, those two bytes being `, `; the parameter's name stands at the start of
its span; and each span ends before the next starts, so the spans run left to right in the
order of `Parameters`. -/
theorem allBuiltins_consistent (b : Builtin) (hb : b ∈ allBuiltins) :
    (b.Name ++ [40]) <+: b.Signature ∧
    ∃ params : List ParameterInformation,
      (∀ a : Int, ∃ r, buildSignatureHelp b a = some r ∧
        r.Signatures.map (fun s => s.Parameters) = [params]) ∧
      params.length = b.Parameters.length ∧
      (∀ i, i < b.Parameters.length →
        (params.getD i ParameterInformation.unset).Documentation.isSome = true ∧
        (params.getD i ParameterInformation.unset).Label.1 =
          (if i = 0 then b.Name.length + 1
           else (params.getD (i - 1) ParameterInformation.unset).Label.2 + 2) ∧
        (b.Parameters.getD i ⟨[], []⟩).Name <+:
          b.Signature.drop (params.getD i ParameterInformation.unset).Label.1 ∧
        (i + 1 < b.Parameters.length →
          slice b.Signature (params.getD i ParameterInformation.unset).Label.2
            ((params.getD i ParameterInformation.unset).Label.2 + 2) = bytes ", ")) ∧
      List.Pairwise
        (fun x y => ∀ s e s' e' : Nat, x = some (s, e) → y = some (s', e') → e < s')
        (spansOf params) :=
  entryConsistent_spec b (List.all_eq_true.mp allBuiltins_all_consistent b hb)

/-- Witness of C22: the entry `bucket`, whose two spans are bytes 7 to 19 (`value: number`)
and 22 to 33 (`size: number`) of its signature. -/
theorem allBuiltins_consistent_witness :
    (⟨bytes "bucket", KindFunction, bytes "Bucket values into ranges",
        bytes "Bucket numeric values into fixed-size ranges",
        bytes "bucket(value: number, size: number) -> number",
        [⟨bytes "value", bytes "Value to bucket"⟩, ⟨bytes "size", bytes "Bucket size"⟩]⟩ :
      Builtin) ∈ allBuiltins ∧
    (buildSignatureHelp
        ⟨bytes "bucket", KindFunction, bytes "Bucket values into ranges",
          bytes "Bucket numeric values into fixed-size ranges",
          bytes "bucket(value: number, size: number) -> number",
          [⟨bytes "value", bytes "Value to bucket"⟩, ⟨bytes "size", bytes "Bucket size"⟩]⟩
        1).map (fun r => r.Signatures.map (fun s => s.Parameters.map (fun q => q.Label))) =
      some [[(7, 20), (22, 34)]] ∧
    (bytes "bucket" ++ [40]) <+: bytes "bucket(value: number, size: number) -> number" :=
  ⟨by decide, by decide,
    (allBuiltins_consistent
      ⟨bytes "bucket", KindFunction, bytes "Bucket values into ranges",
        bytes "Bucket numeric values into fixed-size ranges",
        bytes "bucket(value: number, size: number) -> number",
        [⟨bytes "value", bytes "Value to bucket"⟩, ⟨bytes "size", bytes "Bucket size"⟩]⟩
      (by decide)).1⟩

/-! ### C23: a line out of range -/

theorem getCompletions_of_line_ge (r : Registry) (text : GoString) (pos : Position)
    (h : pos.Line ≥ (splitLines text).length) : getCompletions r text pos = [] := by
  unfold getCompletions
  dsimp only
  rw [if_pos h]

theorem findFunctionContext_of_line_ge (text : GoString) (pos : Position)
    (h : pos.Line ≥ (splitLines text).length) : findFunctionContext text pos = ([], 0) := by
  unfold findFunctionContext
  rw [if_pos h]

theorem getWordAtPosition_of_line_ge (text : GoString) (pos : Position)
    (h : pos.Line ≥ (splitLines text).length) : getWordAtPosition text pos = [] := by
  unfold getWordAtPosition
  dsimp only
  rw [if_pos h]

/-- C23: for every text and every position whose line is at least the number of lines of
the text, `getCompletions` returns the empty sequence and `getSignatureHelp` and `getHover`
return absent. -/
theorem out_of_range_line (r : Registry) (text : GoString) (pos : Position)
    (h : pos.Line ≥ (splitLines text).length) :
    getCompletions r text pos = [] ∧ getSignatureHelp r text pos = some none ∧
      getHover r text pos = none := by
  refine ⟨getCompletions_of_line_ge r text pos h, ?_, ?_⟩
  · exact getSignatureHelp_of_name_nil r text pos
      (by rw [findFunctionContext_of_line_ge text pos h])
  · rw [getHover_eq, getWordAtPosition_of_line_ge text pos h, if_pos rfl]

/-- Witness of C23: completion at {5,0} on a document of three lines is empty, and so are
signature help and hover there. -/
theorem out_of_range_line_witness :
    (splitLines (bytes "from x\nabs(\ncount")).length = 3 ∧
    getCompletions (Builtins []) (bytes "from x\nabs(\ncount") ⟨5, 0⟩ = [] ∧
    getSignatureHelp (Builtins []) (bytes "from x\nabs(\ncount") ⟨5, 0⟩ = some none ∧
    getHover (Builtins []) (bytes "from x\nabs(\ncount") ⟨5, 0⟩ = none :=
  ⟨by decide, out_of_range_line (Builtins []) (bytes "from x\nabs(\ncount") ⟨5, 0⟩ (by decide)⟩

/-! ### C24, C25 and C26: a character out of range, and an unterminated signature -/

theorem getCompletionContext_clamp (line : GoString) (col : Nat) (h : line.length < col) :
    getCompletionContext line col = getCompletionContext line line.length := by
  rw [getCompletionContext_eq, getCompletionContext_eq]
  congr 3
  omega

theorem writeToCursor_clamp (L C : Nat) : ∀ (lines : List GoString) (i : Nat), i ≤ L →
    writeToCursor ⟨L, C⟩ i lines =
      writeToCursor ⟨L, min C (lines.getD (L - i) []).length⟩ i lines := by
  intro lines
  induction lines with
  | nil => intro i _; simp [writeToCursor]
  | cons l rest ih =>
    intro i hi
    rw [writeToCursor, writeToCursor]
    dsimp only
    rw [if_pos hi, if_pos hi]
    by_cases hL : i = L
    · subst hL
      rw [if_pos rfl, if_pos rfl, Nat.sub_self, List.getD_cons_zero]
      by_cases hC : C ≤ l.length
      · rw [if_pos hC, if_pos (Nat.min_le_right _ _), Nat.min_eq_left hC]
      · rw [if_neg hC, if_pos (Nat.min_le_right _ _), Nat.min_eq_right (by omega),
          List.take_length]
    · rw [if_neg hL, if_neg hL]
      have hstep : L - i = (L - (i + 1)) + 1 := by omega
      rw [ih (i + 1) (by omega), hstep, List.getD_cons_succ]

theorem textToCursor_clamp (text : GoString) (pos : Position) :
    textToCursor text pos =
      textToCursor text
        ⟨pos.Line, min pos.Character ((splitLines text).getD pos.Line []).length⟩ := by
  unfold textToCursor
  exact writeToCursor_clamp pos.Line pos.Character (splitLines text) 0 (Nat.zero_le _)

theorem findFunctionContext_congr (t1 t2 : GoString) (p1 p2 : Position)
    (h1 : p1.Line < (splitLines t1).length) (h2 : p2.Line < (splitLines t2).length)
    (h : textToCursor t1 p1 = textToCursor t2 p2) :
    findFunctionContext t1 p1 = findFunctionContext t2 p2 := by
  rw [findFunctionContext_eq t1 p1 h1, findFunctionContext_eq t2 p2 h2, h]

theorem getSignatureHelp_congr (r : Registry) (t1 t2 : GoString) (p1 p2 : Position)
    (h : findFunctionContext t1 p1 = findFunctionContext t2 p2) :
    getSignatureHelp r t1 p1 = getSignatureHelp r t2 p2 := by
  unfold getSignatureHelp
  rw [h]

/-- Counterexample to C24: in the one-line document `co` the position {0,10} is past
the end of the line, and completion returns the whole curated table, 68 items, `abs`
first. -/
theorem getCompletions_past_line_end_counterexample :
    (splitLines (bytes "co")).length = 1 ∧
    ((splitLines (bytes "co")).getD 0 []).length = 2 ∧
    (getCompletions (Builtins []) (bytes "co") ⟨0, 10⟩).length = 68 ∧
    ((getCompletions (Builtins []) (bytes "co") ⟨0, 10⟩).map (fun i => i.Label)).head? =
      some (bytes "abs") := by
  decide

/-- C24, amended: for every text and every position whose line is in range but whose
character is greater than the length of that line, `getCompletions` takes the prefix to be
empty and classifies the context on the whole line, and returns every element of the kinds
that context offers, in registry order: the result is empty only when the registry has no
element of these kinds. -/
theorem getCompletions_past_line_end (r : Registry) (text : GoString) (pos : Position)
    (hline : pos.Line < (splitLines text).length)
    (hchar : ((splitLines text).getD pos.Line []).length < pos.Character) :
    getCompletions r text pos =
      (match getCompletionContext ((splitLines text).getD pos.Line [])
          ((splitLines text).getD pos.Line []).length with
       | contextType => (r.ByKind KindType).map (itemFor KindType)
       | contextFunction =>
         (r.ByKind KindFunction).map (itemFor KindFunction) ++
           (r.ByKind KindAggregate).map (itemFor KindAggregate)
       | contextGeneral =>
         (r.ByKind KindKeyword).map (itemFor KindKeyword) ++
           (r.ByKind KindOperator).map (itemFor KindOperator) ++
           (r.ByKind KindFunction).map (itemFor KindFunction) ++
           (r.ByKind KindAggregate).map (itemFor KindAggregate) ++
           (r.ByKind KindType).map (itemFor KindType)) := by
  rw [getCompletions_eq r text pos hline, completionPrefix_of_gt _ _ hchar,
    getCompletionContext_clamp _ _ hchar]
  simp only [matching_nil]

/-- Witness of C24 as amended: past the end of the line `f(` the context is the function
context and the two functions and aggregates of a small registry are returned, the keyword
is not. -/
theorem getCompletions_past_line_end_witness :
    (getCompletions (buildRegistry [⟨bytes "from", KindKeyword, [], [], [], []⟩]
        [⟨bytes "abs", KindFunction, [], [], [], []⟩,
         ⟨bytes "count", KindAggregate, [], [], [], []⟩]) (bytes "f(") ⟨0, 7⟩).map
      (fun i => i.Label) = [bytes "abs", bytes "count"] :=
  (congrArg (List.map (fun i => i.Label))
    (getCompletions_past_line_end _ (bytes "f(") ⟨0, 7⟩ (by decide) (by decide))).trans
    (by decide)

/-- Counterexample to C25: for the text `abs(` and the position {0,10}, past the end of
the line, signature help is present: the signature of `abs` with active parameter 0. -/
theorem getSignatureHelp_past_line_end_counterexample :
    (splitLines (bytes "abs(")).length = 1 ∧
    ((splitLines (bytes "abs(")).getD 0 []).length = 4 ∧
    (getSignatureHelp (Builtins []) (bytes "abs(") ⟨0, 10⟩).map
      (fun r => r.map (fun h => (h.Signatures.map (fun s => s.Label), h.ActiveParameter))) =
      some (some ([bytes "abs(value: number) -> number"], 0)) := by
  decide

/-- C25, amended: for every text and every position whose line is in range but whose
character is greater than the length of that line, `findFunctionContext` takes the whole
cursor line as the end of the text up to the cursor, and `getSignatureHelp` returns what it
returns for the cursor at the end of that line. -/
theorem getSignatureHelp_past_line_end (r : Registry) (text : GoString) (pos : Position)
    (hline : pos.Line < (splitLines text).length)
    (hchar : ((splitLines text).getD pos.Line []).length < pos.Character) :
    textToCursor text pos =
      textToCursor text ⟨pos.Line, ((splitLines text).getD pos.Line []).length⟩ ∧
    findFunctionContext text pos =
      findFunctionContext text ⟨pos.Line, ((splitLines text).getD pos.Line []).length⟩ ∧
    getSignatureHelp r text pos =
      getSignatureHelp r text ⟨pos.Line, ((splitLines text).getD pos.Line []).length⟩ := by
  have h1 : textToCursor text pos =
      textToCursor text ⟨pos.Line, ((splitLines text).getD pos.Line []).length⟩ := by
    rw [textToCursor_clamp text pos, Nat.min_eq_right (by omega)]
  have h2 := findFunctionContext_congr text text pos
    ⟨pos.Line, ((splitLines text).getD pos.Line []).length⟩ hline hline h1
  exact ⟨h1, h2, getSignatureHelp_congr r _ _ _ _ h2⟩

/-- Witness of C25 as amended: signature help for `abs(` at {0,10} is the one at {0,4}. -/
theorem getSignatureHelp_past_line_end_witness :
    getSignatureHelp (Builtins []) (bytes "abs(") ⟨0, 10⟩ =
      getSignatureHelp (Builtins []) (bytes "abs(") ⟨0, 4⟩ :=
  (getSignatureHelp_past_line_end (Builtins []) (bytes "abs(") ⟨0, 10⟩ (by decide)
    (by decide)).2.2

/-- C26, at its failing input: for the signature `h(p` with the parameters `p` and `q`,
`buildSignatureHelp` fails for every active index: `p` is located at index 2 and no `,` or `)`
follows it, so its span ends at the length 3 of the signature, the search offset becomes 4, and
the slice of the signature from 4 taken for `q` is out of range. -/
theorem buildSignatureHelp_fails (activeParam : Int) :
    buildSignatureHelp
      ⟨bytes "h", KindFunction, [], [], bytes "h(p", [⟨bytes "p", []⟩, ⟨bytes "q", []⟩]⟩
      activeParam = none := by
  have h : labelSpans (bytes "h(p") [⟨bytes "p", []⟩, ⟨bytes "q", []⟩]
      (stringsIndex (bytes "h(p") [40] + 1).toNat = none := by decide
  unfold buildSignatureHelp
  dsimp only
  rw [h]

/-! ### C27: no access is out of range -/

theorem indexChecked_eq {α : Type} (s : List α) (i : Nat) (d : α) (h : i < s.length) :
    indexChecked s i = some (s.getD i d) := by
  unfold indexChecked
  rw [List.getD_eq_getElem?_getD, List.get?_eq_getElem?, List.getElem?_eq_getElem h]
  rfl

theorem sliceChecked_eq (s : GoString) (a b : Nat) (h1 : a ≤ b) (h2 : b ≤ s.length) :
    sliceChecked s a b = some (slice s a b) := by
  unfold sliceChecked
  rw [if_pos ⟨h1, h2⟩]

theorem getCompletionContextChecked_eq (line : GoString) (col : Nat) :
    getCompletionContextChecked line col = some (getCompletionContext line col) := by
  unfold getCompletionContextChecked getCompletionContext
  have hc : (if col > line.length then line.length else col) ≤ line.length := by
    split_ifs <;> omega
  dsimp only
  rw [sliceChecked_eq line 0 _ (Nat.zero_le _) hc]
  simp only [Option.bind_eq_bind, Option.some_bind, Option.pure_def, slice, List.drop_zero]
  split_ifs <;> rfl

theorem wordStartChecked_eq (line : GoString) : ∀ c, c ≤ line.length →
    wordStartChecked line c = some (wordStart line c) := by
  intro c
  induction c with
  | zero => intro _; rfl
  | succ c ih =>
    intro h
    rw [wordStartChecked, wordStart, indexChecked_eq line c 0 (by omega)]
    simp only [Option.bind_eq_bind, Option.some_bind, Option.pure_def]
    split_ifs
    · exact ih (by omega)
    · rfl

theorem wordEndChecked_eq (line : GoString) : ∀ n stop, stop + n = line.length →
    wordEndChecked line n stop = some (wordEnd line stop) := by
  intro n
  induction n with
  | zero =>
    intro stop h
    rw [wordEndChecked, wordEnd, List.drop_of_length_le (by omega)]
    rfl
  | succ n ih =>
    intro stop h
    rw [wordEndChecked, wordEnd, indexChecked_eq line stop 0 (by omega),
      drop_eq_getD_cons line stop (by omega), wordEndLoop]
    simp only [Option.bind_eq_bind, Option.some_bind, Option.pure_def]
    split_ifs
    · rw [ih (stop + 1) (by omega), wordEnd]
    · rfl

theorem getCompletionsChecked_eq (r : Registry) (text : GoString) (pos : Position) :
    getCompletionsChecked r text pos = some (getCompletions r text pos) := by
  unfold getCompletionsChecked getCompletions
  dsimp only
  by_cases hl : pos.Line ≥ (splitLines text).length
  · simp only [if_pos hl]
    rfl
  · simp only [if_neg hl]
    rw [indexChecked_eq (splitLines text) pos.Line [] (by omega)]
    simp only [Option.bind_eq_bind, Option.some_bind, Option.pure_def,
      getCompletionContextChecked_eq]
    unfold completionPrefix
    by_cases hc : pos.Character ≤ ((splitLines text).getD pos.Line []).length
    · simp only [if_pos hc]
      rw [wordStartChecked_eq _ _ hc]
      simp only [Option.some_bind]
      by_cases hs : wordStart ((splitLines text).getD pos.Line []) pos.Character < pos.Character
      · simp only [if_pos hs]
        rw [sliceChecked_eq _ _ _ (Nat.le_of_lt hs) hc]
        simp only [Option.some_bind]
        cases getCompletionContext ((splitLines text).getD pos.Line []) pos.Character <;> rfl
      · simp only [if_neg hs]
        cases getCompletionContext ((splitLines text).getD pos.Line []) pos.Character <;> rfl
    · simp only [if_neg hc]
      cases getCompletionContext ((splitLines text).getD pos.Line []) pos.Character <;> rfl

theorem getWordAtPositionChecked_eq (text : GoString) (pos : Position) :
    getWordAtPositionChecked text pos = some (getWordAtPosition text pos) := by
  unfold getWordAtPositionChecked getWordAtPosition
  dsimp only
  by_cases hl : pos.Line ≥ (splitLines text).length
  · simp only [if_pos hl]
    rfl
  · simp only [if_neg hl]
    rw [indexChecked_eq (splitLines text) pos.Line [] (by omega)]
    simp only [Option.bind_eq_bind, Option.some_bind, Option.pure_def]
    by_cases hc : pos.Character > ((splitLines text).getD pos.Line []).length
    · simp only [if_pos hc]
    · have hc' : pos.Character ≤ ((splitLines text).getD pos.Line []).length := by omega
      simp only [if_neg hc]
      rw [wordStartChecked_eq _ _ hc', wordEndChecked_eq _ _ _ (by omega)]
      simp only [Option.some_bind]
      by_cases he : wordStart ((splitLines text).getD pos.Line []) pos.Character =
          wordEnd ((splitLines text).getD pos.Line []) pos.Character
      · simp only [if_pos he]
      · simp only [if_neg he]
        have h1 := wordStart_le ((splitLines text).getD pos.Line []) pos.Character
        have h2 := wordEnd_ge ((splitLines text).getD pos.Line []) pos.Character
        have h3 := wordEnd_le ((splitLines text).getD pos.Line []) pos.Character hc'
        exact sliceChecked_eq _ _ _ (by omega) h3

theorem drop_eq_getD_cons_lines (lines : List GoString) (i : Nat) (hi : i < lines.length) :
    lines.drop i = lines.getD i [] :: lines.drop (i + 1) := by
  rw [List.getD_eq_getElem?_getD, List.getElem?_eq_getElem hi]
  simp

theorem writeToCursorChecked_eq (lines : List GoString) (pos : Position) :
    ∀ n i, i + n = lines.length →
      writeToCursorChecked lines pos n i = some (writeToCursor pos i (lines.drop i)) := by
  intro n
  induction n with
  | zero =>
    intro i h
    rw [writeToCursorChecked, List.drop_of_length_le (by omega), writeToCursor]
  | succ n ih =>
    intro i h
    rw [writeToCursorChecked, drop_eq_getD_cons_lines lines i (by omega), writeToCursor,
      indexChecked_eq lines i [] (by omega)]
    simp only [Option.bind_eq_bind, Option.some_bind, Option.pure_def]
    split_ifs with h1 h2 h3
    · rw [sliceChecked_eq _ _ _ (Nat.zero_le _) h3]
      rfl
    · rfl
    · rw [ih (i + 1) (by omega)]
      rfl
    · rfl

theorem scanBackChecked_eq (content : GoString) : ∀ i d, i ≤ content.length →
    scanBackChecked content i d = some (scanBack content i d) := by
  intro i
  induction i with
  | zero => intro d _; rfl
  | succ i ih =>
    intro d h
    rw [scanBackChecked, scanBack, indexChecked_eq content i 0 (by omega)]
    simp only [Option.bind_eq_bind, Option.some_bind, Option.pure_def]
    split_ifs
    · exact ih _ (by omega)
    · rfl
    · exact ih _ (by omega)
    · exact ih _ (by omega)

theorem scanBack_lt (content : GoString) : ∀ i d k, scanBack content i d = some k → k < i := by
  intro i
  induction i with
  | zero => intro d k h; simp [scanBack] at h
  | succ i ih =>
    intro d k h
    rw [scanBack] at h
    split_ifs at h
    · have := ih _ _ h; omega
    · simp only [Option.some.injEq] at h; omega
    · have := ih _ _ h; omega
    · have := ih _ _ h; omega

theorem scanNameStartChecked_eq (content : GoString) : ∀ i, i ≤ content.length →
    scanNameStartChecked content i = some (scanNameStart content i) := by
  intro i
  induction i with
  | zero => intro _; rfl
  | succ i ih =>
    intro h
    rw [scanNameStartChecked, scanNameStart, indexChecked_eq content i 0 (by omega)]
    simp only [Option.bind_eq_bind, Option.some_bind, Option.pure_def]
    split_ifs
    · exact ih (by omega)
    · rfl

theorem countCommasChecked_eq (content : GoString) : ∀ n i d p, i + n = content.length →
    countCommasChecked content n i d p = some (countCommas (content.drop i) d p) := by
  intro n
  induction n with
  | zero =>
    intro i d p h
    rw [countCommasChecked, List.drop_of_length_le (by omega), countCommas]
  | succ n ih =>
    intro i d p h
    rw [countCommasChecked, drop_eq_getD_cons content i (by omega), countCommas,
      indexChecked_eq content i 0 (by omega)]
    simp only [Option.bind_eq_bind, Option.some_bind, Option.pure_def]
    split_ifs <;> exact ih _ _ _ (by omega)

theorem findFunctionContextChecked_eq (text : GoString) (pos : Position) :
    findFunctionContextChecked text pos = some (findFunctionContext text pos) := by
  unfold findFunctionContextChecked findFunctionContext
  dsimp only
  split_ifs with hl
  · rfl
  · rw [writeToCursorChecked_eq (splitLines text) pos (splitLines text).length 0 (by omega),
      List.drop_zero]
    simp only [Option.bind_eq_bind, Option.some_bind, Option.pure_def]
    rw [scanBackChecked_eq _ _ _ (Nat.le_refl _)]
    simp only [Option.some_bind]
    unfold textToCursor findOpenParen
    cases hf : scanBack (writeToCursor pos 0 (splitLines text))
        (writeToCursor pos 0 (splitLines text)).length 0 with
    | none => rfl
    | some funcEnd =>
      have hlt := scanBack_lt _ _ _ _ hf
      dsimp only
      rw [scanNameStartChecked_eq _ _ (Nat.le_of_lt hlt)]
      simp only [Option.some_bind]
      split_ifs with hs
      · rfl
      · rw [sliceChecked_eq _ _ _ (by omega) (Nat.le_of_lt hlt),
          countCommasChecked_eq _ _ _ _ _ (by omega)]
        rfl

theorem wordStartChecked_past_end : wordStartChecked (bytes "ab") 5 = none := by
  decide

/-- C27: for every text and every position, `getCompletions`, `getCompletionContext`,
`getWordAtPosition` and `findFunctionContext` run to their result when every index
expression `s[i]` is checked for `i < len(s)` and every slice expression `s[a:b]` for
`a ≤ b ≤ len(s)`: no access is out of range, and the checked run returns the value of
the function. -/
theorem no_out_of_range_access (r : Registry) (text line : GoString) (pos : Position)
    (col : Nat) :
    getCompletionsChecked r text pos = some (getCompletions r text pos) ∧
    getCompletionContextChecked line col = some (getCompletionContext line col) ∧
    getWordAtPositionChecked text pos = some (getWordAtPosition text pos) ∧
    findFunctionContextChecked text pos = some (findFunctionContext text pos) :=
  ⟨getCompletionsChecked_eq r text pos, getCompletionContextChecked_eq line col,
    getWordAtPositionChecked_eq text pos, findFunctionContextChecked_eq text pos⟩

/-! ### C28 and C29: the text up to the cursor and the forward scan -/

theorem textToCursor_zero_zero (text : GoString) : textToCursor text ⟨0, 0⟩ = [] := by
  unfold textToCursor
  cases h : splitLines text with
  | nil => simp [writeToCursor]
  | cons l ls => simp [writeToCursor]

theorem textToCursor_eq_take (text : GoString) : ∀ (pos : Position),
    pos.Line < (splitLines text).length →
    textToCursor text pos = text.take (cursorOffset (splitLines text) pos) := by
  induction text with
  | nil =>
    intro pos h
    simp only [splitLines, List.length_singleton, Nat.lt_one_iff] at h
    obtain ⟨L, C⟩ := pos
    simp only at h
    subst h
    simp [textToCursor, splitLines, writeToCursor]
  | cons c cs ih =>
    intro pos h
    obtain ⟨L, C⟩ := pos
    by_cases hc : c = 10
    · subst hc
      rw [splitLines_cons_newline] at h ⊢
      cases L with
      | zero =>
        simp [textToCursor, splitLines_cons_newline, writeToCursor, cursorOffset]
      | succ L =>
        rw [textToCursor_cons_newline]
        simp only [List.length_cons, Nat.add_lt_add_iff_right] at h
        rw [ih ⟨L, C⟩ h]
        have : cursorOffset ([] :: splitLines cs) ⟨L + 1, C⟩ =
            cursorOffset (splitLines cs) ⟨L, C⟩ + 1 := by
          simp [cursorOffset]
          omega
        rw [this, List.take_succ_cons]
    · obtain ⟨l, ls, e1, e2⟩ := splitLines_cons_other c cs hc
      rw [e2] at h ⊢
      have hlen : (splitLines cs).length = ((c :: l) :: ls).length := by rw [e1]; rfl
      cases L with
      | zero =>
        cases C with
        | zero =>
          rw [textToCursor_zero_zero]
          simp [cursorOffset]
        | succ C =>
          rw [textToCursor_cons_other_zero c cs hc, ih ⟨0, C⟩ (by rw [e1]; simp)]
          have : cursorOffset ((c :: l) :: ls) ⟨0, C + 1⟩ =
              cursorOffset (splitLines cs) ⟨0, C⟩ + 1 := by
            rw [e1]
            simp only [cursorOffset, List.take_zero, List.map_nil, List.sum_nil,
              List.getD_cons_zero, List.length_cons, Nat.zero_add]
            omega
          rw [this, List.take_succ_cons]
      | succ L =>
        rw [textToCursor_cons_other_succ c cs hc, ih ⟨L + 1, C⟩ (by rw [hlen]; exact h)]
        have : cursorOffset ((c :: l) :: ls) ⟨L + 1, C⟩ =
            cursorOffset (splitLines cs) ⟨L + 1, C⟩ + 1 := by
          rw [e1]
          simp [cursorOffset]
          omega
        rw [this, List.take_succ_cons]

/-- C28: for every text and every position whose line is in range, the text up to the
cursor that `findFunctionContext` builds is the leading substring of the text whose length
is the sum over the earlier lines of their length plus one, plus the smaller of the cursor
character and the length of the cursor line; so it is a prefix of the text. -/
theorem textToCursor_leading_substring (text : GoString) (pos : Position)
    (hline : pos.Line < (splitLines text).length) :
    textToCursor text pos = text.take (cursorOffset (splitLines text) pos) ∧
    textToCursor text pos <+: text ∧
    (textToCursor text pos).length = cursorOffset (splitLines text) pos := by
  have h := textToCursor_eq_take text pos hline
  refine ⟨h, ?_, ?_⟩
  · rw [h]; exact List.take_prefix _ _
  · -- the offset does not exceed the length of the text
    have hle : cursorOffset (splitLines text) pos ≤ text.length := by
      have key : ∀ (t : GoString) (p : Position), p.Line < (splitLines t).length →
          cursorOffset (splitLines t) p ≤ t.length := by
        intro t
        induction t with
        | nil =>
          intro p hp
          simp only [splitLines, List.length_singleton, Nat.lt_one_iff] at hp
          simp [cursorOffset, splitLines, hp]
        | cons c cs ih =>
          intro p hp
          obtain ⟨L, C⟩ := p
          by_cases hc : c = 10
          · subst hc
            rw [splitLines_cons_newline] at hp ⊢
            cases L with
            | zero => simp [cursorOffset]
            | succ L =>
              simp only [List.length_cons, Nat.add_lt_add_iff_right] at hp
              have := ih ⟨L, C⟩ hp
              simp [cursorOffset] at this ⊢
              omega
          · obtain ⟨l, ls, e1, e2⟩ := splitLines_cons_other c cs hc
            rw [e2] at hp ⊢
            cases L with
            | zero =>
              have := ih ⟨0, C⟩ (by rw [e1]; simp)
              rw [e1] at this
              simp [cursorOffset] at this ⊢
              omega
            | succ L =>
              have := ih ⟨L + 1, C⟩ (by rw [e1]; exact hp)
              rw [e1] at this
              simp [cursorOffset] at this ⊢
              omega
      exact key text pos hline
    rw [h, List.length_take, Nat.min_eq_left hle]

/-- Witness of C28: in `ab\ncde\nf` the cursor {1,2} is at offset 3 + 2 and the text up to
it is `ab\ncd`; the cursor {1,9} is clamped to the end of the line `cde`. -/
theorem textToCursor_leading_substring_witness :
    textToCursor (bytes "ab\ncde\nf") ⟨1, 2⟩ = bytes "ab\ncd" ∧
    cursorOffset (splitLines (bytes "ab\ncde\nf")) ⟨1, 2⟩ = 5 ∧
    textToCursor (bytes "ab\ncde\nf") ⟨1, 9⟩ = bytes "ab\ncde" :=
  ⟨(textToCursor_leading_substring (bytes "ab\ncde\nf") ⟨1, 2⟩ (by decide)).1.trans (by decide),
   by decide,
   (textToCursor_leading_substring (bytes "ab\ncde\nf") ⟨1, 9⟩ (by decide)).1.trans (by decide)⟩

theorem parenBalance_drop_le (content : GoString) (k : Nat) (hk : IsEnclosing content k) :
    ∀ (n j : Nat), j + n = content.length → k < j → parenBalance (content.drop j) ≤ 0 := by
  intro n
  induction n with
  | zero =>
    intro j hj _
    rw [List.drop_eq_nil_of_le (by omega), parenBalance_nil]
  | succ n ih =>
    intro j hj hkj
    have hjl : j < content.length := by omega
    have hnext := ih (j + 1) (by omega) (by omega)
    rw [drop_eq_getD_cons content j hjl, parenBalance_cons]
    by_cases h40 : content.getD j 0 = 40
    · rw [if_pos h40, if_neg (by omega)]
      by_contra hcon
      have hz : parenBalance (content.drop (j + 1)) = 0 := by omega
      have hb := (balancedOpenAt_iff content j hjl).mpr ⟨h40, hz⟩
      rw [hk.2 j hjl hkj] at hb
      cases hb
    · rw [if_neg h40]
      split <;> omega

theorem parenBalance_append (a b : GoString) :
    parenBalance (a ++ b) = parenBalance a + parenBalance b := by
  unfold parenBalance
  simp only [List.count_append, Nat.cast_add]
  omega

theorem forwardDepths_eq : ∀ (l : GoString) (d : Int),
    forwardDepths l d = (List.range l.length).map (fun j => d + parenBalance (l.take (j + 1))) := by
  intro l
  induction l with
  | nil => intro d; rfl
  | cons c cs ih =>
    intro d
    rw [List.length_cons, List.range_succ_eq_map, List.map_cons, List.map_map]
    unfold forwardDepths
    have hcomp : ((fun j => d + parenBalance ((c :: cs).take (j + 1))) ∘ Nat.succ) =
        fun j => (d + parenBalance [c]) + parenBalance (cs.take (j + 1)) := by
      funext j
      show d + parenBalance ((c :: cs).take (j + 1 + 1)) = _
      rw [List.take_succ_cons, show c :: cs.take (j + 1) = [c] ++ cs.take (j + 1) from rfl,
        parenBalance_append]
      omega
    rw [hcomp]
    have h1 : parenBalance ((c :: cs).take (0 + 1)) = parenBalance [c] := by simp
    rw [h1]
    have hc : parenBalance [c] = (if c = 40 then 1 else 0) - (if c = 41 then 1 else 0) := by
      rw [parenBalance_cons, parenBalance_nil]; omega
    by_cases h40 : c = 40
    · subst h40
      rw [if_pos rfl, ih]
      have : parenBalance [40] = 1 := by decide
      rw [this]
    · rw [if_neg h40]
      by_cases h41 : c = 41
      · subst h41
        rw [if_pos rfl, ih]
        have : parenBalance [41] = -1 := by decide
        rw [this]
        rfl
      · rw [if_neg h41, ih]
        have : parenBalance [c] = 0 := by rw [hc, if_neg h40, if_neg h41]; rfl
        rw [this, Int.add_zero]

theorem countCommas_eq_depths : ∀ (l : GoString) (d idx : Int),
    countCommas l d idx = idx +
      (((l.zip (d :: forwardDepths l d)).filter
        (fun p => p.1 == 44 && decide (p.2 = 0))).length : Int) := by
  intro l
  induction l with
  | nil => intro d idx; simp [countCommas]
  | cons c cs ih =>
    intro d idx
    unfold countCommas forwardDepths
    by_cases h40 : c = 40
    · subst h40
      rw [if_pos rfl, if_pos rfl, ih]
      simp
    · rw [if_neg h40, if_neg h40]
      by_cases h41 : c = 41
      · subst h41
        rw [if_pos rfl, if_pos rfl, ih]
        simp
      · rw [if_neg h41, if_neg h41]
        by_cases h44 : c = 44
        · subst h44
          rw [if_pos rfl]
          by_cases hd : d = 0
          · subst hd
            rw [if_pos rfl, ih]
            simp
            omega
          · rw [if_neg hd, ih]
            simp [hd]
        · rw [if_neg h44, ih]
          simp [h44]

/-- C29: in `findFunctionContext`, whenever the backward scan finds the enclosing `(` at
index `k` of the text up to the cursor, every value the parenthesis-depth counter of the
forward scan takes after `k` is at least 0 and the last one is 0: the text between the
enclosing `(` and the cursor is balanced, and the index returned counts the commas read at
depth 0. -/
theorem forward_depth_nonneg (content : GoString) (k : Nat)
    (hk : findOpenParen content = some k) :
    (∀ d ∈ forwardDepths (content.drop (k + 1)) 0, 0 ≤ d) ∧
    (forwardDepths (content.drop (k + 1)) 0).getLastD 0 = 0 ∧
    parenBalance (content.drop (k + 1)) = 0 ∧
    countCommas (content.drop (k + 1)) 0 0 =
      ((((content.drop (k + 1)).zip (0 :: forwardDepths (content.drop (k + 1)) 0)).filter
        (fun p => p.1 == 44 && decide (p.2 = 0))).length : Int) := by
  have hE := (findOpenParen_eq_some_iff content k).mp hk
  have hkl := isEnclosing_lt content k hE
  have hbal : parenBalance (content.drop (k + 1)) = 0 :=
    ((balancedOpenAt_iff content k hkl).mp hE.1).2
  have hpre : ∀ j, j < (content.drop (k + 1)).length →
      0 ≤ parenBalance ((content.drop (k + 1)).take (j + 1)) := by
    intro j hj
    rw [List.length_drop] at hj
    have hsplit := List.take_append_drop (j + 1) (content.drop (k + 1))
    have hsum := parenBalance_append ((content.drop (k + 1)).take (j + 1))
      ((content.drop (k + 1)).drop (j + 1))
    rw [hsplit, hbal, List.drop_drop] at hsum
    have hle := parenBalance_drop_le content k hE (content.length - (k + 1 + (j + 1)))
      (k + 1 + (j + 1)) (by omega) (by omega)
    omega
  refine ⟨?_, ?_, hbal, ?_⟩
  · intro d hd
    rw [forwardDepths_eq, List.mem_map] at hd
    obtain ⟨j, hj, rfl⟩ := hd
    have := hpre j (List.mem_range.mp hj)
    omega
  · rw [forwardDepths_eq]
    cases hlen : (content.drop (k + 1)).length with
    | zero => simp
    | succ n =>
      rw [List.range_succ, List.map_append, List.map_singleton, List.getLastD_concat]
      have : (content.drop (k + 1)).take (n + 1) = content.drop (k + 1) := by
        rw [← hlen, List.take_length]
      rw [this, hbal]
      rfl
  · rw [countCommas_eq_depths]
    omega

/-- Witness of C29: after the open parenthesis of `f(g(a,b),h(c)` the depth counter takes
the values 0, 1, 1, 1, 1, 0, 0, 0, 1, 1, 0 and the index is 1. -/
theorem forward_depth_nonneg_witness :
    findOpenParen (bytes "f(g(a,b),h(c)") = some 1 ∧
    forwardDepths ((bytes "f(g(a,b),h(c)").drop 2) 0 = [0, 1, 1, 1, 1, 0, 0, 0, 1, 1, 0] ∧
    ∀ d ∈ forwardDepths ((bytes "f(g(a,b),h(c)").drop 2) 0, 0 ≤ d :=
  ⟨by decide, by decide, (forward_depth_nonneg (bytes "f(g(a,b),h(c)") 1 (by decide)).1⟩

/-! ### C30: dependence on the text before the cursor -/

/-- C30: signature help depends only on the text before the cursor: for two texts and a
position whose line is in range in both, equal texts up to the cursor give the same function
name and parameter index and the same signature help. -/
theorem getSignatureHelp_depends_on_text_to_cursor (r : Registry) (t1 t2 : GoString)
    (pos : Position)
    (h1 : pos.Line < (splitLines t1).length) (h2 : pos.Line < (splitLines t2).length)
    (h : textToCursor t1 pos = textToCursor t2 pos) :
    findFunctionContext t1 pos = findFunctionContext t2 pos ∧
    getSignatureHelp r t1 pos = getSignatureHelp r t2 pos := by
  have hf := findFunctionContext_congr t1 t2 pos pos h1 h2 h
  exact ⟨hf, getSignatureHelp_congr r _ _ _ _ hf⟩

/-- Witness of C30: `bucket(1, ` followed on its line and on a later line by different
text gives the same signature help, with active parameter 1. -/
theorem getSignatureHelp_depends_on_text_to_cursor_witness :
    getSignatureHelp (Builtins []) (bytes "x\nbucket(1, 2, 3)\n, , ,") ⟨1, 10⟩ =
      getSignatureHelp (Builtins []) (bytes "x\nbucket(1, ") ⟨1, 10⟩ ∧
    (getSignatureHelp (Builtins []) (bytes "x\nbucket(1, ") ⟨1, 10⟩).map
      (fun r => r.map (fun h => h.ActiveParameter)) = some (some 1) :=
  ⟨(getSignatureHelp_depends_on_text_to_cursor (Builtins [])
      (bytes "x\nbucket(1, 2, 3)\n, , ,") (bytes "x\nbucket(1, ") ⟨1, 10⟩ (by decide)
      (by decide) (by decide)).2,
   by decide⟩

/-! ### C31: completion is monotone in the prefix -/

theorem matchesPrefix_mono (p q name : GoString) (h : p <+: q)
    (hq : matchesPrefix q name = true) : matchesPrefix p name = true := by
  rw [matchesPrefix_iff] at hq ⊢
  rcases hq with hq | hq
  · left
    subst hq
    exact List.prefix_nil.mp h
  · right
    exact h.trans hq

theorem matching_filter_again (r : Registry) (kind : BuiltinKind) (p q : GoString) (h : p <+: q) :
    matching r kind q = (matching r kind p).filter (fun b => matchesPrefix q b.Name) := by
  unfold matching
  rw [List.filter_filter]
  apply List.filter_congr
  intro b _
  cases hq : matchesPrefix q b.Name with
  | false => rfl
  | true => rw [matchesPrefix_mono p q b.Name h hq]; rfl

theorem matching_sublist (r : Registry) (kind : BuiltinKind) (p q : GoString) (h : p <+: q) :
    (matching r kind q).Sublist (matching r kind p) := by
  rw [matching_filter_again r kind p q h]
  exact List.filter_sublist _

/-- C31: completion filtering is monotone in the prefix: when `p` is a leading substring of
`q`, the items that `getCompletionsByKind`, `getFunctionCompletions` and
`getAggregateCompletions` produce for `q` are a subsequence of the items they produce for
`p`, in the same order, and an element offered for `q` is offered for `p`. -/
theorem completions_monotone (r : Registry) (kind : BuiltinKind) (p q : GoString)
    (k : CompletionItemKind) (label : GoString) (h : p <+: q) :
    (getCompletionsByKind r kind q k label).Sublist (getCompletionsByKind r kind p k label) ∧
    (getFunctionCompletions r q).Sublist (getFunctionCompletions r p) ∧
    (getAggregateCompletions r q).Sublist (getAggregateCompletions r p) ∧
    matching r kind q = (matching r kind p).filter (fun b => matchesPrefix q b.Name) := by
  rw [getCompletionsByKind_eq, getCompletionsByKind_eq, getFunctionCompletions_eq,
    getFunctionCompletions_eq, getAggregateCompletions_eq, getAggregateCompletions_eq]
  exact ⟨(matching_sublist r kind p q h).map _, (matching_sublist r KindFunction p q h).map _,
    (matching_sublist r KindAggregate p q h).map _, matching_filter_again r kind p q h⟩

/-- Witness of C31: of the functions `count`, `ceil` and `collect`, all three are offered for
`c` and the first and the last for `co`. -/
theorem completions_monotone_witness :
    (getFunctionCompletions (buildRegistry []
        [⟨bytes "count", KindFunction, [], [], [], []⟩, ⟨bytes "ceil", KindFunction, [], [], [], []⟩,
         ⟨bytes "collect", KindFunction, [], [], [], []⟩]) (bytes "co")).Sublist
      (getFunctionCompletions (buildRegistry []
        [⟨bytes "count", KindFunction, [], [], [], []⟩, ⟨bytes "ceil", KindFunction, [], [], [], []⟩,
         ⟨bytes "collect", KindFunction, [], [], [], []⟩]) (bytes "c")) ∧
    (getFunctionCompletions (buildRegistry []
        [⟨bytes "count", KindFunction, [], [], [], []⟩, ⟨bytes "ceil", KindFunction, [], [], [], []⟩,
         ⟨bytes "collect", KindFunction, [], [], [], []⟩]) (bytes "co")).map (fun i => i.Label) =
      [bytes "count", bytes "collect"] ∧
    (getFunctionCompletions (buildRegistry []
        [⟨bytes "count", KindFunction, [], [], [], []⟩, ⟨bytes "ceil", KindFunction, [], [], [], []⟩,
         ⟨bytes "collect", KindFunction, [], [], [], []⟩]) (bytes "c")).map (fun i => i.Label) =
      [bytes "count", bytes "ceil", bytes "collect"] :=
  ⟨(completions_monotone _ KindFunction (bytes "c") (bytes "co") CompletionItemKind.Function []
      ⟨bytes "o", by decide⟩).2.1,
   by decide, by decide⟩

/-! ### C32: every curated entry is reachable by signature help -/

theorem splitLines_of_no_newline : ∀ s : GoString, 10 ∉ s → splitLines s = [s] := by
  intro s
  induction s with
  | nil => intro _; rfl
  | cons c cs ih =>
    intro h
    have hc : c ≠ 10 := fun e => h (by simp [e])
    have hcs : 10 ∉ cs := fun e => h (List.mem_cons_of_mem _ e)
    rw [splitLines, if_neg hc, ih hcs]

theorem scanNameStart_of_ident (n rest : GoString)
    (hid : ∀ c ∈ n, isIdentifierChar c = true) :
    ∀ k, k ≤ n.length → scanNameStart (n ++ rest) k = 0 := by
  intro k
  induction k with
  | zero => intro _; rfl
  | succ k ih =>
    intro hk
    have hk' : k < n.length := hk
    have hget : (n ++ rest).getD k 0 = n.get ⟨k, hk'⟩ := by
      rw [List.getD_eq_getElem?_getD, List.getElem?_append_left hk', List.getElem?_eq_getElem hk']
      rfl
    rw [scanNameStart, hget, if_pos (hid _ (List.get_mem n k hk'))]
    exact ih (Nat.le_of_lt hk')

theorem findFunctionContext_of_call (n : GoString) (hne : n ≠ [])
    (hid : ∀ c ∈ n, isIdentifierChar c = true) :
    findFunctionContext (n ++ [40]) ⟨0, n.length + 1⟩ = (n, 0) := by
  have h10 : 10 ∉ n ++ [40] := by
    intro h
    rcases List.mem_append.mp h with h | h
    · have := hid 10 h
      revert this; decide
    · simp at h
  have hlen : 0 < n.length := List.length_pos.mpr hne
  have hlines := splitLines_of_no_newline (n ++ [40]) h10
  have htext : textToCursor (n ++ [40]) ⟨0, n.length + 1⟩ = n ++ [40] := by
    unfold textToCursor
    rw [hlines, writeToCursor]
    simp
  have hopen : findOpenParen (n ++ [40]) = some n.length := by
    unfold findOpenParen
    rw [List.length_append, List.length_singleton, scanBack]
    have hget : (n ++ [40]).getD n.length 0 = 40 := by
      rw [List.getD_eq_getElem?_getD, List.getElem?_append_right (Nat.le_refl _)]
      simp
    simp [hget]
  unfold findFunctionContext
  rw [hlines, if_neg (by simp), htext]
  dsimp only
  rw [hopen]
  dsimp only
  rw [scanNameStart_of_ident n [40] hid n.length (Nat.le_refl _), if_neg (by omega)]
  have hs : slice (n ++ [40]) 0 n.length = n := by
    unfold slice
    rw [List.take_left', List.drop_zero]
    rfl
  have hd : (n ++ [40]).drop (n.length + 1) = [] := by
    apply List.drop_of_length_le
    simp
  rw [hs, hd]
  rfl

theorem find?_of_nodup_key {α β : Type} [BEq β] [LawfulBEq β] (key : α → β) :
    ∀ (l : List α) (b : α), (l.map key).Nodup → b ∈ l →
      l.find? (fun x => key x == key b) = some b := by
  intro l
  induction l with
  | nil => intro b _ hb; cases hb
  | cons a l ih =>
    intro b hnd hb
    rw [List.map_cons, List.nodup_cons] at hnd
    rcases List.mem_cons.mp hb with rfl | hb
    · simp
    · have hne : key a ≠ key b := by
        intro e
        exact hnd.1 (e ▸ List.mem_map_of_mem key hb)
      rw [List.find?_cons_of_neg _ (by simpa using hne)]
      exact ih b hnd.2 hb

theorem lastNamed_of_nodup (l : List Builtin) (b : Builtin)
    (hnd : (l.map (fun e => toLower e.Name)).Nodup) (hb : b ∈ l) :
    lastNamed l b.Name = some b := by
  unfold lastNamed
  apply find?_of_nodup_key (fun e : Builtin => toLower e.Name)
  · rw [List.map_reverse]
    exact List.nodup_reverse.mpr hnd
  · exact List.mem_reverse.mpr hb

set_option maxRecDepth 100000 in
theorem allBuiltins_names_nodup : (allBuiltins.map (fun e => toLower e.Name)).Nodup := by
  decide

set_option maxRecDepth 100000 in
theorem allBuiltins_all_callable :
    allBuiltins.all (fun b => decide (b.Name ≠ []) && b.Name.all isIdentifierChar &&
      decide (stringsToLower b.Name = b.Name) &&
      decide (b.Kind = KindFunction ∨ b.Kind = KindAggregate) &&
      decide (b.Signature ≠ [])) = true := by
  decide

theorem getSignatureHelp_of_call (g c : List Builtin) (b : Builtin)
    (hnd : (c.map (fun e => toLower e.Name)).Nodup) (hb : b ∈ c)
    (hne : b.Name ≠ []) (hid : ∀ ch ∈ b.Name, isIdentifierChar ch = true)
    (hkind : b.Kind = KindFunction ∨ b.Kind = KindAggregate) (hsig : b.Signature ≠ []) :
    getSignatureHelp (buildRegistry g c) (b.Name ++ [40]) ⟨0, b.Name.length + 1⟩ =
      (buildSignatureHelp b 0).map some := by
  have hlook : (buildRegistry g c).Lookup b.Name = some b := by
    rw [buildRegistry_Lookup, lastNamed_append, lastNamed_of_nodup c b hnd hb]
    rfl
  unfold getSignatureHelp
  rw [findFunctionContext_of_call b.Name hne hid]
  simp only [hne, if_false, hlook]
  rw [if_neg (by tauto), if_neg hsig]

/-- C32: the names of the curated table `allBuiltins` are pairwise distinct, also when
lowercased; each is a non-empty string of identifier characters without an upper-case
letter; so for every entry `b` of the table and any generated list, signature help on the
one-line text `b.Name` followed by `(`, with the cursor at its end, returns a result whose
one signature has the label `b.Signature` and whose active parameter is 0. -/
theorem curated_reachable (g : List Builtin) (b : Builtin) (hb : b ∈ allBuiltins) :
    (allBuiltins.map (fun e => e.Name)).Nodup ∧
    (allBuiltins.map (fun e => toLower e.Name)).Nodup ∧
    b.Name ≠ [] ∧ (∀ ch ∈ b.Name, isIdentifierChar ch = true) ∧
    stringsToLower b.Name = b.Name ∧
    ∃ h : SignatureHelp,
      getSignatureHelp (Builtins g) (b.Name ++ [40]) ⟨0, b.Name.length + 1⟩ = some (some h) ∧
      h.Signatures.map (fun s => s.Label) = [b.Signature] ∧ h.ActiveParameter = 0 := by
  have hall := List.all_eq_true.mp allBuiltins_all_callable b hb
  simp only [Bool.and_eq_true, decide_eq_true_eq, List.all_eq_true] at hall
  obtain ⟨⟨⟨⟨hne, hid⟩, hlow⟩, hkind⟩, hsig⟩ := hall
  have hnd := allBuiltins_names_nodup
  have hnd' : (allBuiltins.map (fun e => e.Name)).Nodup := by
    have h : ((allBuiltins.map (fun e => e.Name)).map toLower).Nodup := by
      rw [List.map_map]
      exact hnd
    exact List.Nodup.of_map _ h
  refine ⟨hnd', hnd, hne, hid, hlow, ?_⟩
  obtain ⟨_, params, hrun, _⟩ :=
    entryConsistent_spec b (List.all_eq_true.mp allBuiltins_all_consistent b hb)
  obtain ⟨r, hr, _⟩ := hrun 0
  obtain ⟨ps, _, hrr⟩ := buildSignatureHelp_eq_some b 0 r hr
  refine ⟨r, ?_, ?_, ?_⟩
  · unfold Builtins
    rw [getSignatureHelp_of_call g allBuiltins b hnd hb hne hid hkind hsig, hr]
    rfl
  · rw [hrr]
    rfl
  · rw [hrr]
    show clampActive ps.length 0 = 0
    rw [clampActive_eq]
    split_ifs <;> omega

/-- Witness of C32: the entry `abs`, with a generated keyword of the same name in the
registry: signature help on `abs(` at its end has the label of the curated entry and the
active parameter 0. -/
theorem curated_reachable_witness :
    (⟨bytes "abs", KindFunction, bytes "Absolute value",
        bytes "Returns the absolute value of a number", bytes "abs(value: number) -> number",
        [⟨bytes "value", bytes "Numeric value"⟩]⟩ : Builtin) ∈ allBuiltins ∧
    ∃ h : SignatureHelp,
      getSignatureHelp (Builtins [⟨bytes "abs", KindKeyword, [], [], [], []⟩])
        (bytes "abs" ++ [40]) ⟨0, (bytes "abs").length + 1⟩ = some (some h) ∧
      h.Signatures.map (fun s => s.Label) = [bytes "abs(value: number) -> number"] ∧
      h.ActiveParameter = 0 :=
  ⟨by decide,
    (curated_reachable [⟨bytes "abs", KindKeyword, [], [], [], []⟩]
      ⟨bytes "abs", KindFunction, bytes "Absolute value",
        bytes "Returns the absolute value of a number", bytes "abs(value: number) -> number",
        [⟨bytes "value", bytes "Numeric value"⟩]⟩ (by decide)).2.2.2.2.2⟩

/-! ### C33: the categories of the generated names -/

theorem foldl_toSet (ss : List GoString) : ∀ (m : GoString → Bool) (x : GoString),
    ss.foldl (fun m s => fun x => if x = s then true else m x) m x = true ↔
      x ∈ ss ∨ m x = true := by
  induction ss with
  | nil => intro m x; simp
  | cons s ss ih =>
    intro m x
    rw [List.foldl_cons, ih]
    by_cases hx : x = s
    · simp [hx]
    · simp [hx, or_comm]

theorem toSet_eq_true_iff (ss : List GoString) (x : GoString) : toSet ss x = true ↔ x ∈ ss := by
  unfold toSet
  rw [foldl_toSet]
  simp

theorem filterKeywords_eq (keywords operators primitiveTypes sqlTypes : List GoString) :
    filterKeywords keywords operators primitiveTypes sqlTypes =
      keywords.filter (fun kw => !toSet operators kw && !toSet (primitiveTypes ++ sqlTypes) kw) := by
  unfold filterKeywords
  dsimp only
  refine (foldl_append_if
    (fun kw => !toSet operators kw && !toSet (primitiveTypes ++ sqlTypes) kw)
    (fun kw => kw) keywords []).trans ?_
  rw [List.nil_append, List.map_id']

theorem mem_filterKeywords (keywords operators primitiveTypes sqlTypes : List GoString)
    (kw : GoString) :
    kw ∈ filterKeywords keywords operators primitiveTypes sqlTypes ↔
      kw ∈ keywords ∧ kw ∉ operators ∧ kw ∉ primitiveTypes ∧ kw ∉ sqlTypes := by
  rw [filterKeywords_eq, List.mem_filter]
  have h1 := toSet_eq_true_iff operators kw
  have h2 := toSet_eq_true_iff (primitiveTypes ++ sqlTypes) kw
  rw [List.mem_append] at h2
  cases ho : toSet operators kw <;> cases ht : toSet (primitiveTypes ++ sqlTypes) kw <;>
    rw [ho] at h1 <;> rw [ht] at h2 <;> simp at h1 h2 ⊢ <;> tauto

theorem emittedAs_generatedBuiltins (keywords operators primitiveTypes sqlTypes : List GoString)
    (n : GoString) (k : BuiltinKind) :
    EmittedAs (generatedBuiltins keywords operators primitiveTypes sqlTypes) n k ↔
      (k = KindKeyword ∧ n ∈ keywords ∧ n ∉ operators ∧ n ∉ primitiveTypes ∧ n ∉ sqlTypes) ∨
      (k = KindOperator ∧ n ∈ operators) ∨
      (k = KindType ∧ (n ∈ primitiveTypes ∨ n ∈ sqlTypes)) := by
  rw [← mem_filterKeywords]
  unfold EmittedAs generatedBuiltins generateFile
  constructor
  · rintro ⟨b, hb, rfl, rfl⟩
    simp only [List.mem_append, List.mem_map] at hb
    rcases hb with ((⟨x, hx, rfl⟩ | ⟨x, hx, rfl⟩) | ⟨x, hx, rfl⟩) | ⟨x, hx, rfl⟩
    · exact Or.inl ⟨rfl, hx⟩
    · exact Or.inr (Or.inl ⟨rfl, hx⟩)
    · exact Or.inr (Or.inr ⟨rfl, Or.inl hx⟩)
    · exact Or.inr (Or.inr ⟨rfl, Or.inr hx⟩)
  · simp only [List.mem_append, List.mem_map]
    rintro (⟨rfl, h⟩ | ⟨rfl, h⟩ | ⟨rfl, h | h⟩)
    · exact ⟨⟨n, KindKeyword, [], [], [], []⟩, Or.inl (Or.inl (Or.inl ⟨n, h, rfl⟩)), rfl, rfl⟩
    · exact ⟨⟨n, KindOperator, [], [], [], []⟩, Or.inl (Or.inl (Or.inr ⟨n, h, rfl⟩)), rfl, rfl⟩
    · exact ⟨⟨n, KindType, [], [], [], []⟩, Or.inl (Or.inr ⟨n, h, rfl⟩), rfl, rfl⟩
    · exact ⟨⟨n, KindType, [], [], [], []⟩, Or.inr ⟨n, h, rfl⟩, rfl, rfl⟩

/-- C33, at its failing input: with `time` extracted both as an operator and as a primitive
type, the generator emits `time` in two categories, as an operator and as a type, and the
registry built from the generated entries resolves `time` to the type.  The deduplication
covers the keywords only: a name emitted as a keyword is emitted in no other category, for
all extracted lists, and no name is emitted in two categories when no operator is a type. -/
theorem generatedBuiltins_categories :
    (generatedBuiltins [bytes "from", bytes "time"] [bytes "time"] [bytes "time"] []).map
        (fun b => (b.Name, b.Kind)) =
      [(bytes "from", KindKeyword), (bytes "time", KindOperator), (bytes "time", KindType)] ∧
    (EmittedAs (generatedBuiltins [bytes "from", bytes "time"] [bytes "time"] [bytes "time"] [])
        (bytes "time") KindOperator ∧
      EmittedAs (generatedBuiltins [bytes "from", bytes "time"] [bytes "time"] [bytes "time"] [])
        (bytes "time") KindType) ∧
    ((buildRegistry
        (generatedBuiltins [bytes "from", bytes "time"] [bytes "time"] [bytes "time"] [])
        []).Lookup (bytes "time")).map (fun b => b.Kind) = some KindType ∧
    (∀ (keywords operators primitiveTypes sqlTypes : List GoString) (n : GoString)
        (k : BuiltinKind),
      EmittedAs (generatedBuiltins keywords operators primitiveTypes sqlTypes) n KindKeyword →
      EmittedAs (generatedBuiltins keywords operators primitiveTypes sqlTypes) n k →
        k = KindKeyword) ∧
    (∀ (keywords operators primitiveTypes sqlTypes : List GoString) (n : GoString)
        (k1 k2 : BuiltinKind),
      (∀ op ∈ operators, op ∉ primitiveTypes ∧ op ∉ sqlTypes) →
      EmittedAs (generatedBuiltins keywords operators primitiveTypes sqlTypes) n k1 →
      EmittedAs (generatedBuiltins keywords operators primitiveTypes sqlTypes) n k2 →
        k1 = k2) := by
  refine ⟨by decide, ⟨?_, ?_⟩, by decide, ?_, ?_⟩
  · rw [emittedAs_generatedBuiltins]
    exact Or.inr (Or.inl ⟨rfl, by decide⟩)
  · rw [emittedAs_generatedBuiltins]
    exact Or.inr (Or.inr ⟨rfl, Or.inl (by decide)⟩)
  · intro keywords operators primitiveTypes sqlTypes n k h1 h2
    rw [emittedAs_generatedBuiltins] at h1 h2
    rcases h1 with ⟨_, _, h1o, h1p, h1s⟩ | ⟨h, _⟩ | ⟨h, _⟩
    · rcases h2 with ⟨h, _⟩ | ⟨_, h⟩ | ⟨_, h | h⟩
      · exact h
      · exact absurd h h1o
      · exact absurd h h1p
      · exact absurd h h1s
    · exact absurd h (by decide)
    · exact absurd h (by decide)
  · intro keywords operators primitiveTypes sqlTypes n k1 k2 hdis h1 h2
    rw [emittedAs_generatedBuiltins] at h1 h2
    rcases h1 with ⟨e1, _, h1o, h1p, h1s⟩ | ⟨e1, h1⟩ | ⟨e1, h1⟩ <;>
      rcases h2 with ⟨e2, _, h2o, h2p, h2s⟩ | ⟨e2, h2⟩ | ⟨e2, h2⟩
    · rw [e1, e2]
    · exact absurd h2 h1o
    · rcases h2 with h2 | h2
      · exact absurd h2 h1p
      · exact absurd h2 h1s
    · exact absurd h1 h2o
    · rw [e1, e2]
    · rcases h2 with h2 | h2
      · exact absurd h2 (hdis n h1).1
      · exact absurd h2 (hdis n h1).2
    · rcases h1 with h1 | h1
      · exact absurd h1 h2p
      · exact absurd h1 h2s
    · rcases h1 with h1 | h1
      · exact absurd h1 (hdis n h2).1
      · exact absurd h1 (hdis n h2).2
    · rw [e1, e2]

/-! ### C34: the first case-insensitive literal of a line -/

theorem indexByte?_some (c : Nat) : ∀ (l : GoString) (e : Nat), indexByte? c l = some e →
    l.drop e = c :: l.drop (e + 1) := by
  intro l
  induction l with
  | nil => intro e h; simp [indexByte?] at h
  | cons x xs ih =>
    intro e h
    rw [indexByte?] at h
    by_cases hx : x = c
    · rw [if_pos hx] at h
      cases h
      simp [hx]
    · rw [if_neg hx] at h
      cases hi : indexByte? c xs with
      | none => rw [hi] at h; cases h
      | some j =>
        rw [hi] at h
        cases h
        exact ih j hi

theorem extractLoop_nil : ∀ n, extractLoop n [] = [] := by
  intro n
  cases n <;> rfl

theorem quotedLiterals_nil : ∀ n, quotedLiterals n [] = [] := by
  intro n
  cases n <;> rfl

theorem extractLoop_fuel : ∀ (n m : Nat) (l : GoString), l.length ≤ n → l.length ≤ m →
    extractLoop n l = extractLoop m l := by
  intro n
  induction n with
  | zero =>
    intro m l hn _
    have : l = [] := List.length_eq_zero.mp (Nat.le_zero.mp hn)
    subst this
    rw [extractLoop_nil, extractLoop_nil]
  | succ n ih =>
    intro m l hn hm
    cases l with
    | nil => rw [extractLoop_nil, extractLoop_nil]
    | cons c cs =>
      cases m with
      | zero => simp at hm
      | succ m =>
        have hn' : cs.length ≤ n := by simpa using hn
        have hm' : cs.length ≤ m := by simpa using hm
        rw [extractLoop, extractLoop]
        by_cases hc : c ≠ 34
        · rw [if_pos hc, if_pos hc]
          exact ih m cs hn' hm'
        · rw [if_neg hc, if_neg hc]
          cases indexByte? 34 cs with
          | none => rfl
          | some e =>
            dsimp only
            have hlen : ((cs.drop (e + 1)).drop 1).length ≤ cs.length := by
              simp only [List.length_drop]
              omega
            rw [ih m ((cs.drop (e + 1)).drop 1) (by omega) (by omega)]

theorem quotedLiterals_fuel : ∀ (n m : Nat) (l : GoString), l.length ≤ n → l.length ≤ m →
    quotedLiterals n l = quotedLiterals m l := by
  intro n
  induction n with
  | zero =>
    intro m l hn _
    have : l = [] := List.length_eq_zero.mp (Nat.le_zero.mp hn)
    subst this
    rw [quotedLiterals_nil, quotedLiterals_nil]
  | succ n ih =>
    intro m l hn hm
    cases l with
    | nil => rw [quotedLiterals_nil, quotedLiterals_nil]
    | cons c cs =>
      cases m with
      | zero => simp at hm
      | succ m =>
        have hn' : cs.length ≤ n := by simpa using hn
        have hm' : cs.length ≤ m := by simpa using hm
        rw [quotedLiterals, quotedLiterals]
        by_cases hc : c ≠ 34
        · rw [if_pos hc, if_pos hc]
          exact ih m cs hn' hm'
        · rw [if_neg hc, if_neg hc]
          cases indexByte? 34 cs with
          | none => rfl
          | some e =>
            dsimp only
            have hlen : (cs.drop (e + 1)).length ≤ cs.length := by
              simp only [List.length_drop]
              omega
            rw [ih m (cs.drop (e + 1)) (by omega) (by omega)]

theorem extractLoop_eq_firstMarked : ∀ (n : Nat) (l : GoString), l.length ≤ n →
    List.Chain' (fun a b => ¬(a = 34 ∧ b = 34)) l →
    extractLoop n l = firstMarked (quotedLiterals n l) := by
  intro n
  induction n with
  | zero => intro l _ _; rfl
  | succ n ih =>
    intro l hn hch
    cases l with
    | nil => rfl
    | cons c cs =>
      have hn' : cs.length ≤ n := by simpa using hn
      have hcs : List.Chain' (fun a b => ¬(a = 34 ∧ b = 34)) cs :=
        hch.suffix (List.suffix_cons c cs)
      rw [extractLoop, quotedLiterals]
      by_cases hc : c ≠ 34
      · rw [if_pos hc, if_pos hc]
        exact ih cs hn' hcs
      · rw [if_neg hc, if_neg hc]
        cases hi : indexByte? 34 cs with
        | none => rfl
        | some e =>
          dsimp only
          have hdrop := indexByte?_some 34 cs e hi
          by_cases hh : (cs.drop (e + 1)).head? = some 105
          · rw [if_pos hh]
            unfold firstMarked
            rw [List.find?_cons_of_pos _ (by simp [hh])]
          · rw [if_neg hh]
            have hrhs : firstMarked ((cs.take e, (cs.drop (e + 1)).head?) ::
                quotedLiterals n (cs.drop (e + 1))) =
                firstMarked (quotedLiterals n (cs.drop (e + 1))) := by
              unfold firstMarked
              rw [List.find?_cons_of_neg _ (by simpa using hh)]
            rw [hrhs]
            cases hafter : cs.drop (e + 1) with
            | nil => rw [List.drop_nil, extractLoop_nil, quotedLiterals_nil]; rfl
            | cons x xs =>
              have hlen : (cs.drop (e + 1)).length ≤ cs.length := by
                simp only [List.length_drop]
                omega
              rw [hafter] at hlen hdrop
              have hxs : xs.length + 1 ≤ n := by
                have : (x :: xs).length = xs.length + 1 := rfl
                omega
              have hch2 : List.Chain' (fun a b => ¬(a = 34 ∧ b = 34)) (34 :: x :: xs) := by
                rw [← hdrop]
                exact hcs.suffix (List.drop_suffix e cs)
              rw [List.chain'_cons] at hch2
              have hx : x ≠ 34 := fun hx => hch2.1 ⟨rfl, hx⟩
              have hchx : List.Chain' (fun a b => ¬(a = 34 ∧ b = 34)) xs :=
                hch2.2.suffix (List.suffix_cons x xs)
              obtain ⟨n', rfl⟩ : ∃ n', n = n' + 1 := ⟨n - 1, by omega⟩
              rw [List.drop_one, List.tail_cons, ih xs (by omega) hchx]
              congr 1
              conv_rhs => rw [quotedLiterals, if_pos hx]
              exact quotedLiterals_fuel (n' + 1) n' xs (by omega) (by omega)

/-- C34, at its failing input: on the line `"a""b"i` the literals read left to right are
`a`, followed by a quote, and `b`, followed by `i`, so the first case-insensitive literal is
`b`; `extractCaseInsensitiveLiteral` returns the empty string, because after the literal
`a` the loop resumes one byte past the index after its closing quote and so steps over
the opening quote of `b`.  With a blank between the two literals it returns `b`; it
returns the first case-insensitive literal on every line without two adjacent quotes; and
the loop never needs more iterations than the line has bytes. -/
theorem extractCaseInsensitiveLiteral_adjacent :
    quotedLiterals 7 [34, 97, 34, 34, 98, 34, 105] = [([97], some 34), ([98], some 105)] ∧
    firstInsensitiveLiteral [34, 97, 34, 34, 98, 34, 105] = [98] ∧
    extractCaseInsensitiveLiteral [34, 97, 34, 34, 98, 34, 105] = [] ∧
    extractCaseInsensitiveLiteral [34, 97, 34, 32, 34, 98, 34, 105] = [98] ∧
    (∀ line : GoString, List.Chain' (fun a b => ¬(a = 34 ∧ b = 34)) line →
      extractCaseInsensitiveLiteral line = firstInsensitiveLiteral line) ∧
    (∀ (n : Nat) (line : GoString), line.length ≤ n →
      extractLoop n line = extractCaseInsensitiveLiteral line) := by
  refine ⟨by decide, by decide, by decide, by decide, ?_, ?_⟩
  · intro line h
    exact extractLoop_eq_firstMarked line.length line (Nat.le_refl _) h
  · intro n line h
    exact extractLoop_fuel n line.length line h (Nat.le_refl _)

/-! ### C5: when signature help is present -/

theorem lastNamed_mem (l : List Builtin) (n : GoString) (b : Builtin)
    (h : lastNamed l n = some b) : b ∈ l := by
  unfold lastNamed at h
  exact List.mem_reverse.mp (List.mem_of_find?_eq_some h)

theorem getSignatureHelp_cases (r : Registry) (text : GoString) (pos : Position) :
    ((¬ ∃ b, Resolves r text pos b) ∧ getSignatureHelp r text pos = some none) ∨
    (∃ b, Resolves r text pos b ∧
      getSignatureHelp r text pos =
        (buildSignatureHelp b (findFunctionContext text pos).2).map some) := by
  unfold getSignatureHelp
  dsimp only
  by_cases hn : (findFunctionContext text pos).1 = []
  · left
    rw [if_pos hn]
    exact ⟨fun ⟨_, h, _⟩ => h hn, rfl⟩
  · rw [if_neg hn]
    cases hl : r.Lookup (findFunctionContext text pos).1 with
    | none =>
      left
      refine ⟨?_, rfl⟩
      rintro ⟨b, _, h, _⟩
      rw [hl] at h
      cases h
    | some b =>
      dsimp only
      by_cases hkind : b.Kind ≠ KindFunction ∧ b.Kind ≠ KindAggregate
      · left
        rw [if_pos hkind]
        refine ⟨?_, rfl⟩
        rintro ⟨b', _, h, hk, _⟩
        rw [hl] at h
        cases h
        tauto
      · rw [if_neg hkind]
        by_cases hsig : b.Signature = []
        · left
          rw [if_pos hsig]
          refine ⟨?_, rfl⟩
          rintro ⟨b', _, h, _, hs⟩
          rw [hl] at h
          cases h
          exact hs hsig
        · right
          rw [if_neg hsig]
          exact ⟨b, ⟨hn, hl, by tauto, hsig⟩, rfl⟩

theorem getSignatureHelp_eq_some_some (r : Registry) (text : GoString) (pos : Position)
    (h : SignatureHelp) :
    getSignatureHelp r text pos = some (some h) ↔
      ∃ b, Resolves r text pos b ∧
        buildSignatureHelp b (findFunctionContext text pos).2 = some h := by
  rcases getSignatureHelp_cases r text pos with ⟨hno, hres⟩ | ⟨b, hb, hres⟩
  · rw [hres]
    constructor
    · intro hc; cases hc
    · rintro ⟨b, hb, _⟩
      exact absurd ⟨b, hb⟩ hno
  · rw [hres]
    constructor
    · intro hc
      refine ⟨b, hb, ?_⟩
      cases hbs : buildSignatureHelp b (findFunctionContext text pos).2 with
      | none => rw [hbs] at hc; cases hc
      | some h' =>
        rw [hbs] at hc
        simp only [Option.map_some', Option.some.injEq] at hc
        rw [hc]
    · rintro ⟨b', hb', hbs⟩
      have : b' = b := by
        have h1 := hb'.2.1
        rw [hb.2.1] at h1
        exact (Option.some.inj h1).symm
      subst this
      rw [hbs]
      rfl

theorem getSignatureHelp_eq_some_none (r : Registry) (text : GoString) (pos : Position) :
    getSignatureHelp r text pos = some none ↔ ¬ ∃ b, Resolves r text pos b := by
  rcases getSignatureHelp_cases r text pos with ⟨hno, hres⟩ | ⟨b, hb, hres⟩
  · exact ⟨fun _ => hno, fun _ => hres⟩
  · rw [hres]
    constructor
    · intro hc
      cases hbs : buildSignatureHelp b (findFunctionContext text pos).2 with
      | none => rw [hbs] at hc; cases hc
      | some h' => rw [hbs] at hc; cases hc
    · intro hno
      exact absurd ⟨b, hb⟩ hno

theorem buildSignatureHelp_of_Lookup (g : List Builtin) (hg : ∀ b ∈ g, b.Signature = [])
    (n : GoString) (b : Builtin) (hl : (Builtins g).Lookup n = some b)
    (hsig : b.Signature ≠ []) (a : Int) : ∃ h, buildSignatureHelp b a = some h := by
  unfold Builtins at hl
  rw [buildRegistry_Lookup] at hl
  have hmem := lastNamed_mem _ _ _ hl
  rcases List.mem_append.mp hmem with hb | hb
  · exact absurd (hg b hb) hsig
  · obtain ⟨_, params, hrun, _⟩ :=
      entryConsistent_spec b (List.all_eq_true.mp allBuiltins_all_consistent b hb)
    obtain ⟨r, hr, _⟩ := hrun a
    exact ⟨r, hr⟩

/-- C5: in the registry of the program, built from generated entries, which hold a name
and a kind and no signature, and the curated table, `getSignatureHelp` returns a result
if and only if `findFunctionContext` yields a non-empty name, the name resolves in the
registry, the element found is a function or an aggregate, and its signature is not
empty; the result is then the payload that `buildSignatureHelp` returns for that element
and the scanned parameter index, and otherwise the result is absent; the call never
fails.  In any registry, a result `h` is returned exactly when the four conditions hold
and `buildSignatureHelp` returns `h`, and the absent result exactly when they do not
hold. -/
theorem getSignatureHelp_iff (g : List Builtin) (hg : ∀ b ∈ g, b.Signature = [])
    (text : GoString) (pos : Position) :
    ((∃ h, getSignatureHelp (Builtins g) text pos = some (some h)) ↔
      ∃ b, Resolves (Builtins g) text pos b) ∧
    (∀ b, Resolves (Builtins g) text pos b →
      ∃ h, buildSignatureHelp b (findFunctionContext text pos).2 = some h ∧
        getSignatureHelp (Builtins g) text pos = some (some h)) ∧
    (getSignatureHelp (Builtins g) text pos = some none ↔
      ¬ ∃ b, Resolves (Builtins g) text pos b) ∧
    getSignatureHelp (Builtins g) text pos ≠ none ∧
    (∀ (r : Registry) (h : SignatureHelp),
      getSignatureHelp r text pos = some (some h) ↔
        ∃ b, Resolves r text pos b ∧
          buildSignatureHelp b (findFunctionContext text pos).2 = some h) ∧
    (∀ r : Registry, getSignatureHelp r text pos = some none ↔
      ¬ ∃ b, Resolves r text pos b) := by
  have hpay : ∀ b, Resolves (Builtins g) text pos b →
      ∃ h, buildSignatureHelp b (findFunctionContext text pos).2 = some h ∧
        getSignatureHelp (Builtins g) text pos = some (some h) := by
    intro b hb
    obtain ⟨h, hh⟩ := buildSignatureHelp_of_Lookup g hg _ b hb.2.1 hb.2.2.2
      (findFunctionContext text pos).2
    exact ⟨h, hh, (getSignatureHelp_eq_some_some _ text pos h).mpr ⟨b, hb, hh⟩⟩
  refine ⟨⟨?_, ?_⟩, hpay, getSignatureHelp_eq_some_none _ text pos, ?_,
    fun r h => getSignatureHelp_eq_some_some r text pos h,
    fun r => getSignatureHelp_eq_some_none r text pos⟩
  · rintro ⟨h, hh⟩
    obtain ⟨b, hb, _⟩ := (getSignatureHelp_eq_some_some _ text pos h).mp hh
    exact ⟨b, hb⟩
  · rintro ⟨b, hb⟩
    obtain ⟨h, _, hh⟩ := hpay b hb
    exact ⟨h, hh⟩
  · rcases getSignatureHelp_cases (Builtins g) text pos with ⟨_, hres⟩ | ⟨b, hb, _⟩
    · rw [hres]
      exact fun hc => by cases hc
    · obtain ⟨h, _, hh⟩ := hpay b hb
      rw [hh]
      exact fun hc => by cases hc

/-- Witness of C5: with a generated keyword, operator and type in the registry, each of
them followed by `(` gives the absent result, and so does a name that is not registered;
`ABS(` resolves the curated function `abs`, whatever the case, and the result is the
payload of its signature with the active parameter 0. -/
theorem getSignatureHelp_iff_witness :
    getSignatureHelp
      (Builtins [⟨bytes "from", KindKeyword, [], [], [], []⟩,
        ⟨bytes "sort", KindOperator, [], [], [], []⟩, ⟨bytes "int64", KindType, [], [], [], []⟩])
      (bytes "from(") ⟨0, 5⟩ = some none ∧
    getSignatureHelp
      (Builtins [⟨bytes "from", KindKeyword, [], [], [], []⟩,
        ⟨bytes "sort", KindOperator, [], [], [], []⟩, ⟨bytes "int64", KindType, [], [], [], []⟩])
      (bytes "sort(") ⟨0, 5⟩ = some none ∧
    getSignatureHelp
      (Builtins [⟨bytes "from", KindKeyword, [], [], [], []⟩,
        ⟨bytes "sort", KindOperator, [], [], [], []⟩, ⟨bytes "int64", KindType, [], [], [], []⟩])
      (bytes "int64(") ⟨0, 6⟩ = some none ∧
    getSignatureHelp
      (Builtins [⟨bytes "from", KindKeyword, [], [], [], []⟩,
        ⟨bytes "sort", KindOperator, [], [], [], []⟩, ⟨bytes "int64", KindType, [], [], [], []⟩])
      (bytes "other(") ⟨0, 6⟩ = some none ∧
    getSignatureHelp (buildRegistry []
        [⟨bytes "nosig", KindFunction, bytes "No signature", [], [], []⟩])
      (bytes "nosig(") ⟨0, 6⟩ = some none ∧
    (getSignatureHelp
      (Builtins [⟨bytes "from", KindKeyword, [], [], [], []⟩,
        ⟨bytes "sort", KindOperator, [], [], [], []⟩, ⟨bytes "int64", KindType, [], [], [], []⟩])
      (bytes "ABS(") ⟨0, 4⟩).map
        (fun r => r.map (fun h => (h.Signatures.map (fun s => s.Label), h.ActiveParameter))) =
      some (some ([bytes "abs(value: number) -> number"], 0)) ∧
    ∃ h, getSignatureHelp
      (Builtins [⟨bytes "from", KindKeyword, [], [], [], []⟩,
        ⟨bytes "sort", KindOperator, [], [], [], []⟩, ⟨bytes "int64", KindType, [], [], [], []⟩])
      (bytes "ABS(") ⟨0, 4⟩ = some (some h) :=
  ⟨by decide, by decide, by decide, by decide, by decide, by decide,
   (getSignatureHelp_iff
      [⟨bytes "from", KindKeyword, [], [], [], []⟩,
        ⟨bytes "sort", KindOperator, [], [], [], []⟩, ⟨bytes "int64", KindType, [], [], [], []⟩]
      (by decide) (bytes "ABS(") ⟨0, 4⟩).1.mpr
     ⟨⟨bytes "abs", KindFunction, bytes "Absolute value",
        bytes "Returns the absolute value of a number", bytes "abs(value: number) -> number",
        [⟨bytes "value", bytes "Numeric value"⟩]⟩,
      by decide, by decide, by decide, by decide⟩⟩

end Lsp
